import Mathlib

/-!
SpanningTree: a shallow embedding of the graph model and of the randomized
maximum-leaf spanning tree search.

The C++ sources embedded here are `src/core/graph.cpp` (class `Graph`) and
`src/core/spanning_tree.cpp` (class `SpanningTree`).

Conventions of the embedding.

* C++ `int` values are `Int`.  Container sizes are assumed to fit in `int`
  (`static_cast<int>(adj.size())` is the identity), so no wrap-around occurs.
* `std::vector<T>` is `List T`.  `operator[]` with an index outside the vector
  is undefined behaviour in C++; the embedding makes it the explicit result
  `Fault.undefinedBehaviour`.
* A C++ exception is the `Except.error` result carrying the matching `Fault`.
* The `while (!queue.empty())` loops are driven by a fuel counter; running out
  of fuel is the explicit result `Fault.outOfFuel`, and the theorems show that
  the fuel handed to the loops by their callers is always sufficient.
* The random source (`std::mt19937` together with `std::uniform_int_distribution`
  and `std::shuffle`) is a parameter `RandomSource σ` over an arbitrary state
  type `σ`, constrained only by the contracts of the two library calls.
-/

namespace SpanningTreeRepo

/-! ## Faults and vector access -/

/-- The ways an embedded operation can fail: the two C++ exceptions thrown by the
core, undefined behaviour (out-of-bounds indexing), and fuel exhaustion. -/
inductive Fault where
  | invalidArgument
  | outOfRange
  | undefinedBehaviour
  | outOfFuel
deriving DecidableEq, Repr

deriving instance DecidableEq for Except

/-- Read `vec[i]` for a C++ `int` index: `none` when the index is out of bounds. -/
def getAt {α : Type} (vec : List α) (i : Int) : Option α :=
  if i < 0 then none else vec[i.toNat]?

/-- Write `vec[i] = x` for a C++ `int` index (used only after a bounds check). -/
def setAt {α : Type} (vec : List α) (i : Int) (x : α) : List α :=
  if i < 0 then vec else vec.set i.toNat x

/-- Apply `f` in place to `vec[i]` (used only after a bounds check). -/
def modifyAt {α : Type} (vec : List α) (i : Int) (f : α → α) : List α :=
  match getAt vec i with
  | none => vec
  | some x => setAt vec i (f x)

/-! ## `Graph` (graph.hpp / graph.cpp) -/

/-- The class `Graph`: the vertex count `V` and the adjacency list `adj`. -/
structure Graph where
  V : Int
  adj : List (List Int)
deriving DecidableEq, Repr

namespace Graph

/-- The constructor `Graph::Graph(int vertices)`. -/
def create (vertices : Int) : Except Fault Graph :=
  if vertices < 0 then
    .error .invalidArgument
  else
    .ok { V := vertices, adj := List.replicate vertices.toNat [] }

/-- The range check shared by `addEdge` and `removeEdge`. -/
def indexOutOfRange (g : Graph) (v1 v2 : Int) : Bool :=
  decide (v1 < 0) || decide (v1 ≥ (g.adj.length : Int)) ||
    decide (v2 < 0) || decide (v2 ≥ (g.adj.length : Int))

/-- The method `Graph::addEdge(int v1, int v2)`.  The object is mutated in
place, so the embedding returns the outcome of the call together with the state
of the object after it. -/
def addEdge (g : Graph) (v1 v2 : Int) : Except Fault Unit × Graph :=
  if g.indexOutOfRange v1 v2 then
    (.error .outOfRange, g)
  else
    let adj1 := modifyAt g.adj v1 (fun l => l ++ [v2])
    let adj2 := modifyAt adj1 v2 (fun l => l ++ [v1])
    (.ok (), { g with adj := adj2 })

/-- The method `Graph::removeEdge(int v1, int v2)`: the erase-remove idiom
`adj1.erase(std::remove(adj1.begin(), adj1.end(), v2), adj1.end())` deletes
every element equal to `v2` and keeps the others in order.  As for `addEdge`,
the result is the outcome together with the state of the object afterwards. -/
def removeEdge (g : Graph) (v1 v2 : Int) : Except Fault Unit × Graph :=
  if g.indexOutOfRange v1 v2 then
    (.error .outOfRange, g)
  else
    let adj1 := modifyAt g.adj v1 (fun l => l.filter (fun x => x != v2))
    let adj2 := modifyAt adj1 v2 (fun l => l.filter (fun x => x != v1))
    (.ok (), { g with adj := adj2 })

/-- The accessor `adj[v]` as a total function: the neighbour sequence of `v`,
empty when `v` is not a vertex. -/
def neighbors (g : Graph) (v : Int) : List Int :=
  (getAt g.adj v).getD []

end Graph

/-- The class invariant set up by the constructor: `adj` has `V` rows. -/
def Graph.SizeOk (g : Graph) : Prop := (g.adj.length : Int) = g.V

/-- Every adjacency entry is a vertex index. -/
def Graph.EntriesInRange (g : Graph) : Prop :=
  ∀ l ∈ g.adj, ∀ x ∈ l, 0 ≤ x ∧ x < (g.adj.length : Int)

/-- The index `v` denotes a vertex of `g`. -/
def Graph.IsVertex (g : Graph) (v : Int) : Prop := 0 ≤ v ∧ v < g.V

instance Graph.decidableSizeOk (g : Graph) : Decidable g.SizeOk :=
  inferInstanceAs (Decidable ((g.adj.length : Int) = g.V))

instance Graph.decidableEntriesInRange (g : Graph) : Decidable g.EntriesInRange :=
  inferInstanceAs (Decidable (∀ l ∈ g.adj, ∀ x ∈ l, 0 ≤ x ∧ x < (g.adj.length : Int)))

instance Graph.decidableIsVertex (g : Graph) (v : Int) : Decidable (g.IsVertex v) :=
  inferInstanceAs (Decidable (0 ≤ v ∧ v < g.V))

/-! ## `Graph::isConnected` -/

/-- The local variables of `Graph::isConnected`. -/
structure ConnState where
  visited : List Bool
  queue : List Int
  visitedCount : Int
deriving DecidableEq, Repr

/-- The loop `for (int neighbor : adj[v])` of `Graph::isConnected`, run over the
neighbours still to be looked at. -/
def isConnectedVisit : List Int → ConnState → Except Fault ConnState
  | [], st => .ok st
  | neighbor :: rest, st =>
    match getAt st.visited neighbor with
    | none => .error .undefinedBehaviour
    | some true => isConnectedVisit rest st
    | some false =>
      isConnectedVisit rest
        { visited := setAt st.visited neighbor true
          queue := st.queue ++ [neighbor]
          visitedCount := st.visitedCount + 1 }

/-- The loop `while (!queue.empty())` of `Graph::isConnected`, with fuel. -/
def isConnectedLoop (adj : List (List Int)) : Nat → ConnState → Except Fault ConnState
  | fuel, st =>
    match st.queue with
    | [] => .ok st
    | v :: rest =>
      match fuel with
      | 0 => .error .outOfFuel
      | fuel + 1 =>
        match getAt adj v with
        | none => .error .undefinedBehaviour
        | some nbrs =>
          match isConnectedVisit nbrs { st with queue := rest } with
          | .error e => .error e
          | .ok st1 => isConnectedLoop adj fuel st1

/-- The method `Graph::isConnected()`.  The loop is given `adj.size()` units of
fuel: one per vertex that can ever be enqueued. -/
def Graph.isConnected (g : Graph) : Except Fault Bool :=
  if g.adj.isEmpty then
    .ok true
  else
    let visited := setAt (List.replicate g.adj.length false) 0 true
    match isConnectedLoop g.adj g.adj.length
        { visited := visited, queue := [0], visitedCount := 1 } with
    | .error e => .error e
    | .ok st => .ok (decide (st.visitedCount = (g.adj.length : Int)))

/-! ## The random source -/

/-- The random source handed to the search: a generator state of type `σ`
together with the two library operations the code applies to it,
`std::uniform_int_distribution<int>(lo, hi)(rng)` and
`std::shuffle(first, last, rng)`, each returning the advanced state.  The two
fields after them are the contracts of those library calls. -/
structure RandomSource (σ : Type) where
  uniformInt : σ → Int → Int → Int × σ
  shuffle : σ → List Int → List Int × σ
  uniformInt_range : ∀ s lo hi, lo ≤ hi →
    lo ≤ (uniformInt s lo hi).1 ∧ (uniformInt s lo hi).1 ≤ hi
  shuffle_perm : ∀ s l, List.Perm (shuffle s l).1 l

/-! ## `SpanningTree` (spanning_tree.hpp / spanning_tree.cpp) -/

/-- The class `SpanningTree`: a reference to the graph. -/
structure SpanningTree where
  graph : Graph
deriving DecidableEq, Repr

/-- The constructor `SpanningTree::SpanningTree(const Graph& g)`. -/
def SpanningTree.create (g : Graph) : Except Fault SpanningTree :=
  match g.isConnected with
  | .error e => .error e
  | .ok true => .ok { graph := g }
  | .ok false => .error .invalidArgument

/-- The local variables of `generateRandomSpanningTree` that its loop updates. -/
structure TreeState where
  visited : List Bool
  parent : List Int
  q : List Int
deriving DecidableEq, Repr

/-- The loop `for (int v : neighbors)` of `generateRandomSpanningTree`, run over
the shuffled neighbours still to be looked at. -/
def generateVisit (u : Int) : List Int → TreeState → Except Fault TreeState
  | [], st => .ok st
  | v :: rest, st =>
    match getAt st.visited v with
    | none => .error .undefinedBehaviour
    | some true => generateVisit u rest st
    | some false =>
      match getAt st.parent v with
      | none => .error .undefinedBehaviour
      | some _ =>
        generateVisit u rest
          { visited := setAt st.visited v true
            parent := setAt st.parent v u
            q := st.q ++ [v] }

/-- The loop `while (!q.empty())` of `generateRandomSpanningTree`, with fuel. -/
def generateLoop {σ : Type} (rs : RandomSource σ) (adj : List (List Int)) :
    Nat → σ → TreeState → Except Fault (TreeState × σ)
  | fuel, rng, st =>
    match st.q with
    | [] => .ok (st, rng)
    | u :: rest =>
      match fuel with
      | 0 => .error .outOfFuel
      | fuel + 1 =>
        match getAt adj u with
        | none => .error .undefinedBehaviour
        | some nbrs =>
          match generateVisit u (rs.shuffle rng nbrs).1 { st with q := rest } with
          | .error e => .error e
          | .ok st1 => generateLoop rs adj fuel (rs.shuffle rng nbrs).2 st1

/-- The method `SpanningTree::generateRandomSpanningTree(std::mt19937& rng)`:
the parent array together with the advanced generator state.  The loop is given
`V` units of fuel: one per vertex that can ever be enqueued. -/
def SpanningTree.generateRandomSpanningTree {σ : Type} (rs : RandomSource σ)
    (t : SpanningTree) (rng : σ) : Except Fault (List Int × σ) :=
  let V := t.graph.V
  let parent : List Int := List.replicate V.toNat (-1)
  if V ≤ 1 then
    .ok (parent, rng)
  else
    let visited := List.replicate V.toNat false
    let start := (rs.uniformInt rng 0 (V - 1)).1
    let rng1 := (rs.uniformInt rng 0 (V - 1)).2
    match getAt visited start with
    | none => .error .undefinedBehaviour
    | some _ =>
      match generateLoop rs t.graph.adj V.toNat rng1
          { visited := setAt visited start true, parent := parent, q := [start] } with
      | .error e => .error e
      | .ok (st, rng2) => .ok (st.parent, rng2)

/-- The loop `for (int i = 0; i < n; ++i)` of `countLeaves`, run over the entries
`parent[i], parent[i+1], ...` still to be looked at. -/
def countLeavesLoop : List Int → Int → List Int → Except Fault (List Int)
  | [], _, degree => .ok degree
  | p :: rest, i, degree =>
    if p != -1 then
      match getAt degree i with
      | none => .error .undefinedBehaviour
      | some _ =>
        let degree1 := modifyAt degree i (fun d => d + 1)
        match getAt degree1 p with
        | none => .error .undefinedBehaviour
        | some _ => countLeavesLoop rest (i + 1) (modifyAt degree1 p (fun d => d + 1))
    else
      countLeavesLoop rest (i + 1) degree

/-- The static method `SpanningTree::countLeaves(const std::vector<int>& parent)`. -/
def SpanningTree.countLeaves (parent : List Int) : Except Fault Int :=
  let n : Int := parent.length
  if n = 0 then .ok 0
  else if n = 1 then .ok 1
  else
    match countLeavesLoop parent 0 (List.replicate parent.length 0) with
    | .error e => .error e
    | .ok degree => .ok (degree.countP (fun d => d == 1))

/-- The running best of a search loop: `bestTree` and `bestLeafCount`. -/
structure Best where
  tree : List Int
  leafCount : Int
deriving DecidableEq, Repr

/-- The loop of the sequential path of `findBestTreeParallel` (the `#else`
branch), run for the given number of remaining trials. -/
def sequentialLoop {σ : Type} (rs : RandomSource σ) (t : SpanningTree) :
    Nat → σ → Best → Except Fault (Best × σ)
  | 0, rng, best => .ok (best, rng)
  | n + 1, rng, best =>
    match t.generateRandomSpanningTree rs rng with
    | .error e => .error e
    | .ok (tree, rng1) =>
      match SpanningTree.countLeaves tree with
      | .error e => .error e
      | .ok leaves =>
        if leaves > best.leafCount then
          sequentialLoop rs t n rng1 { tree := tree, leafCount := leaves }
        else
          sequentialLoop rs t n rng1 best

/-- The loop of one thread of the OpenMP path of `findBestTreeParallel`
(`for (int i = 0; i < iterationsPerThread; ++i)`), run for the given number of
remaining trials on the thread-local generator and thread-local best. -/
def workerLoop {σ : Type} (rs : RandomSource σ) (t : SpanningTree) :
    Nat → σ → Best → Except Fault (Best × σ)
  | 0, localRng, localBest => .ok (localBest, localRng)
  | n + 1, localRng, localBest =>
    match t.generateRandomSpanningTree rs localRng with
    | .error e => .error e
    | .ok (tree, localRng1) =>
      match SpanningTree.countLeaves tree with
      | .error e => .error e
      | .ok leaves =>
        if leaves > localBest.leafCount then
          workerLoop rs t n localRng1 { tree := tree, leafCount := leaves }
        else
          workerLoop rs t n localRng1 localBest

/-- The body of the `#pragma omp parallel` region for one thread: the local
loop, then the critical section guarded by the mutex, which merges the local
best into the shared best. -/
def workerBody {σ : Type} (rs : RandomSource σ) (t : SpanningTree)
    (iterations numThreads : Int) (localRng : σ) (shared : Best) : Except Fault Best :=
  if numThreads = 0 then
    .error .undefinedBehaviour
  else
    let iterationsPerThread := Int.tdiv iterations numThreads
    match workerLoop rs t iterationsPerThread.toNat localRng { tree := [], leafCount := -1 } with
    | .error e => .error e
    | .ok (localBest, _) =>
      if localBest.leafCount > shared.leafCount then .ok localBest else .ok shared

/-- The parallel region: the threads of the team, listed in the order in which
they enter the critical section, each given by the state of its local
generator.  The thread-local loops touch only thread-local state and the
read-only graph, and the critical sections exclude one another, so the region
computes the same shared best as running the bodies one after the other in
that order. -/
def parallelRegion {σ : Type} (rs : RandomSource σ) (t : SpanningTree)
    (iterations numThreads : Int) : List σ → Best → Except Fault Best
  | [], shared => .ok shared
  | localRng :: team, shared =>
    match workerBody rs t iterations numThreads localRng shared with
    | .error e => .error e
    | .ok shared1 => parallelRegion rs t iterations numThreads team shared1

/-- How the translation unit was compiled, with the randomness it draws at run
time: without `_OPENMP` the single generator seeded from `std::random_device`;
with `_OPENMP` the local generators of the threads of the team. -/
inductive Build (σ : Type) where
  | sequential (rng : σ)
  | openmp (team : List σ)

/-- The method `SpanningTree::findBestTreeParallel(int iterations, int numThreads)`. -/
def SpanningTree.findBestTreeParallel {σ : Type} (rs : RandomSource σ) (t : SpanningTree)
    (build : Build σ) (iterations numThreads : Int) : Except Fault (List Int) :=
  match build with
  | .openmp team =>
    match parallelRegion rs t iterations numThreads team { tree := [], leafCount := -1 } with
    | .error e => .error e
    | .ok best => .ok best.tree
  | .sequential rng =>
    match sequentialLoop rs t iterations.toNat rng { tree := [], leafCount := -1 } with
    | .error e => .error e
    | .ok (best, _) => .ok best.tree

/-- The method `SpanningTree::findMaxLeafSpanningTree(int iterations, int numThreads)`.
The value `hardwareThreads` is what `omp_get_max_threads()`, respectively
`std::thread::hardware_concurrency()`, reports. -/
def SpanningTree.findMaxLeafSpanningTree {σ : Type} (rs : RandomSource σ) (t : SpanningTree)
    (build : Build σ) (hardwareThreads : Int) (iterations numThreads : Int) :
    Except Fault (List Int) :=
  if numThreads ≤ 0 then
    t.findBestTreeParallel rs build iterations hardwareThreads
  else
    t.findBestTreeParallel rs build iterations numThreads

/-! ## Specification vocabulary -/

/-- `g.Reachable a b`: vertex `b` is reached from `a` along adjacency entries. -/
inductive Graph.Reachable (g : Graph) : Int → Int → Prop
  | refl (a : Int) : Graph.Reachable g a a
  | step {a b c : Int} : Graph.Reachable g a b → c ∈ g.neighbors b → Graph.Reachable g a c

/-- Every vertex is reached from vertex 0. -/
def Graph.Connected (g : Graph) : Prop := ∀ v, g.IsVertex v → g.Reachable 0 v

/-- The adjacency structure is symmetric: whenever `v` occurs in the neighbour
sequence of a vertex `u`, `u` occurs in that of `v`. -/
def Graph.Symmetric (g : Graph) : Prop :=
  ∀ u ∈ List.range g.adj.length, ∀ v ∈ g.neighbors (u : Int), (u : Int) ∈ g.neighbors v

instance Graph.decidableSymmetric (g : Graph) : Decidable g.Symmetric :=
  inferInstanceAs (Decidable
    (∀ u ∈ List.range g.adj.length, ∀ v ∈ g.neighbors (u : Int), (u : Int) ∈ g.neighbors v))

/-- The vertex reached from `v` by following `k` parent links, if there is one:
a link out of `v` exists when `parent[v]` is in bounds and is not the sentinel. -/
def ancestor (parent : List Int) : Nat → Int → Option Int
  | 0, v => some v
  | k + 1, v =>
    match getAt parent v with
    | none => none
    | some p => if p = -1 then none else ancestor parent k p

/-- The parent array `parent` is a spanning tree of `g` rooted at `root`. -/
structure IsSpanningTreeOf (g : Graph) (root : Int) (parent : List Int) : Prop where
  length_eq : (parent.length : Int) = g.V
  root_vertex : g.IsVertex root
  root_sentinel : getAt parent root = some (-1)
  sentinel_unique : ∀ i, getAt parent i = some (-1) → i = root
  sentinel_count : parent.count (-1) = 1
  reaches_root : ∀ v, g.IsVertex v → ∃ k, ancestor parent k v = some root
  acyclic : ∀ v k, 0 < k → ancestor parent k v ≠ some v
  edges : ∀ i p, getAt parent i = some p → p ≠ -1 → p ∈ g.neighbors i ∧ i ∈ g.neighbors p

/-- The tree-degree of vertex `i` in a parent array: one for the link to its own
parent, if it has one, plus the number of vertices whose parent it is. -/
def treeDegree (parent : List Int) (i : Nat) : Nat :=
  (if parent[i]? = some (-1) then 0 else 1) + parent.count (i : Int)

/-- The number of vertices of tree-degree exactly one. -/
def leafCount (parent : List Int) : Nat :=
  (List.range parent.length).countP (fun i => treeDegree parent i == 1)

/-- What the entries `ps = parent[i], parent[i+1], ...` add to `degree[k]`. -/
def degreeGain (ps : List Int) (i k : Nat) : Int :=
  (if i ≤ k ∧ k < i + ps.length ∧ ps[k - i]? ≠ some (-1) then 1 else 0) + (ps.count (k : Int) : Int)

/-! ## Invariants of the two breadth-first traversals -/

/-- Vertex `v` is marked in the `visited` vector. -/
def Vis (visited : List Bool) (v : Int) : Prop := getAt visited v = some true

/-- Every marked vertex that has left the queue has all its neighbours marked,
except that the vertex `u` being processed may still have the neighbours in
`todo` ahead of it. -/
def Closed (g : Graph) (visited : List Bool) (q : List Int) (u : Int) (todo : List Int) : Prop :=
  ∀ v, Vis visited v → v ∉ q → ∀ w ∈ g.neighbors v, (v = u ∧ w ∈ todo) ∨ Vis visited w

/-- The quantity that bounds the number of remaining iterations of a traversal
loop: queued vertices plus unmarked vertices. -/
def bfsMeasure (visited : List Bool) (q : List Int) : Nat :=
  q.length + visited.count false

/-- The loop invariant of `Graph::isConnected`. -/
structure ConnInv (g : Graph) (st : ConnState) : Prop where
  len : st.visited.length = g.adj.length
  zero : Vis st.visited 0
  queue_vis : ∀ x ∈ st.queue, Vis st.visited x
  sound : ∀ v, Vis st.visited v → g.Reachable 0 v
  count : st.visitedCount = (st.visited.count true : Int)

/-- The loop invariant of `generateRandomSpanningTree`, for the traversal
started at `start`. -/
structure TreeInv (g : Graph) (start : Int) (st : TreeState) : Prop where
  len_visited : st.visited.length = g.adj.length
  len_parent : st.parent.length = g.adj.length
  start_vis : Vis st.visited start
  start_parent : getAt st.parent start = some (-1)
  unvisited : ∀ v, getAt st.visited v = some false → getAt st.parent v = some (-1)
  linked : ∀ v p, getAt st.parent v = some p → p ≠ -1 →
    Vis st.visited v ∧ Vis st.visited p ∧ v ∈ g.neighbors p ∧ v ≠ start
  has_parent : ∀ v, Vis st.visited v → v ≠ start → ∃ p, getAt st.parent v = some p ∧ p ≠ -1
  reach : ∀ v, Vis st.visited v → ∃ k, ancestor st.parent k v = some start
  queue_vis : ∀ x ∈ st.q, Vis st.visited x

/-- The root of the tree built by `generateRandomSpanningTree`: the vertex drawn
from the random source, or vertex 0 when the early return is taken. -/
def drawnRoot {σ : Type} (rs : RandomSource σ) (g : Graph) (rng : σ) : Int :=
  if g.V ≤ 1 then 0 else (rs.uniformInt rng 0 (g.V - 1)).1


/-- A concrete random source over the state type `Nat` (a counter): draws cycle
through the requested range, and a shuffle reverses its input when the counter
is odd. -/
def counterSource : RandomSource Nat where
  uniformInt := fun s lo hi => (if lo ≤ hi then lo + (s : Int) % (hi - lo + 1) else lo, s + 1)
  shuffle := fun s l => (if s % 2 = 0 then l else l.reverse, s + 1)
  uniformInt_range := by
    intro s lo hi h
    simp only [h, if_true]
    constructor
    · have := Int.emod_nonneg (s : Int) (show hi - lo + 1 ≠ 0 by omega); omega
    · have := Int.emod_lt_of_pos (s : Int) (show 0 < hi - lo + 1 by omega); omega
  shuffle_perm := by
    intro s l
    dsimp only
    split
    · exact List.Perm.refl _
    · exact List.reverse_perm _

/-- The worker count used by the search: the resolution made by
`findMaxLeafSpanningTree` before it calls `findBestTreeParallel`. -/
def resolvedThreads (hardwareThreads numThreads : Int) : Int :=
  if numThreads ≤ 0 then hardwareThreads else numThreads

/-- The number of trials a search performs: `iterations` on the sequential path,
and `iterations / numThreads` for each thread of the team on the OpenMP path. -/
def Build.trialCount {σ : Type} : Build σ → Int → Int → Nat
  | .sequential _, iterations, _ => iterations.toNat
  | .openmp team, iterations, numThreads => team.length * (Int.tdiv iterations numThreads).toNat

/-- The running best holds a spanning tree of `g` together with its leaf count. -/
def BestValid (g : Graph) (best : Best) : Prop :=
  ∃ root, IsSpanningTreeOf g root best.tree ∧
    SpanningTree.countLeaves best.tree = .ok best.leafCount ∧ 0 ≤ best.leafCount

/-- The graph-degree of vertex `i`: the length of its neighbour sequence. -/
def Graph.degree (g : Graph) (i : Nat) : Nat := (g.neighbors (i : Int)).length

/-- The total number of adjacency entries: twice the number of edges. -/
def Graph.degreeSum (g : Graph) : Nat := ((List.range g.adj.length).map g.degree).sum

/-- The number of vertices of graph-degree exactly one. -/
def Graph.degreeOneCount (g : Graph) : Nat :=
  (List.range g.adj.length).countP (fun i => g.degree i == 1)

/-- The graph is itself a tree: a well-formed, symmetric, connected graph without
self-loops and without repeated edges that has exactly `V - 1` edges. -/
structure Graph.IsTree (g : Graph) : Prop where
  sizeOk : g.SizeOk
  entriesInRange : g.EntriesInRange
  symmetric : g.Symmetric
  connected : g.Connected
  noLoops : ∀ i ∈ List.range g.adj.length, (i : Int) ∉ g.neighbors (i : Int)
  simple : ∀ l ∈ g.adj, l.Nodup
  edgeCount : g.degreeSum + 2 = 2 * g.adj.length

/-- The children of vertex `i` in a parent array, as a finite set of indices. -/
def childSet (parent : List Int) (i : Nat) : Finset Nat :=
  (Finset.range parent.length).filter (fun j => parent[j]? = some (i : Int))

/-- The tree-neighbours of vertex `i` in a parent array: its parent, if it has
one, and its children. -/
def treeNeighbors (parent : List Int) (i : Nat) : Finset Int :=
  (match parent[i]? with
    | some p => if p = -1 then ∅ else {p}
    | none => ∅) ∪ (childSet parent i).image (fun (j : Nat) => (j : Int))

/-- The graphs reachable from `create(V)` by any sequence of `addEdge` and
`removeEdge` calls, failed calls included (a failed call leaves its state). -/
inductive Graph.Built : Graph → Prop
  | create {n : Int} {g : Graph} : Graph.create n = .ok g → Graph.Built g
  | addEdge {g : Graph} (u v : Int) : Graph.Built g → Graph.Built (g.addEdge u v).2
  | removeEdge {g : Graph} (u v : Int) : Graph.Built g → Graph.Built (g.removeEdge u v).2

/-- The state of the local variables of `generateRandomSpanningTree` when its
loop is entered, for the start vertex `start`. -/
def generateInit (V : Int) (start : Int) : TreeState :=
  { visited := setAt (List.replicate V.toNat false) start true
    parent := List.replicate V.toNat (-1)
    q := [start] }

/-- The update of the running best by one trial, given as the tree and its leaf
count: `if (leaves > bestLeafCount) { bestLeafCount = leaves; bestTree = tree; }`. -/
def Best.update (best : Best) (trial : List Int × Int) : Best :=
  if trial.2 > best.leafCount then { tree := trial.1, leafCount := trial.2 } else best

/-- The trials performed by `n` successive loop iterations started on the
generator state `rng`: each generated tree with its leaf count, in the order of
the iterations, and the generator state left behind. -/
def trialRun {σ : Type} (rs : RandomSource σ) (t : SpanningTree) :
    Nat → σ → Except Fault (List (List Int × Int) × σ)
  | 0, rng => .ok ([], rng)
  | n + 1, rng =>
    match t.generateRandomSpanningTree rs rng with
    | .error e => .error e
    | .ok (tree, rng1) =>
      match SpanningTree.countLeaves tree with
      | .error e => .error e
      | .ok leaves =>
        match trialRun rs t n rng1 with
        | .error e => .error e
        | .ok (rest, rng2) => .ok ((tree, leaves) :: rest, rng2)

/-- `g.Walk k a b`: there is a walk of exactly `k` adjacency steps from `a` to `b`. -/
inductive Graph.Walk (g : Graph) : Nat → Int → Int → Prop
  | nil (a : Int) : Graph.Walk g 0 a a
  | step {k : Nat} {a b c : Int} : Graph.Walk g k a b → c ∈ g.neighbors b →
      Graph.Walk g (k + 1) a c

/-- The layer invariant of `generateRandomSpanningTree`: `d` gives every marked
vertex its depth in the tree built so far, that depth is the length of a walk
from the start vertex, and the queue is ordered by depth. -/
structure LayerInv (g : Graph) (start : Int) (d : Int → Nat) (st : TreeState) : Prop where
  start_zero : d start = 0
  depth : ∀ v, Vis st.visited v → ancestor st.parent (d v) v = some start
  walk : ∀ v, Vis st.visited v → g.Walk (d v) start v
  sorted : st.q.Pairwise (fun a b => d a ≤ d b)

/-- Every marked vertex that has left the queue has all its neighbours marked and
at most one layer deeper, except that the vertex `u` being processed may still
have the neighbours in `todo` ahead of it. -/
def Layered (g : Graph) (d : Int → Nat) (visited : List Bool) (q : List Int) (u : Int)
    (todo : List Int) : Prop :=
  ∀ b, Vis visited b → b ∉ q → ∀ c ∈ g.neighbors b,
    (b = u ∧ c ∈ todo) ∨ (Vis visited c ∧ d c ≤ d b + 1)

/-- The parent array is a shortest-path tree of `g` from `root`: for every
vertex the number of parent links up to the root is the length of a walk from
the root to it, and no walk from the root to it is shorter. -/
def IsShortestPathTree (g : Graph) (root : Int) (parent : List Int) : Prop :=
  ∀ v, g.IsVertex v →
    ∃ k, ancestor parent k v = some root ∧ g.Walk k root v ∧ ∀ j, g.Walk j root v → k ≤ j

/-- The tree is the output of one call of `generateRandomSpanningTree`. -/
def Generated {σ : Type} (rs : RandomSource σ) (t : SpanningTree) (tree : List Int) : Prop :=
  ∃ rng rng1, t.generateRandomSpanningTree rs rng = .ok (tree, rng1)

/-! ## `Graph::saveToFile` and `Graph::fromFile`

The text file is the sequence of the integers written to it, respectively read
from it, by the stream operators: `<<` separates them by blanks and newlines and
`>>` skips those.  Opening the file is taken to succeed. -/

/-- The loop `for (int v : adj[u])` of `saveToFile`: the integers it writes. -/
def saveNeighbors (u : Int) : List Int → List Int
  | [] => []
  | v :: rest => if u < v then u :: v :: saveNeighbors u rest else saveNeighbors u rest

/-- The loop `for (int u = 0; u < V; ++u)` of `saveToFile`, run for the given
number of remaining vertices from vertex `u` on: the integers it writes. -/
def saveEdges (adj : List (List Int)) : Nat → Int → Except Fault (List Int)
  | 0, _ => .ok []
  | n + 1, u =>
    match getAt adj u with
    | none => .error .undefinedBehaviour
    | some neighbors =>
      match saveEdges adj n (u + 1) with
      | .error e => .error e
      | .ok rest => .ok (saveNeighbors u neighbors ++ rest)

/-- The method `Graph::saveToFile`: the integers written to the file, the header
`V edges` first. -/
def Graph.saveToFile (g : Graph) : Except Fault (List Int) :=
  let edges : Int := Int.tdiv (g.adj.foldl (fun acc neighbors => acc + (neighbors.length : Int)) 0) 2
  match saveEdges g.adj g.V.toNat 0 with
  | .error e => .error e
  | .ok lines => .ok (g.V :: edges :: lines)

/-- The loop `for (int i = 0; i < m; ++i)` of `fromFile`, run for the given number
of remaining edges on the integers still unread.  When the stream is exhausted
`file >> u >> v` leaves `u` and `v` uninitialised, and passing them on is
undefined behaviour. -/
def fromFileLoop : Nat → List Int → Graph → Except Fault Graph
  | 0, _, graph => .ok graph
  | m + 1, u :: v :: rest, graph =>
    match graph.addEdge u v with
    | (.error e, _) => .error e
    | (.ok (), graph1) => fromFileLoop m rest graph1
  | _ + 1, _, _ => .error .undefinedBehaviour

/-- The static method `Graph::fromFile`, on the integers held by the file. -/
def Graph.fromFile (file : List Int) : Except Fault Graph :=
  match file with
  | n :: m :: rest =>
    match Graph.create n with
    | .error e => .error e
    | .ok graph => fromFileLoop m.toNat rest graph
  | _ => .error .undefinedBehaviour

theorem getAt_eq_some_iff {α : Type} (vec : List α) (i : Int) (x : α) :
    getAt vec i = some x ↔ 0 ≤ i ∧ vec[i.toNat]? = some x := by
  unfold getAt
  split
  · constructor
    · intro h; cases h
    · rintro ⟨h, _⟩; omega
  · constructor
    · intro h; exact ⟨by omega, h⟩
    · rintro ⟨_, h⟩; exact h

theorem getAt_eq_none_iff {α : Type} (vec : List α) (i : Int) :
    getAt vec i = none ↔ ¬ (0 ≤ i ∧ i < (vec.length : Int)) := by
  unfold getAt
  split
  · constructor
    · intro _ h; omega
    · intro _; rfl
  · rw [List.getElem?_eq_none_iff]
    constructor
    · intro h h2; omega
    · intro h; omega

theorem getAt_lt {α : Type} {vec : List α} {i : Int} {x : α}
    (h : getAt vec i = some x) : 0 ≤ i ∧ i < (vec.length : Int) := by
  by_contra hc
  rw [← getAt_eq_none_iff] at hc
  rw [hc] at h; cases h

theorem getAt_of_lt {α : Type} (vec : List α) (i : Int)
    (h : 0 ≤ i ∧ i < (vec.length : Int)) : ∃ x, getAt vec i = some x := by
  cases hx : getAt vec i with
  | none => exact absurd h ((getAt_eq_none_iff vec i).1 hx)
  | some x => exact ⟨x, rfl⟩

theorem length_setAt {α : Type} (vec : List α) (i : Int) (x : α) :
    (setAt vec i x).length = vec.length := by
  unfold setAt; split <;> simp

theorem length_modifyAt {α : Type} (vec : List α) (i : Int) (f : α → α) :
    (modifyAt vec i f).length = vec.length := by
  unfold modifyAt; split <;> simp [length_setAt]

theorem getAt_setAt_self {α : Type} (vec : List α) (i : Int) (x : α)
    (h : 0 ≤ i ∧ i < (vec.length : Int)) : getAt (setAt vec i x) i = some x := by
  unfold getAt setAt
  have h1 : ¬ i < 0 := by omega
  simp only [h1, if_false]
  rw [List.getElem?_set_self (by omega)]

theorem getAt_setAt_ne {α : Type} (vec : List α) (i j : Int) (x : α)
    (h : i ≠ j) : getAt (setAt vec i x) j = getAt vec j := by
  unfold getAt setAt
  by_cases hj : j < 0
  · simp [hj]
  · by_cases hi : i < 0
    · simp [hi]
    · simp only [hj, hi, if_false]
      rw [List.getElem?_set_ne (by omega)]

theorem getAt_modifyAt_self {α : Type} (vec : List α) (i : Int) (f : α → α) :
    getAt (modifyAt vec i f) i = (getAt vec i).map f := by
  unfold modifyAt
  cases hx : getAt vec i with
  | none => simp [hx]
  | some x => simp [getAt_setAt_self vec i (f x) (getAt_lt hx)]

theorem getAt_modifyAt_ne {α : Type} (vec : List α) (i j : Int) (f : α → α)
    (h : i ≠ j) : getAt (modifyAt vec i f) j = getAt vec j := by
  unfold modifyAt
  cases hx : getAt vec i with
  | none => rfl
  | some x => exact getAt_setAt_ne vec i j (f x) h

theorem getAt_modifyAt {α : Type} (vec : List α) (i j : Int) (f : α → α) :
    getAt (modifyAt vec i f) j =
      if j = i then (getAt vec j).map f else getAt vec j := by
  by_cases h : j = i
  · subst h; simp [getAt_modifyAt_self]
  · simp [h, getAt_modifyAt_ne vec i j f (fun hc => h hc.symm)]

/-! ## `Graph::addEdge` and `Graph::removeEdge` -/

theorem neighbors_modifyAt (V : Int) (adj : List (List Int)) (i w : Int)
    (f : List Int → List Int)
    (hi : (0 ≤ i ∧ i < (adj.length : Int)) ∨ f [] = []) :
    ({ V := V, adj := modifyAt adj i f } : Graph).neighbors w =
      if w = i then f (({ V := V, adj := adj } : Graph).neighbors w)
      else ({ V := V, adj := adj } : Graph).neighbors w := by
  unfold Graph.neighbors
  simp only [getAt_modifyAt]
  split
  · next hw =>
    subst hw
    cases h : getAt adj w with
    | none =>
      rcases hi with hi | hi
      · exact absurd hi ((getAt_eq_none_iff adj w).1 h)
      · simp [hi]
    | some x => simp
  · rfl

theorem indexOutOfRange_eq_false (g : Graph) (hsz : g.SizeOk) (u v : Int) :
    g.indexOutOfRange u v = false ↔ g.IsVertex u ∧ g.IsVertex v := by
  unfold Graph.indexOutOfRange Graph.IsVertex
  unfold Graph.SizeOk at hsz
  simp only [Bool.or_eq_false_iff, decide_eq_false_iff_not]
  omega

theorem addEdge_neighbors (g : Graph) (u v w : Int)
    (h : g.indexOutOfRange u v = false) :
    (g.addEdge u v).2.neighbors w =
      g.neighbors w ++ (if w = u then [v] else []) ++ (if w = v then [u] else []) := by
  have hr : (0 ≤ u ∧ u < (g.adj.length : Int)) ∧ (0 ≤ v ∧ v < (g.adj.length : Int)) := by
    unfold Graph.indexOutOfRange at h
    simp only [Bool.or_eq_false_iff, decide_eq_false_iff_not] at h
    omega
  unfold Graph.addEdge
  simp only [h, Bool.false_eq_true, if_false]
  rw [neighbors_modifyAt g.V _ v w _ (Or.inl (by rw [length_modifyAt]; exact hr.2)),
    neighbors_modifyAt g.V _ u w _ (Or.inl hr.1)]
  have hg : ({ V := g.V, adj := g.adj } : Graph) = g := rfl
  rw [hg]
  by_cases h1 : w = u
  · subst h1
    by_cases h2 : w = v
    · subst h2; simp
    · simp [h2]
  · by_cases h2 : w = v
    · subst h2; simp [h1]
    · simp [h1, h2]

theorem removeEdge_neighbors (g : Graph) (u v w : Int)
    (h : g.indexOutOfRange u v = false) :
    (g.removeEdge u v).2.neighbors w =
      if w = v then
        (if w = u then (g.neighbors w).filter (fun x => x != v) else g.neighbors w).filter
          (fun x => x != u)
      else if w = u then (g.neighbors w).filter (fun x => x != v) else g.neighbors w := by
  unfold Graph.removeEdge
  simp only [h, Bool.false_eq_true, if_false]
  rw [neighbors_modifyAt g.V _ v w _ (Or.inr rfl),
    neighbors_modifyAt g.V _ u w _ (Or.inr rfl)]

theorem removeEdge_neighbors_left (g : Graph) (u v : Int)
    (h : g.indexOutOfRange u v = false) :
    (g.removeEdge u v).2.neighbors u = (g.neighbors u).filter (fun x => x != v) := by
  rw [removeEdge_neighbors g u v u h]
  by_cases huv : u = v
  · subst huv; simp [List.filter_filter]
  · simp [huv]

theorem removeEdge_neighbors_right (g : Graph) (u v : Int)
    (h : g.indexOutOfRange u v = false) :
    (g.removeEdge u v).2.neighbors v = (g.neighbors v).filter (fun x => x != u) := by
  rw [removeEdge_neighbors g u v v h]
  by_cases huv : v = u
  · subst huv; simp [List.filter_filter]
  · simp [huv]

theorem removeEdge_neighbors_other (g : Graph) (u v w : Int)
    (h : g.indexOutOfRange u v = false) (hu : w ≠ u) (hv : w ≠ v) :
    (g.removeEdge u v).2.neighbors w = g.neighbors w := by
  rw [removeEdge_neighbors g u v w h]
  simp [hu, hv]

theorem filter_bne_append_self (l : List Int) (v : Int) (h : v ∉ l) :
    (l ++ [v]).filter (fun x => x != v) = l := by
  rw [List.filter_append]
  have h1 : l.filter (fun x => x != v) = l := by
    rw [List.filter_eq_self]
    intro a ha
    simp only [bne_iff_ne, ne_eq]
    intro hc; subst hc; exact h ha
  simp [h1]

/-- Claim C8: `addEdge(u, v)` fails, with IndexOutOfRange, if and only if `u` or
`v` is outside `[0, V)`; when it fails the graph is unchanged, and when it
succeeds `v` is appended to the end of the neighbour sequence of `u` and `u` to
the end of that of `v`, every other sequence being unchanged. -/
theorem addEdge_fails_iff_out_of_range (g : Graph) (hsz : g.SizeOk) (u v : Int) :
    ((g.addEdge u v).1 = .error .outOfRange ↔ ¬ (g.IsVertex u ∧ g.IsVertex v)) ∧
    ((g.addEdge u v).1 = .ok () ↔ (g.IsVertex u ∧ g.IsVertex v)) ∧
    (¬ (g.IsVertex u ∧ g.IsVertex v) → (g.addEdge u v).2 = g) ∧
    ((g.IsVertex u ∧ g.IsVertex v) →
      (g.addEdge u v).2.V = g.V ∧ (g.addEdge u v).2.adj.length = g.adj.length ∧
      ∀ w, (g.addEdge u v).2.neighbors w =
        g.neighbors w ++ (if w = u then [v] else []) ++ (if w = v then [u] else [])) := by
  have key := indexOutOfRange_eq_false g hsz u v
  cases hb : g.indexOutOfRange u v with
  | true =>
    have hn : ¬ (g.IsVertex u ∧ g.IsVertex v) := by
      intro hc; rw [key.2 hc] at hb; cases hb
    refine ⟨?_, ?_, ?_, ?_⟩
    · simp [Graph.addEdge, hb, hn]
    · simp [Graph.addEdge, hb, hn]
    · intro _; simp [Graph.addEdge, hb]
    · intro hc; exact absurd hc hn
  | false =>
    have hy := key.1 hb
    refine ⟨?_, ?_, ?_, ?_⟩
    · simp [Graph.addEdge, hb, hy]
    · simp [Graph.addEdge, hb, hy]
    · intro hc; exact absurd hy hc
    · intro _
      refine ⟨?_, ?_, fun w => addEdge_neighbors g u v w hb⟩
      · simp [Graph.addEdge, hb]
      · simp [Graph.addEdge, hb, length_modifyAt]

theorem addEdge_fails_iff_out_of_range_witness :
    Graph.SizeOk { V := 2, adj := [[], []] } ∧
    (Graph.addEdge { V := 2, adj := [[], []] } 0 1).2.neighbors 0 = [1] ∧
    (Graph.addEdge { V := 2, adj := [[], []] } 0 1).2.neighbors 1 = [0] ∧
    (Graph.addEdge { V := 2, adj := [[], []] } 0 2).2 = { V := 2, adj := [[], []] } :=
  have hsz : Graph.SizeOk { V := 2, adj := [[], []] } := by decide
  have h := addEdge_fails_iff_out_of_range { V := 2, adj := [[], []] } hsz 0 1
  have h2 := addEdge_fails_iff_out_of_range { V := 2, adj := [[], []] } hsz 0 2
  ⟨hsz, by simpa [Graph.neighbors, getAt] using (h.2.2.2 (by decide)).2.2 0,
    by simpa [Graph.neighbors, getAt] using (h.2.2.2 (by decide)).2.2 1,
    h2.2.2.1 (by decide)⟩

/-- Claim C9: when the edge `(u, v)` is not present in `g`, `addEdge(u, v)`
followed by `removeEdge(u, v)` restores, for every pair `(a, b)`, the number of
occurrences of `b` in the neighbour sequence of `a`. -/
theorem addEdge_removeEdge_round_trip (g : Graph) (hsz : g.SizeOk) (u v : Int)
    (hu : g.IsVertex u) (hv : g.IsVertex v)
    (hnew1 : v ∉ g.neighbors u) (hnew2 : u ∉ g.neighbors v) :
    (g.addEdge u v).1 = .ok () ∧ ((g.addEdge u v).2.removeEdge u v).1 = .ok () ∧
    ((g.addEdge u v).2.removeEdge u v).2.V = g.V ∧
    (∀ a, ((g.addEdge u v).2.removeEdge u v).2.neighbors a = g.neighbors a) ∧
    (∀ a b, List.count b (((g.addEdge u v).2.removeEdge u v).2.neighbors a) =
      List.count b (g.neighbors a)) := by
  have hb : g.indexOutOfRange u v = false := (indexOutOfRange_eq_false g hsz u v).2 ⟨hu, hv⟩
  have hspec : (g.addEdge u v).2.V = g.V ∧ (g.addEdge u v).2.adj.length = g.adj.length ∧
      ∀ w, (g.addEdge u v).2.neighbors w =
        g.neighbors w ++ (if w = u then [v] else []) ++ (if w = v then [u] else []) :=
    ⟨by simp [Graph.addEdge, hb], by simp [Graph.addEdge, hb, length_modifyAt],
      fun w => addEdge_neighbors g u v w hb⟩
  have hb1 : (g.addEdge u v).2.indexOutOfRange u v = false := by
    unfold Graph.indexOutOfRange at hb ⊢
    rw [hspec.2.1]; exact hb
  have hnb : ∀ a, ((g.addEdge u v).2.removeEdge u v).2.neighbors a = g.neighbors a := by
    intro a
    by_cases h1 : a = u
    · subst h1
      rw [removeEdge_neighbors_left _ _ _ hb1, hspec.2.2 a]
      by_cases h2 : a = v
      · subst h2
        simp only [if_true]
        have e1 : (g.neighbors a ++ [a] ++ [a]).filter (fun x => x != a) =
            (g.neighbors a ++ [a]).filter (fun x => x != a) := by
          rw [List.filter_append (g.neighbors a ++ [a])]; simp
        rw [e1]
        exact filter_bne_append_self _ _ hnew1
      · simp only [if_true, h2, if_false, List.append_nil]
        exact filter_bne_append_self _ _ hnew1
    · by_cases h2 : a = v
      · subst h2
        rw [removeEdge_neighbors_right _ _ _ hb1, hspec.2.2 a]
        simp only [h1, if_false, if_true, List.append_nil]
        exact filter_bne_append_self _ _ hnew2
      · rw [removeEdge_neighbors_other _ _ _ _ hb1 h1 h2, hspec.2.2 a]
        simp [h1, h2]
  refine ⟨?_, ?_, ?_, hnb, fun a b => by rw [hnb a]⟩
  · simp [Graph.addEdge, hb]
  · simp [Graph.removeEdge, hb1]
  · simp [Graph.removeEdge, hb1, hspec.1]

theorem addEdge_removeEdge_round_trip_witness :
    Graph.SizeOk { V := 3, adj := [[2], [], [0]] } ∧
    ∀ a b, List.count b (((Graph.addEdge { V := 3, adj := [[2], [], [0]] } 0 1).2.removeEdge
        0 1).2.neighbors a) =
      List.count b (Graph.neighbors { V := 3, adj := [[2], [], [0]] } a) :=
  ⟨by decide, (addEdge_removeEdge_round_trip { V := 3, adj := [[2], [], [0]] } (by decide) 0 1
    (by decide) (by decide) (by decide) (by decide)).2.2.2.2⟩

/-- Claim C5 fails as stated: `removeEdge` does not lower the number of
occurrences of `v` in the sequence of `u` by exactly one.  On the graph with the
edge `(0, 1)` inserted twice it lowers it from two to zero. -/
theorem removeEdge_first_occurrence_only_counterexample :
    ¬ (∀ (g : Graph) (u v : Int), g.SizeOk → g.IsVertex u → g.IsVertex v →
        1 ≤ List.count v (g.neighbors u) →
        List.count v ((g.removeEdge u v).2.neighbors u) = List.count v (g.neighbors u) - 1) := by
  intro h
  have h1 := h { V := 2, adj := [[1, 1], [0, 0]] } 0 1 (by decide) (by decide) (by decide)
    (by decide)
  revert h1
  decide

/-- Claim C5, amended: `removeEdge(u, v)` with in-range indices removes every
occurrence of `v` from the neighbour sequence of `u` and every occurrence of `u`
from that of `v`; afterwards `v` occurs zero times in the sequence of `u`, the
remaining entries keep their order and multiplicity, and the sequences of the
other vertices are unchanged. -/
theorem removeEdge_removes_every_occurrence (g : Graph) (hsz : g.SizeOk) (u v : Int)
    (hu : g.IsVertex u) (hv : g.IsVertex v) :
    (g.removeEdge u v).1 = .ok () ∧
    (g.removeEdge u v).2.neighbors u = (g.neighbors u).filter (fun x => x != v) ∧
    (g.removeEdge u v).2.neighbors v = (g.neighbors v).filter (fun x => x != u) ∧
    List.count v ((g.removeEdge u v).2.neighbors u) = 0 ∧
    List.count u ((g.removeEdge u v).2.neighbors v) = 0 ∧
    List.Sublist ((g.removeEdge u v).2.neighbors u) (g.neighbors u) ∧
    List.Sublist ((g.removeEdge u v).2.neighbors v) (g.neighbors v) ∧
    (∀ x, x ≠ v → List.count x ((g.removeEdge u v).2.neighbors u) =
      List.count x (g.neighbors u)) ∧
    (∀ x, x ≠ u → List.count x ((g.removeEdge u v).2.neighbors v) =
      List.count x (g.neighbors v)) ∧
    (∀ w, w ≠ u → w ≠ v → (g.removeEdge u v).2.neighbors w = g.neighbors w) := by
  have hb : g.indexOutOfRange u v = false := (indexOutOfRange_eq_false g hsz u v).2 ⟨hu, hv⟩
  have hl := removeEdge_neighbors_left g u v hb
  have hr := removeEdge_neighbors_right g u v hb
  refine ⟨?_, hl, hr, ?_, ?_, ?_, ?_, ?_, ?_, ?_⟩
  · simp [Graph.removeEdge, hb]
  · rw [hl, List.count_eq_zero]; simp
  · rw [hr, List.count_eq_zero]; simp
  · rw [hl]; exact List.filter_sublist _
  · rw [hr]; exact List.filter_sublist _
  · intro x hx; rw [hl]; exact List.count_filter (by simpa using hx)
  · intro x hx; rw [hr]; exact List.count_filter (by simpa using hx)
  · intro w h1 h2; exact removeEdge_neighbors_other g u v w hb h1 h2

theorem removeEdge_removes_every_occurrence_witness :
    Graph.SizeOk { V := 2, adj := [[1, 1], [0, 0]] } ∧
    List.count 1 ((Graph.removeEdge { V := 2, adj := [[1, 1], [0, 0]] } 0 1).2.neighbors 0) = 0 :=
  ⟨by decide, (removeEdge_removes_every_occurrence { V := 2, adj := [[1, 1], [0, 0]] }
    (by decide) 0 1 (by decide) (by decide)).2.2.2.1⟩

/-! ## `SpanningTree::countLeaves` -/

theorem getAt_natCast {α : Type} (vec : List α) (k : Nat) : getAt vec (k : Int) = vec[k]? := by
  unfold getAt
  have h : ¬ ((k : Int) < 0) := by omega
  simp [h]

theorem degreeGain_nil (i k : Nat) : degreeGain [] i k = 0 := by
  unfold degreeGain
  have : ¬ (i ≤ k ∧ k < i + ([] : List Int).length ∧ ([] : List Int)[k - i]? ≠ some (-1)) := by
    simp
  simp

theorem degreeGain_cons (p : Int) (rest : List Int) (i k : Nat) :
    degreeGain (p :: rest) i k =
      (if p = -1 then 0 else (if k = i then 1 else 0) + (if (k : Int) = p then 1 else 0)) +
        degreeGain rest (i + 1) k := by
  unfold degreeGain
  have hcount : ((p :: rest).count (k : Int) : Int) =
      (rest.count (k : Int) : Int) + (if (k : Int) = p then 1 else 0) := by
    rw [List.count_cons]
    by_cases h : (k : Int) = p
    · simp [h]
    · have h' : ¬ p = (k : Int) := fun hc => h hc.symm
      simp [h, h']
  rw [hcount]
  by_cases hk : k = i
  · subst hk
    have h2 : ¬ (k + 1 ≤ k ∧ k < k + 1 + rest.length ∧ rest[k - (k + 1)]? ≠ some (-1)) := by omega
    by_cases hp : p = -1
    · subst hp
      have h3 : ¬ ((k : Int) = -1) := by omega
      simp [h3]
    · simp [hp]
      omega
  · by_cases hlt : i < k
    · have e : (p :: rest)[k - i]? = rest[k - (i + 1)]? := by
        have : k - i = (k - (i + 1)) + 1 := by omega
        rw [this, List.getElem?_cons_succ]
      have c : (i ≤ k ∧ k < i + (p :: rest).length ∧ (p :: rest)[k - i]? ≠ some (-1)) ↔
          (i + 1 ≤ k ∧ k < i + 1 + rest.length ∧ rest[k - (i + 1)]? ≠ some (-1)) := by
        rw [e]; simp only [List.length_cons]; constructor <;> rintro ⟨a, b, c⟩ <;> refine ⟨by omega, by omega, c⟩
      simp only [c, hk, if_false]
      by_cases hp : p = -1
      · subst hp
        have h3 : ¬ ((k : Int) = -1) := by omega
        simp [h3]
      · simp only [hp, if_false]; omega
    · have c1 : ¬ (i ≤ k ∧ k < i + (p :: rest).length ∧ (p :: rest)[k - i]? ≠ some (-1)) := by omega
      have c2 : ¬ (i + 1 ≤ k ∧ k < i + 1 + rest.length ∧ rest[k - (i + 1)]? ≠ some (-1)) := by omega
      simp only [c1, c2, hk, if_false]
      by_cases hp : p = -1
      · subst hp
        have h3 : ¬ ((k : Int) = -1) := by omega
        simp [h3]
      · simp only [hp, if_false]; omega

theorem countLeavesLoop_spec (ps : List Int) :
    ∀ (i : Nat) (degree : List Int),
      i + ps.length ≤ degree.length →
      (∀ p ∈ ps, p = -1 ∨ (0 ≤ p ∧ p < (degree.length : Int))) →
      ∃ degree', countLeavesLoop ps (i : Int) degree = .ok degree' ∧
        degree'.length = degree.length ∧
        ∀ k : Nat, (degree'[k]?).getD 0 = (degree[k]?).getD 0 + (if k < degree.length then degreeGain ps i k else 0) := by
  induction ps with
  | nil =>
    intro i degree _ _
    exact ⟨degree, rfl, rfl, fun k => by simp [degreeGain_nil]⟩
  | cons p rest ih =>
    intro i degree hlen hps
    have hrest : ∀ q ∈ rest, q = -1 ∨ (0 ≤ q ∧ q < (degree.length : Int)) :=
      fun q hq => hps q (List.mem_cons_of_mem _ hq)
    have hlen' : i + 1 + rest.length ≤ degree.length := by
      simp only [List.length_cons] at hlen; omega
    by_cases hp : p = -1
    · subst hp
      obtain ⟨d', h1, h2, h3⟩ := ih (i + 1) degree hlen' hrest
      refine ⟨d', ?_, h2, ?_⟩
      · simp only [countLeavesLoop]
        have : (((i + 1 : Nat) : Int)) = (i : Int) + 1 := by omega
        rw [← this]; simpa using h1
      · intro k; rw [h3 k, degreeGain_cons]; simp
    · have hpr : 0 ≤ p ∧ p < (degree.length : Int) := by
        rcases hps p (List.mem_cons_self _ _) with h | h
        · exact absurd h hp
        · exact h
      have hi : 0 ≤ (i : Int) ∧ (i : Int) < (degree.length : Int) := by
        simp only [List.length_cons] at hlen; omega
      obtain ⟨x, hx⟩ := getAt_of_lt degree (i : Int) hi
      have hl1 : (modifyAt degree (i : Int) (fun d => d + 1)).length = degree.length :=
        length_modifyAt _ _ _
      obtain ⟨y, hy⟩ := getAt_of_lt (modifyAt degree (i : Int) (fun d => d + 1)) p
        (by rw [hl1]; exact hpr)
      have hl2 : (modifyAt (modifyAt degree (i : Int) (fun d => d + 1)) p
          (fun d => d + 1)).length = degree.length := by
        rw [length_modifyAt, hl1]
      obtain ⟨d', h1, h2, h3⟩ := ih (i + 1)
        (modifyAt (modifyAt degree (i : Int) (fun d => d + 1)) p (fun d => d + 1))
        (by rw [hl2]; exact hlen') (by rw [hl2]; exact hrest)
      refine ⟨d', ?_, by rw [h2, hl2], ?_⟩
      · simp only [countLeavesLoop]
        have hne : (p != -1) = true := by simpa using hp
        simp only [hne, if_true, hx, hy]
        have : (((i + 1 : Nat) : Int)) = (i : Int) + 1 := by omega
        rw [← this]; exact h1
      · intro k
        rw [h3 k, hl2, degreeGain_cons]
        simp only [hp, if_false]
        rw [← getAt_natCast, getAt_modifyAt, getAt_modifyAt, ← getAt_natCast degree k]
        by_cases hk : k < degree.length
        · obtain ⟨z, hz⟩ := getAt_of_lt degree (k : Int) (by omega)
          simp only [hk, if_true, hz]
          split_ifs <;> simp only [Option.map, Option.getD] <;> omega
        · have hz : getAt degree (k : Int) = none := by
            rw [getAt_eq_none_iff]; omega
          simp [hk, hz]

theorem degreeGain_zero_eq_treeDegree (parent : List Int) (k : Nat) (hk : k < parent.length) :
    degreeGain parent 0 k = (treeDegree parent k : Int) := by
  unfold degreeGain treeDegree
  have c : (0 ≤ k ∧ k < 0 + parent.length ∧ parent[k - 0]? ≠ some (-1)) ↔
      ¬ (parent[k]? = some (-1)) := by
    simp only [Nat.sub_zero, Nat.zero_add, Nat.zero_le, true_and, hk, ne_eq]
  by_cases h : parent[k]? = some (-1)
  · have c' := (not_congr c).2 (not_not.2 h)
    rw [if_neg c', if_pos h]; push_cast; rfl
  · have c' := c.2 h
    rw [if_pos c', if_neg h]; push_cast; rfl

theorem countLeaves_of_valid (parent : List Int) (hn : 2 ≤ parent.length)
    (hp : ∀ p ∈ parent, p = -1 ∨ (0 ≤ p ∧ p < (parent.length : Int))) :
    SpanningTree.countLeaves parent = .ok (leafCount parent : Int) := by
  obtain ⟨d', h1, h2, h3⟩ := countLeavesLoop_spec parent 0 (List.replicate parent.length 0)
    (by simp) (by simpa using hp)
  have hd : d' = (List.range parent.length).map (fun k => (treeDegree parent k : Int)) := by
    apply List.ext_getElem?
    intro k
    by_cases hk : k < parent.length
    · have hk' : k < d'.length := by rw [h2]; simpa using hk
      have e := h3 k
      rw [List.getElem?_eq_getElem hk'] at e ⊢
      simp only [Option.getD_some, List.getElem?_replicate, hk, if_true, List.length_replicate,
        zero_add] at e
      rw [e, degreeGain_zero_eq_treeDegree parent k hk]
      simp [hk]
    · have hk' : d'.length ≤ k := by rw [h2]; simp; omega
      rw [List.getElem?_eq_none hk', List.getElem?_eq_none (by simp; omega)]
  unfold SpanningTree.countLeaves
  have n0 : ¬ ((parent.length : Int) = 0) := by omega
  have n1 : ¬ ((parent.length : Int) = 1) := by omega
  simp only [n0, n1, if_false]
  have h1' : countLeavesLoop parent 0 (List.replicate parent.length 0) = .ok d' := by
    simpa using h1
  rw [h1']
  simp only [hd, List.countP_map, leafCount]
  congr 2
  apply List.countP_congr
  intro k _
  simp only [Function.comp, beq_iff_eq]
  constructor <;> intro h <;> omega

/-- Claim C4: for a parent array of length `n ≥ 2` whose entries are `-1` or in
`[0, n)`, `countLeaves` returns (without indexing outside the degree array) the
number of vertices whose tree-degree is exactly one. -/
theorem countLeaves_eq_leafCount (parent : List Int) (hn : 2 ≤ parent.length)
    (hp : ∀ p ∈ parent, p = -1 ∨ (0 ≤ p ∧ p < (parent.length : Int))) :
    SpanningTree.countLeaves parent = .ok (leafCount parent : Int) ∧
    leafCount parent =
      (List.range parent.length).countP (fun (i : Nat) =>
        (if parent[i]? = some (-1) then 0 else 1) + parent.count (i : Int) == 1) :=
  ⟨countLeaves_of_valid parent hn hp, rfl⟩

theorem countLeaves_eq_leafCount_witness :
    SpanningTree.countLeaves [-1, 0, 0, 0] = .ok 3 :=
  (countLeaves_eq_leafCount [-1, 0, 0, 0] (by decide) (by decide)).1

/-! ## The traversal of `Graph::isConnected` -/

theorem vis_setAt (visited : List Bool) (v x : Int)
    (hv : 0 ≤ v ∧ v < (visited.length : Int)) :
    Vis (setAt visited v true) x ↔ x = v ∨ Vis visited x := by
  unfold Vis
  by_cases h : x = v
  · subst h; simp [getAt_setAt_self visited x true hv]
  · rw [getAt_setAt_ne visited v x true (fun hc => h hc.symm)]; simp [h]

theorem count_false_set (l : List Bool) :
    ∀ i : Nat, l[i]? = some false → (l.set i true).count false + 1 = l.count false := by
  induction l with
  | nil => intro i h; simp at h
  | cons b t ih =>
    intro i h
    cases i with
    | zero =>
      simp only [List.getElem?_cons_zero, Option.some.injEq] at h
      subst h; simp
    | succ j =>
      simp only [List.getElem?_cons_succ] at h
      have := ih j h
      simp only [List.set_cons_succ, List.count_cons]
      omega

theorem count_true_set (l : List Bool) :
    ∀ i : Nat, l[i]? = some false → (l.set i true).count true = l.count true + 1 := by
  induction l with
  | nil => intro i h; simp at h
  | cons b t ih =>
    intro i h
    cases i with
    | zero =>
      simp only [List.getElem?_cons_zero, Option.some.injEq] at h
      subst h; simp
    | succ j =>
      simp only [List.getElem?_cons_succ] at h
      have := ih j h
      simp only [List.set_cons_succ, List.count_cons]
      omega

theorem count_false_setAt (visited : List Bool) (v : Int) (h : getAt visited v = some false) :
    (setAt visited v true).count false + 1 = visited.count false := by
  have h0 := (getAt_eq_some_iff visited v false).1 h
  unfold setAt
  have : ¬ v < 0 := by omega
  simp only [this, if_false]
  exact count_false_set visited v.toNat h0.2

theorem count_true_setAt (visited : List Bool) (v : Int) (h : getAt visited v = some false) :
    (setAt visited v true).count true = visited.count true + 1 := by
  have h0 := (getAt_eq_some_iff visited v false).1 h
  unfold setAt
  have : ¬ v < 0 := by omega
  simp only [this, if_false]
  exact count_true_set visited v.toNat h0.2

theorem closed_skip {g : Graph} {visited : List Bool} {q : List Int} {u v : Int}
    {rest : List Int} (hc : Closed g visited q u (v :: rest)) (hv : Vis visited v) :
    Closed g visited q u rest := by
  intro x hx hxq w hw
  rcases hc x hx hxq w hw with ⟨h1, h2⟩ | h
  · rcases List.mem_cons.1 h2 with h3 | h3
    · subst h3; exact Or.inr hv
    · exact Or.inl ⟨h1, h3⟩
  · exact Or.inr h

theorem closed_mark {g : Graph} {visited : List Bool} {q : List Int} {u v : Int}
    {rest : List Int} (hc : Closed g visited q u (v :: rest))
    (hv : getAt visited v = some false) :
    Closed g (setAt visited v true) (q ++ [v]) u rest := by
  have hr := getAt_lt hv
  intro x hx hxq w hw
  have hxv : x ≠ v := by
    intro h; apply hxq; subst h; simp
  have hx' : Vis visited x := by
    rcases (vis_setAt visited v x hr).1 hx with h | h
    · exact absurd h hxv
    · exact h
  have hxq' : x ∉ q := fun h => hxq (List.mem_append_left _ h)
  rcases hc x hx' hxq' w hw with ⟨h1, h2⟩ | h
  · rcases List.mem_cons.1 h2 with h3 | h3
    · exact Or.inr ((vis_setAt visited v w hr).2 (Or.inl h3))
    · exact Or.inl ⟨h1, h3⟩
  · exact Or.inr ((vis_setAt visited v w hr).2 (Or.inr h))

theorem closed_pop {g : Graph} {visited : List Bool} {q : List Int} {u u0 : Int}
    {todo : List Int} (hc : Closed g visited (u :: q) u0 [])
    (hall : ∀ w ∈ g.neighbors u, w ∈ todo) :
    Closed g visited q u todo := by
  intro x hx hxq w hw
  by_cases h : x = u
  · subst h; exact Or.inl ⟨rfl, hall w hw⟩
  · have : x ∉ u :: q := by
      intro hm; rcases List.mem_cons.1 hm with h1 | h1
      · exact h h1
      · exact hxq h1
    rcases hc x hx this w hw with ⟨_, h2⟩ | h2
    · cases h2
    · exact Or.inr h2

theorem closed_change {g : Graph} {visited : List Bool} {q : List Int} {u u0 : Int}
    (hc : Closed g visited q u []) : Closed g visited q u0 [] := by
  intro x hx hxq w hw
  rcases hc x hx hxq w hw with ⟨_, h2⟩ | h2
  · cases h2
  · exact Or.inr h2

theorem closed_reach {g : Graph} {visited : List Bool} {u a b : Int}
    (hc : Closed g visited [] u []) (ha : Vis visited a) (hab : g.Reachable a b) :
    Vis visited b := by
  induction hab with
  | refl => exact ha
  | step _ hw ih =>
    rcases hc _ ih (by simp) _ hw with ⟨_, h2⟩ | h2
    · cases h2
    · exact h2

theorem neighbors_of_getAt {g : Graph} {v : Int} {nbrs : List Int}
    (h : getAt g.adj v = some nbrs) : g.neighbors v = nbrs := by
  unfold Graph.neighbors; rw [h]; rfl

theorem neighbors_in_range {g : Graph} (hin : g.EntriesInRange) {v w : Int}
    (hw : w ∈ g.neighbors v) : 0 ≤ w ∧ w < (g.adj.length : Int) := by
  unfold Graph.neighbors at hw
  cases h : getAt g.adj v with
  | none => rw [h] at hw; simp at hw
  | some l =>
    rw [h] at hw
    have hl : l ∈ g.adj := by
      have := (getAt_eq_some_iff g.adj v l).1 h
      exact List.getElem?_mem this.2
    exact hin l hl w hw

theorem neighbors_nonempty_vertex {g : Graph} {v w : Int}
    (hw : w ∈ g.neighbors v) : 0 ≤ v ∧ v < (g.adj.length : Int) := by
  unfold Graph.neighbors at hw
  cases h : getAt g.adj v with
  | none => rw [h] at hw; simp at hw
  | some l => exact getAt_lt h

theorem isConnectedVisit_spec (g : Graph) (u : Int) (nbrs : List Int) :
    ∀ st : ConnState,
      (∀ w ∈ nbrs, (0 ≤ w ∧ w < (g.adj.length : Int)) ∧ w ∈ g.neighbors u) →
      ConnInv g st → Vis st.visited u →
      Closed g st.visited st.queue u nbrs →
      ∃ st1, isConnectedVisit nbrs st = .ok st1 ∧ ConnInv g st1 ∧
        Closed g st1.visited st1.queue u [] ∧
        bfsMeasure st1.visited st1.queue = bfsMeasure st.visited st.queue := by
  induction nbrs with
  | nil =>
    intro st _ hinv _ hc
    exact ⟨st, rfl, hinv, hc, rfl⟩
  | cons w rest ih =>
    intro st hn hinv hu hc
    have hw := hn w (List.mem_cons_self _ _)
    have hrest : ∀ x ∈ rest, (0 ≤ x ∧ x < (g.adj.length : Int)) ∧ x ∈ g.neighbors u :=
      fun x hx => hn x (List.mem_cons_of_mem _ hx)
    obtain ⟨b, hb⟩ := getAt_of_lt st.visited w (by rw [hinv.len]; exact hw.1)
    cases b with
    | true =>
      obtain ⟨st1, h1, h2, h3, h4⟩ := ih st hrest hinv hu (closed_skip hc hb)
      exact ⟨st1, by simp only [isConnectedVisit, hb]; exact h1, h2, h3, h4⟩
    | false =>
      have hr : 0 ≤ w ∧ w < (st.visited.length : Int) := getAt_lt hb
      have hinv' : ConnInv g
          { visited := setAt st.visited w true, queue := st.queue ++ [w],
            visitedCount := st.visitedCount + 1 } := by
        refine ⟨?_, ?_, ?_, ?_, ?_⟩
        · simp only [length_setAt]; exact hinv.len
        · exact (vis_setAt _ _ _ hr).2 (Or.inr hinv.zero)
        · intro x hx
          rcases List.mem_append.1 hx with h | h
          · exact (vis_setAt _ _ _ hr).2 (Or.inr (hinv.queue_vis x h))
          · simp only [List.mem_singleton] at h
            exact (vis_setAt _ _ _ hr).2 (Or.inl h)
        · intro x hx
          rcases (vis_setAt _ _ _ hr).1 hx with h | h
          · subst h; exact Graph.Reachable.step (hinv.sound u hu) hw.2
          · exact hinv.sound x h
        · simp only [count_true_setAt _ _ hb, hinv.count]; push_cast; rfl
      have hu' : Vis (setAt st.visited w true) u := (vis_setAt _ _ _ hr).2 (Or.inr hu)
      obtain ⟨st1, h1, h2, h3, h4⟩ := ih _ hrest hinv' hu' (closed_mark hc hb)
      refine ⟨st1, by simp only [isConnectedVisit, hb]; exact h1, h2, h3, ?_⟩
      rw [h4]
      unfold bfsMeasure
      have := count_false_setAt _ _ hb
      simp only [List.length_append, List.length_singleton]
      omega

theorem isConnectedLoop_spec (g : Graph) (hin : g.EntriesInRange) :
    ∀ (fuel : Nat) (st : ConnState),
      ConnInv g st → Closed g st.visited st.queue 0 [] →
      bfsMeasure st.visited st.queue ≤ fuel →
      ∃ st1, isConnectedLoop g.adj fuel st = .ok st1 ∧ ConnInv g st1 ∧
        Closed g st1.visited [] 0 [] := by
  intro fuel
  induction fuel with
  | zero =>
    intro st hinv hc hm
    have hq : st.queue = [] := by
      unfold bfsMeasure at hm
      exact List.length_eq_zero.1 (by omega)
    refine ⟨st, ?_, hinv, ?_⟩
    · unfold isConnectedLoop; simp [hq]
    · have hc' := hc; rw [hq] at hc'; exact hc'
  | succ fuel ih =>
    intro st hinv hc hm
    cases hq : st.queue with
    | nil =>
      refine ⟨st, ?_, hinv, ?_⟩
      · unfold isConnectedLoop; simp [hq]
      · have hc' := hc; rw [hq] at hc'; exact hc'
    | cons v rest =>
      have hv : Vis st.visited v := hinv.queue_vis v (by rw [hq]; simp)
      have hvr : 0 ≤ v ∧ v < (g.adj.length : Int) := by
        have := getAt_lt hv; rw [hinv.len] at this; exact this
      obtain ⟨nbrs, hnb⟩ := getAt_of_lt g.adj v hvr
      have hnbrs := neighbors_of_getAt hnb
      have hinv0 : ConnInv g { st with queue := rest } :=
        ⟨hinv.len, hinv.zero, fun x hx => hinv.queue_vis x (by rw [hq]; exact List.mem_cons_of_mem _ hx),
          hinv.sound, hinv.count⟩
      have hc0 : Closed g st.visited rest v nbrs := by
        rw [hq] at hc
        exact closed_pop hc (fun w hw => by rw [hnbrs] at hw; exact hw)
      obtain ⟨st1, h1, h2, h3, h4⟩ := isConnectedVisit_spec g v nbrs { st with queue := rest }
        (fun w hw => ⟨neighbors_in_range hin (by rw [hnbrs]; exact hw), by rw [hnbrs]; exact hw⟩)
        hinv0 hv hc0
      have hm1 : bfsMeasure st1.visited st1.queue ≤ fuel := by
        rw [h4]
        unfold bfsMeasure at hm ⊢
        rw [hq] at hm
        simp only [List.length_cons] at hm
        show rest.length + List.count false st.visited ≤ fuel
        omega
      obtain ⟨st2, k1, k2, k3⟩ := ih st1 h2 (closed_change h3) hm1
      refine ⟨st2, ?_, k2, k3⟩
      unfold isConnectedLoop
      simp only [hq, hnb, h1]
      exact k1

theorem vis_replicate_false (n : Nat) (v : Int) : ¬ Vis (List.replicate n false) v := by
  unfold Vis
  intro h
  have := (getAt_eq_some_iff _ _ _).1 h
  rw [List.getElem?_replicate] at this
  split at this <;> simp at this

theorem isConnected_result (g : Graph) (hsz : g.SizeOk) (hin : g.EntriesInRange) :
    ∃ b, g.isConnected = .ok b ∧ (b = true ↔ g.Connected) := by
  unfold Graph.SizeOk at hsz
  by_cases he : g.adj = []
  · refine ⟨true, ?_, ?_⟩
    · unfold Graph.isConnected; simp [he]
    · simp only [true_iff]
      intro v hv
      unfold Graph.IsVertex at hv
      rw [he] at hsz; simp at hsz; omega
  · have hn : 0 < g.adj.length := List.length_pos.2 he
    have h0r : (0 : Int) ≤ 0 ∧ (0 : Int) < ((List.replicate g.adj.length false).length : Int) := by
      simp; omega
    have h0f : getAt (List.replicate g.adj.length false) 0 = some false := by
      rw [getAt_eq_some_iff]; simp [List.getElem?_replicate, hn]
    have hvis0 : ∀ v, Vis (setAt (List.replicate g.adj.length false) 0 true) v → v = 0 := by
      intro v hv
      rcases (vis_setAt _ _ _ h0r).1 hv with h | h
      · exact h
      · exact absurd h (vis_replicate_false _ _)
    have hinv : ConnInv g
        (ConnState.mk (setAt (List.replicate g.adj.length false) 0 true) [0] 1) := by
      refine ⟨?_, ?_, ?_, ?_, ?_⟩
      · simp [length_setAt]
      · exact (vis_setAt _ _ _ h0r).2 (Or.inl rfl)
      · intro x hx
        simp only [List.mem_singleton] at hx
        exact (vis_setAt _ _ _ h0r).2 (Or.inl hx)
      · intro v hv
        rw [hvis0 v hv]; exact Graph.Reachable.refl 0
      · simp only [count_true_setAt _ _ h0f]
        simp [List.count_replicate]
    have hcl : Closed g (setAt (List.replicate g.adj.length false) 0 true) [0] 0 [] := by
      intro v hv hq
      exact absurd (hvis0 v hv) (by simpa using hq)
    have hme : bfsMeasure (setAt (List.replicate g.adj.length false) 0 true) [0] ≤
        g.adj.length := by
      unfold bfsMeasure
      have := count_false_setAt _ _ h0f
      simp only [List.count_replicate_self] at this
      simp only [List.length_singleton]
      omega
    obtain ⟨st1, h1, h2, h3⟩ := isConnectedLoop_spec g hin g.adj.length _ hinv hcl hme
    refine ⟨decide (st1.visitedCount = (g.adj.length : Int)), ?_, ?_⟩
    · unfold Graph.isConnected
      have : g.adj.isEmpty = false := by
        cases hg : g.adj with
        | nil => exact absurd hg he
        | cons _ _ => rfl
      simp only [this, Bool.false_eq_true, if_false, h1]
    · simp only [decide_eq_true_eq]
      rw [h2.count, ← h2.len]
      constructor
      · intro hcount v hv
        have hcount' : List.count true st1.visited = st1.visited.length := by exact_mod_cast hcount
        rw [List.count_eq_length] at hcount'
        apply h2.sound
        unfold Graph.IsVertex at hv
        obtain ⟨b, hb⟩ := getAt_of_lt st1.visited v (by rw [h2.len]; omega)
        have hm : b ∈ st1.visited := List.getElem?_mem ((getAt_eq_some_iff _ _ _).1 hb).2
        rw [← hcount' b hm] at hb
        exact hb
      · intro hconn
        have : List.count true st1.visited = st1.visited.length := by
          rw [List.count_eq_length]
          intro b hb
          obtain ⟨i, hi⟩ := List.mem_iff_getElem?.1 hb
          have hil : i < st1.visited.length := by
            rcases List.getElem?_eq_some.1 hi with ⟨h, _⟩; exact h
          have hvx : g.IsVertex (i : Int) := by
            unfold Graph.IsVertex; rw [h2.len] at hil; omega
          have hv := closed_reach h3 h2.zero (hconn _ hvx)
          unfold Vis at hv
          rw [getAt_natCast, hi] at hv
          exact (Option.some.inj hv).symm
        exact_mod_cast this

theorem connected_of_le_one (g : Graph) (h : g.V ≤ 1) : g.Connected := by
  intro v hv
  unfold Graph.IsVertex at hv
  have : v = 0 := by omega
  subst this
  exact Graph.Reachable.refl 0

/-- Claim C6: on a graph whose adjacency entries are vertex indices,
`isConnected()` terminates and returns true if and only if every vertex is
reachable from vertex 0 along adjacency entries; in particular it returns true
on every graph with 0 or 1 vertices. -/
theorem isConnected_iff_all_reachable (g : Graph) (hsz : g.SizeOk) (hin : g.EntriesInRange) :
    (∃ b, g.isConnected = .ok b ∧ (b = true ↔ g.Connected)) ∧
    (g.isConnected = .ok true ↔ g.Connected) ∧
    (g.V ≤ 1 → g.isConnected = .ok true) := by
  obtain ⟨b, hb, hiff⟩ := isConnected_result g hsz hin
  refine ⟨⟨b, hb, hiff⟩, ?_, ?_⟩
  · rw [hb]
    constructor
    · intro h; exact hiff.1 (by injection h)
    · intro h; rw [hiff.2 h]
  · intro h
    rw [hb, hiff.2 (connected_of_le_one g h)]

theorem isConnected_iff_all_reachable_witness :
    Graph.isConnected { V := 3, adj := [[1], [0, 2], [1]] } = .ok true ∧
    Graph.Connected { V := 3, adj := [[1], [0, 2], [1]] } ∧
    Graph.isConnected { V := 2, adj := [[], []] } = .ok false ∧
    ¬ Graph.Connected { V := 2, adj := [[], []] } :=
  have h1 := isConnected_iff_all_reachable { V := 3, adj := [[1], [0, 2], [1]] }
    (by decide) (by decide)
  have h2 := isConnected_iff_all_reachable { V := 2, adj := [[], []] } (by decide) (by decide)
  ⟨by decide, h1.2.1.1 (by decide), by decide, fun hc => by
    have := h2.2.1.2 hc
    revert this; decide⟩

/-! ## The constructor of `SpanningTree` -/

/-- Claim C7: constructing a `SpanningTree` over a graph fails with
InvalidArgument if and only if the graph is not connected; it fails for the
graph with two vertices and no edge and succeeds for every connected graph,
among them all graphs with 0 or 1 vertices. -/
theorem create_fails_iff_not_connected (g : Graph) (hsz : g.SizeOk) (hin : g.EntriesInRange) :
    (SpanningTree.create g = .error .invalidArgument ↔ ¬ g.Connected) ∧
    (SpanningTree.create g = .ok { graph := g } ↔ g.Connected) ∧
    (g.V ≤ 1 → SpanningTree.create g = .ok { graph := g }) ∧
    SpanningTree.create { V := 2, adj := [[], []] } = .error .invalidArgument := by
  obtain ⟨b, hb, hiff⟩ := isConnected_result g hsz hin
  have hc : g.Connected → SpanningTree.create g = .ok { graph := g } := by
    intro h
    unfold SpanningTree.create
    rw [hb, hiff.2 h]
  have hn : ¬ g.Connected → SpanningTree.create g = .error .invalidArgument := by
    intro h
    unfold SpanningTree.create
    have : b = false := by
      cases b with
      | false => rfl
      | true => exact absurd (hiff.1 rfl) h
    rw [hb, this]
  refine ⟨⟨?_, hn⟩, ⟨?_, hc⟩, fun h => hc (connected_of_le_one g h), by decide⟩
  · intro h hcon
    rw [hc hcon] at h
    cases h
  · intro h
    by_contra hcon
    rw [hn hcon] at h
    cases h

theorem create_fails_iff_not_connected_witness :
    SpanningTree.create { V := 3, adj := [[1], [0, 2], [1]] } =
      .ok { graph := { V := 3, adj := [[1], [0, 2], [1]] } } ∧
    Graph.Connected { V := 3, adj := [[1], [0, 2], [1]] } :=
  have h := create_fails_iff_not_connected { V := 3, adj := [[1], [0, 2], [1]] }
    (by decide) (by decide)
  ⟨by decide, h.2.1.1 (by decide)⟩

/-! ## The traversal of `generateRandomSpanningTree` -/

theorem ancestor_succ_eq_some {parent : List Int} {k : Nat} {v r : Int}
    (h : ancestor parent (k + 1) v = some r) :
    ∃ p, getAt parent v = some p ∧ p ≠ -1 ∧ ancestor parent k p = some r := by
  simp only [ancestor] at h
  cases hp : getAt parent v with
  | none => rw [hp] at h; cases h
  | some p =>
    rw [hp] at h
    by_cases hs : p = -1
    · simp [hs] at h
    · simp only [hs, if_false] at h
      exact ⟨p, rfl, hs, h⟩

theorem ancestor_succ_of_link {parent : List Int} {k : Nat} {v p : Int}
    (hp : getAt parent v = some p) (hs : p ≠ -1) :
    ancestor parent (k + 1) v = ancestor parent k p := by
  simp only [ancestor, hp, hs, if_false]

theorem ancestor_add (parent : List Int) (a b : Nat) :
    ∀ v, ancestor parent (a + b) v = (ancestor parent a v).bind (ancestor parent b) := by
  induction a with
  | zero => intro v; simp [ancestor]
  | succ a ih =>
    intro v
    have e : a + 1 + b = (a + b) + 1 := by omega
    rw [e]
    cases hp : getAt parent v with
    | none => simp [ancestor, hp]
    | some p =>
      by_cases hs : p = -1
      · simp [ancestor, hp, hs]
      · rw [ancestor_succ_of_link hp hs, ancestor_succ_of_link hp hs]
        exact ih p

theorem ancestor_root_none {parent : List Int} {root : Int}
    (hr : getAt parent root = some (-1)) (k : Nat) (hk : 0 < k) :
    ancestor parent k root = none := by
  cases k with
  | zero => omega
  | succ k => simp [ancestor, hr]

theorem ancestor_acyclic {parent : List Int} {root : Int}
    (hr : getAt parent root = some (-1)) :
    ∀ (m : Nat) (v : Int), ancestor parent m v = some root →
      ∀ k, 0 < k → ancestor parent k v ≠ some v := by
  intro m
  induction m with
  | zero =>
    intro v hv k hk
    simp only [ancestor, Option.some.injEq] at hv
    subst hv
    rw [ancestor_root_none hr k hk]
    simp
  | succ m ih =>
    intro v hv k hk hcyc
    obtain ⟨p, hp, hs, hm⟩ := ancestor_succ_eq_some hv
    obtain ⟨j, rfl⟩ : ∃ j, k = j + 1 := ⟨k - 1, by omega⟩
    have h1 : ancestor parent j p = some v := by
      rw [← ancestor_succ_of_link hp hs]; exact hcyc
    have h2 : ancestor parent (j + 1) p = some p := by
      rw [ancestor_add parent j 1 p, h1]
      simp only [Option.some_bind]
      rw [ancestor_succ_of_link hp hs]
      rfl
    exact ih p hm (j + 1) (by omega) h2

theorem ancestor_stable {g : Graph} {start : Int} {st : TreeState} (hinv : TreeInv g start st)
    {w : Int} (hw : getAt st.visited w = some false) (u : Int) :
    ∀ (k : Nat) (x r : Int), Vis st.visited x → ancestor st.parent k x = some r →
      ancestor (setAt st.parent w u) k x = some r := by
  intro k
  induction k with
  | zero => intro x r _ h; exact h
  | succ k ih =>
    intro x r hx h
    obtain ⟨p, hp, hs, hk⟩ := ancestor_succ_eq_some h
    have hxw : w ≠ x := by
      intro hc; subst hc
      unfold Vis at hx
      rw [hw] at hx; cases hx
    have hp' : getAt (setAt st.parent w u) x = some p := by
      rw [getAt_setAt_ne _ _ _ _ hxw]; exact hp
    rw [ancestor_succ_of_link hp' hs]
    exact ih p r (hinv.linked x p hp hs).2.1 hk

theorem treeInv_mark {g : Graph} {start : Int} {st : TreeState} (hinv : TreeInv g start st)
    {u w : Int} (hu : Vis st.visited u) (hwu : w ∈ g.neighbors u)
    (hw : getAt st.visited w = some false) :
    TreeInv g start
      { visited := setAt st.visited w true, parent := setAt st.parent w u, q := st.q ++ [w] } := by
  have hr : 0 ≤ w ∧ w < (st.visited.length : Int) := getAt_lt hw
  have hrp : 0 ≤ w ∧ w < (st.parent.length : Int) := by
    rw [hinv.len_parent, ← hinv.len_visited]; exact hr
  have hu0 : u ≠ -1 := by
    have := getAt_lt hu; omega
  have hws : w ≠ start := by
    intro hc; subst hc
    have := hinv.start_vis
    unfold Vis at this
    rw [hw] at this; cases this
  refine ⟨?_, ?_, ?_, ?_, ?_, ?_, ?_, ?_, ?_⟩
  · simp only [length_setAt]; exact hinv.len_visited
  · simp only [length_setAt]; exact hinv.len_parent
  · exact (vis_setAt _ _ _ hr).2 (Or.inr hinv.start_vis)
  · show getAt (setAt st.parent w u) start = some (-1)
    rw [getAt_setAt_ne _ _ _ _ hws]; exact hinv.start_parent
  · intro v hv
    show getAt (setAt st.parent w u) v = some (-1)
    have hvw : w ≠ v := by
      intro hc; subst hc
      have : getAt (setAt st.visited w true) w = some true := getAt_setAt_self _ _ _ hr
      rw [this] at hv; cases hv
    rw [getAt_setAt_ne _ _ _ _ hvw] at hv ⊢
    exact hinv.unvisited v hv
  · intro v p hp hs
    show Vis (setAt st.visited w true) v ∧ Vis (setAt st.visited w true) p ∧ _
    by_cases hvw : v = w
    · subst hvw
      have : getAt (setAt st.parent v u) v = some u := getAt_setAt_self _ _ _ hrp
      have hpu : p = u := by
        have e : getAt (setAt st.parent v u) v = some p := hp
        rw [this] at e; exact (Option.some.inj e).symm
      subst hpu
      exact ⟨(vis_setAt _ _ _ hr).2 (Or.inl rfl), (vis_setAt _ _ _ hr).2 (Or.inr hu), hwu, hws⟩
    · have e : getAt (setAt st.parent w u) v = some p := hp
      rw [getAt_setAt_ne _ _ _ _ (fun hc => hvw hc.symm)] at e
      obtain ⟨a, b, c, d⟩ := hinv.linked v p e hs
      exact ⟨(vis_setAt _ _ _ hr).2 (Or.inr a), (vis_setAt _ _ _ hr).2 (Or.inr b), c, d⟩
  · intro v hv hvs
    show ∃ p, getAt (setAt st.parent w u) v = some p ∧ p ≠ -1
    by_cases hvw : v = w
    · subst hvw
      exact ⟨u, getAt_setAt_self _ _ _ hrp, hu0⟩
    · rw [getAt_setAt_ne _ _ _ _ (fun hc => hvw hc.symm)]
      rcases (vis_setAt _ _ _ hr).1 hv with h | h
      · exact absurd h hvw
      · exact hinv.has_parent v h hvs
  · intro v hv
    show ∃ k, ancestor (setAt st.parent w u) k v = some start
    by_cases hvw : v = w
    · subst hvw
      obtain ⟨k, hk⟩ := hinv.reach u hu
      refine ⟨k + 1, ?_⟩
      rw [ancestor_succ_of_link (getAt_setAt_self _ _ _ hrp) hu0]
      exact ancestor_stable hinv hw u k u start hu hk
    · rcases (vis_setAt _ _ _ hr).1 hv with h | h
      · exact absurd h hvw
      · obtain ⟨k, hk⟩ := hinv.reach v h
        exact ⟨k, ancestor_stable hinv hw u k v start h hk⟩
  · intro x hx
    show Vis (setAt st.visited w true) x
    rcases List.mem_append.1 hx with h | h
    · exact (vis_setAt _ _ _ hr).2 (Or.inr (hinv.queue_vis x h))
    · simp only [List.mem_singleton] at h
      exact (vis_setAt _ _ _ hr).2 (Or.inl h)

theorem generateVisit_spec (g : Graph) (start u : Int) (nbrs : List Int) :
    ∀ st : TreeState,
      (∀ w ∈ nbrs, (0 ≤ w ∧ w < (g.adj.length : Int)) ∧ w ∈ g.neighbors u) →
      TreeInv g start st → Vis st.visited u →
      Closed g st.visited st.q u nbrs →
      ∃ st1, generateVisit u nbrs st = .ok st1 ∧ TreeInv g start st1 ∧
        Closed g st1.visited st1.q u [] ∧
        bfsMeasure st1.visited st1.q = bfsMeasure st.visited st.q := by
  induction nbrs with
  | nil =>
    intro st _ hinv _ hc
    exact ⟨st, rfl, hinv, hc, rfl⟩
  | cons w rest ih =>
    intro st hn hinv hu hc
    have hw := hn w (List.mem_cons_self _ _)
    have hrest : ∀ x ∈ rest, (0 ≤ x ∧ x < (g.adj.length : Int)) ∧ x ∈ g.neighbors u :=
      fun x hx => hn x (List.mem_cons_of_mem _ hx)
    obtain ⟨b, hb⟩ := getAt_of_lt st.visited w (by rw [hinv.len_visited]; exact hw.1)
    cases b with
    | true =>
      obtain ⟨st1, h1, h2, h3, h4⟩ := ih st hrest hinv hu (closed_skip hc hb)
      exact ⟨st1, by simp only [generateVisit, hb]; exact h1, h2, h3, h4⟩
    | false =>
      have hr : 0 ≤ w ∧ w < (st.visited.length : Int) := getAt_lt hb
      obtain ⟨p0, hp0⟩ := getAt_of_lt st.parent w (by rw [hinv.len_parent]; exact hw.1)
      have hu' : Vis (setAt st.visited w true) u := (vis_setAt _ _ _ hr).2 (Or.inr hu)
      obtain ⟨st1, h1, h2, h3, h4⟩ := ih _ hrest (treeInv_mark hinv hu hw.2 hb) hu'
        (closed_mark hc hb)
      refine ⟨st1, by simp only [generateVisit, hb, hp0]; exact h1, h2, h3, ?_⟩
      rw [h4]
      unfold bfsMeasure
      have := count_false_setAt _ _ hb
      simp only [List.length_append, List.length_singleton]
      omega

theorem generateLoop_spec {σ : Type} (rs : RandomSource σ) (g : Graph)
    (hin : g.EntriesInRange) (start : Int) :
    ∀ (fuel : Nat) (rng : σ) (st : TreeState),
      TreeInv g start st → Closed g st.visited st.q 0 [] →
      bfsMeasure st.visited st.q ≤ fuel →
      ∃ st1 rng1, generateLoop rs g.adj fuel rng st = .ok (st1, rng1) ∧ TreeInv g start st1 ∧
        Closed g st1.visited [] 0 [] := by
  intro fuel
  induction fuel with
  | zero =>
    intro rng st hinv hc hm
    have hq : st.q = [] := by
      unfold bfsMeasure at hm
      exact List.length_eq_zero.1 (by omega)
    refine ⟨st, rng, ?_, hinv, ?_⟩
    · unfold generateLoop; simp [hq]
    · have hc' := hc; rw [hq] at hc'; exact hc'
  | succ fuel ih =>
    intro rng st hinv hc hm
    cases hq : st.q with
    | nil =>
      refine ⟨st, rng, ?_, hinv, ?_⟩
      · unfold generateLoop; simp [hq]
      · have hc' := hc; rw [hq] at hc'; exact hc'
    | cons v rest =>
      have hv : Vis st.visited v := hinv.queue_vis v (by rw [hq]; simp)
      have hvr : 0 ≤ v ∧ v < (g.adj.length : Int) := by
        have := getAt_lt hv; rw [hinv.len_visited] at this; exact this
      obtain ⟨nbrs, hnb⟩ := getAt_of_lt g.adj v hvr
      have hnbrs := neighbors_of_getAt hnb
      have hperm := rs.shuffle_perm rng nbrs
      have hinv0 : TreeInv g start { st with q := rest } :=
        ⟨hinv.len_visited, hinv.len_parent, hinv.start_vis, hinv.start_parent, hinv.unvisited,
          hinv.linked, hinv.has_parent, hinv.reach,
          fun x hx => hinv.queue_vis x (by rw [hq]; exact List.mem_cons_of_mem _ hx)⟩
      have hc0 : Closed g st.visited rest v (rs.shuffle rng nbrs).1 := by
        rw [hq] at hc
        exact closed_pop hc (fun w hw => by rw [hnbrs] at hw; exact hperm.symm.subset hw)
      obtain ⟨st1, h1, h2, h3, h4⟩ := generateVisit_spec g start v (rs.shuffle rng nbrs).1
        { st with q := rest }
        (fun w hw => by
          have hw' : w ∈ g.neighbors v := by rw [hnbrs]; exact hperm.subset hw
          exact ⟨neighbors_in_range hin hw', hw'⟩)
        hinv0 hv hc0
      have hm1 : bfsMeasure st1.visited st1.q ≤ fuel := by
        rw [h4]
        unfold bfsMeasure at hm ⊢
        rw [hq] at hm
        simp only [List.length_cons] at hm
        show rest.length + List.count false st.visited ≤ fuel
        omega
      obtain ⟨st2, rng2, k1, k2, k3⟩ := ih (rs.shuffle rng nbrs).2 st1 h2 (closed_change h3) hm1
      refine ⟨st2, rng2, ?_, k2, k3⟩
      unfold generateLoop
      simp only [hq, hnb, h1]
      exact k1

theorem symmetric_mem {g : Graph} (hsym : g.Symmetric) {u v : Int}
    (h : v ∈ g.neighbors u) : u ∈ g.neighbors v := by
  have hu := neighbors_nonempty_vertex h
  have e : ((u.toNat : Nat) : Int) = u := by omega
  have := hsym u.toNat (List.mem_range.2 (by omega)) v (by rw [e]; exact h)
  rw [e] at this; exact this

theorem reachable_trans {g : Graph} {a b c : Int}
    (h1 : g.Reachable a b) (h2 : g.Reachable b c) : g.Reachable a c := by
  induction h2 with
  | refl => exact h1
  | step _ hw ih => exact Graph.Reachable.step ih hw

theorem reachable_symm {g : Graph} (hsym : g.Symmetric) {a b : Int}
    (h : g.Reachable a b) : g.Reachable b a := by
  induction h with
  | refl => exact Graph.Reachable.refl _
  | step _ hw ih =>
    exact reachable_trans (Graph.Reachable.step (Graph.Reachable.refl _) (symmetric_mem hsym hw)) ih

theorem count_eq_one_of_unique {α : Type} [DecidableEq α] (a : α) (l : List α) :
    ∀ r : Nat, l[r]? = some a → (∀ i : Nat, l[i]? = some a → i = r) → l.count a = 1 := by
  induction l with
  | nil => intro r h; simp at h
  | cons x t ih =>
    intro r h huniq
    cases r with
    | zero =>
      simp only [List.getElem?_cons_zero, Option.some.injEq] at h
      subst h
      have hnot : x ∉ t := by
        intro hm
        obtain ⟨i, hi⟩ := List.mem_iff_getElem?.1 hm
        have := huniq (i + 1) (by simpa using hi)
        omega
      simp [List.count_cons, List.count_eq_zero.2 hnot]
    | succ r =>
      simp only [List.getElem?_cons_succ] at h
      have hx : x ≠ a := by
        intro hc
        have := huniq 0 (by simp [hc])
        omega
      have := ih r h (fun i hi => by
        have := huniq (i + 1) (by simpa using hi)
        omega)
      simp [List.count_cons, this, hx]

theorem treeInv_final {g : Graph} {start : Int} {st : TreeState}
    (hsz : g.SizeOk) (hsym : g.Symmetric) (hconn : g.Connected)
    (hstart : g.IsVertex start)
    (hinv : TreeInv g start st) (hcl : Closed g st.visited [] 0 []) :
    IsSpanningTreeOf g start st.parent := by
  unfold Graph.SizeOk at hsz
  have hall : ∀ v, g.IsVertex v → Vis st.visited v := by
    intro v hv
    have h0 : g.IsVertex 0 := by unfold Graph.IsVertex at hstart ⊢; omega
    have hr : g.Reachable start v :=
      reachable_trans (reachable_symm hsym (hconn start hstart)) (hconn v hv)
    exact closed_reach hcl hinv.start_vis hr
  have huniq : ∀ i, getAt st.parent i = some (-1) → i = start := by
    intro i hi
    by_contra hne
    have hir := getAt_lt hi
    rw [hinv.len_parent] at hir
    obtain ⟨p, hp, hs⟩ := hinv.has_parent i (hall i (by unfold Graph.IsVertex; omega)) hne
    rw [hi] at hp
    exact hs (Option.some.inj hp).symm
  refine ⟨?_, hstart, hinv.start_parent, huniq, ?_, ?_, ?_, ?_⟩
  · rw [hinv.len_parent]; exact hsz
  · have hs0 : 0 ≤ start := hstart.1
    apply count_eq_one_of_unique (-1) st.parent start.toNat
    · exact ((getAt_eq_some_iff _ _ _).1 hinv.start_parent).2
    · intro i hi
      have := huniq (i : Int) (by rw [getAt_natCast]; exact hi)
      omega
  · intro v hv; exact hinv.reach v (hall v hv)
  · intro v k hk hcyc
    obtain ⟨j, rfl⟩ : ∃ j, k = j + 1 := ⟨k - 1, by omega⟩
    obtain ⟨p, hp, hs, _⟩ := ancestor_succ_eq_some hcyc
    obtain ⟨m, hm⟩ := hinv.reach v (hinv.linked v p hp hs).1
    exact ancestor_acyclic hinv.start_parent m v hm (j + 1) hk hcyc
  · intro i p hp hs
    have := (hinv.linked i p hp hs).2.2.1
    exact ⟨symmetric_mem hsym this, this⟩

theorem getAt_replicate {α : Type} (n : Nat) (a : α) (v : Int) (x : α)
    (h : getAt (List.replicate n a) v = some x) : x = a := by
  have := ((getAt_eq_some_iff _ _ _).1 h).2
  rw [List.getElem?_replicate] at this
  split at this
  · exact (Option.some.inj this).symm
  · cases this

theorem getAt_replicate_of_lt {α : Type} (n : Nat) (a : α) (v : Int)
    (h : 0 ≤ v ∧ v < (n : Int)) : getAt (List.replicate n a) v = some a := by
  obtain ⟨x, hx⟩ := getAt_of_lt (List.replicate n a) v (by simpa using h)
  rw [hx, getAt_replicate n a v x hx]

theorem generate_result {σ : Type} (rs : RandomSource σ) (g : Graph)
    (hsz : g.SizeOk) (hin : g.EntriesInRange) (hsym : g.Symmetric) (hconn : g.Connected)
    (hV : 1 ≤ g.V) (rng : σ) :
    ∃ parent rng1,
      SpanningTree.generateRandomSpanningTree rs { graph := g } rng = .ok (parent, rng1) ∧
      IsSpanningTreeOf g (drawnRoot rs g rng) parent := by
  have hsz' : (g.adj.length : Int) = g.V := hsz
  by_cases h1 : g.V ≤ 1
  · have hV1 : g.V = 1 := by omega
    refine ⟨List.replicate g.V.toNat (-1), rng, ?_, ?_⟩
    · unfold SpanningTree.generateRandomSpanningTree; simp [h1]
    · have hroot : drawnRoot rs g rng = 0 := by unfold drawnRoot; simp [h1]
      rw [hroot, hV1]
      have e : (1 : Int).toNat = 1 := rfl
      rw [e]
      have hg : ∀ i p, getAt (List.replicate 1 (-1 : Int)) i = some p → p = -1 :=
        fun i p h => getAt_replicate 1 (-1) i p h
      refine ⟨by simp [hV1], by unfold Graph.IsVertex; omega, by decide, ?_, by decide, ?_, ?_, ?_⟩
      · intro i hi
        have := getAt_lt hi
        simp at this; omega
      · intro v hv
        unfold Graph.IsVertex at hv
        have : v = 0 := by omega
        subst this
        exact ⟨0, rfl⟩
      · intro v k hk hcyc
        obtain ⟨j, rfl⟩ : ∃ j, k = j + 1 := ⟨k - 1, by omega⟩
        obtain ⟨p, hp, hs, _⟩ := ancestor_succ_eq_some hcyc
        exact hs (hg v p hp)
      · intro i p hp hs
        exact absurd (hg i p hp) hs
  · have hrange := rs.uniformInt_range rng 0 (g.V - 1) (by omega)
    have hroot : drawnRoot rs g rng = (rs.uniformInt rng 0 (g.V - 1)).1 := by
      unfold drawnRoot; simp [h1]
    rw [hroot]
    obtain ⟨start, hstart⟩ : ∃ s, s = (rs.uniformInt rng 0 (g.V - 1)).1 := ⟨_, rfl⟩
    rw [← hstart] at hrange ⊢
    have hn : g.V.toNat = g.adj.length := by omega
    have hsv : g.IsVertex start := by unfold Graph.IsVertex; omega
    have hsr : 0 ≤ start ∧ start < ((List.replicate g.V.toNat false).length : Int) := by
      simp only [List.length_replicate]; omega
    have hsf : getAt (List.replicate g.V.toNat false) start = some false :=
      getAt_replicate_of_lt _ _ _ (by omega)
    have hvis0 : ∀ v, Vis (setAt (List.replicate g.V.toNat false) start true) v → v = start := by
      intro v hv
      rcases (vis_setAt _ _ _ hsr).1 hv with h | h
      · exact h
      · exact absurd h (vis_replicate_false _ _)
    have hinv : TreeInv g start
        (TreeState.mk (setAt (List.replicate g.V.toNat false) start true)
          (List.replicate g.V.toNat (-1)) [start]) := by
      refine ⟨?_, ?_, ?_, ?_, ?_, ?_, ?_, ?_, ?_⟩
      · simp [length_setAt, hn]
      · simp [hn]
      · exact (vis_setAt _ _ _ hsr).2 (Or.inl rfl)
      · exact getAt_replicate_of_lt _ _ _ (by omega)
      · intro v hv
        have := getAt_lt hv
        simp only [length_setAt, List.length_replicate] at this
        exact getAt_replicate_of_lt _ _ _ this
      · intro v p hp hs
        exact absurd (getAt_replicate _ _ _ _ hp) hs
      · intro v hv hne
        exact absurd (hvis0 v hv) hne
      · intro v hv
        rw [hvis0 v hv]; exact ⟨0, rfl⟩
      · intro x hx
        simp only [List.mem_singleton] at hx
        exact (vis_setAt _ _ _ hsr).2 (Or.inl hx)
    have hcl : Closed g (setAt (List.replicate g.V.toNat false) start true) [start] 0 [] := by
      intro v hv hq
      exact absurd (hvis0 v hv) (by simpa using hq)
    have hme : bfsMeasure (setAt (List.replicate g.V.toNat false) start true) [start] ≤
        g.V.toNat := by
      unfold bfsMeasure
      have := count_false_setAt _ _ hsf
      simp only [List.count_replicate_self] at this
      simp only [List.length_singleton]
      omega
    obtain ⟨st1, rng1, k1, k2, k3⟩ := generateLoop_spec rs g hin start g.V.toNat
      (rs.uniformInt rng 0 (g.V - 1)).2 _ hinv hcl hme
    refine ⟨st1.parent, rng1, ?_, treeInv_final hsz hsym hconn hsv k2 k3⟩
    subst hstart
    unfold SpanningTree.generateRandomSpanningTree
    simp only [h1, if_false, hsf, k1]

theorem connected_of_isConnected {g : Graph} (hsz : g.SizeOk) (hin : g.EntriesInRange)
    (h : g.isConnected = .ok true) : g.Connected := by
  obtain ⟨b, hb, hiff⟩ := isConnected_result g hsz hin
  rw [hb] at h
  exact hiff.1 (by injection h)

/-- Claim C2: on a connected graph with `V ≥ 1` vertices, symmetric adjacency and
entries in `[0, V)`, for every random source (hence every start vertex and every
choice of neighbour permutations) `generateRandomSpanningTree` returns an array
of length `V` that is a spanning tree rooted at the start vertex: the start
vertex holds the only `-1`, following parent links from any vertex reaches the
root and never returns to a vertex already passed, and every parent is a
neighbour of its child in the graph. -/
theorem generateRandomSpanningTree_is_spanning_tree {σ : Type} (rs : RandomSource σ)
    (g : Graph) (hsz : g.SizeOk) (hin : g.EntriesInRange) (hsym : g.Symmetric)
    (hconn : g.Connected) (hV : 1 ≤ g.V) (rng : σ) :
    ∃ parent rng1,
      SpanningTree.generateRandomSpanningTree rs { graph := g } rng = .ok (parent, rng1) ∧
      IsSpanningTreeOf g (drawnRoot rs g rng) parent ∧
      g.IsVertex (drawnRoot rs g rng) ∧
      (parent.length : Int) = g.V ∧
      parent.count (-1) = 1 ∧
      getAt parent (drawnRoot rs g rng) = some (-1) ∧
      (∀ v, g.IsVertex v → ∃ k, ancestor parent k v = some (drawnRoot rs g rng)) ∧
      (∀ v k, 0 < k → ancestor parent k v ≠ some v) ∧
      (∀ i p, getAt parent i = some p → p ≠ -1 → p ∈ g.neighbors i) := by
  obtain ⟨parent, rng1, h1, h2⟩ := generate_result rs g hsz hin hsym hconn hV rng
  exact ⟨parent, rng1, h1, h2, h2.root_vertex, h2.length_eq, h2.sentinel_count,
    h2.root_sentinel, h2.reaches_root, h2.acyclic, fun i p hp hs => (h2.edges i p hp hs).1⟩

theorem generateRandomSpanningTree_is_spanning_tree_witness :
    ∃ parent rng1,
      SpanningTree.generateRandomSpanningTree counterSource
        { graph := { V := 4, adj := [[1, 2, 3], [0, 2, 3], [0, 1, 3], [0, 1, 2]] } } 5 =
          .ok (parent, rng1) ∧
      IsSpanningTreeOf { V := 4, adj := [[1, 2, 3], [0, 2, 3], [0, 1, 3], [0, 1, 2]] }
        (drawnRoot counterSource { V := 4, adj := [[1, 2, 3], [0, 2, 3], [0, 1, 3], [0, 1, 2]] } 5)
        parent :=
  have h := generateRandomSpanningTree_is_spanning_tree counterSource
    { V := 4, adj := [[1, 2, 3], [0, 2, 3], [0, 1, 3], [0, 1, 2]] } (by decide) (by decide)
    (by decide) (connected_of_isConnected (by decide) (by decide) (by decide)) (by decide) 5
  match h with
  | ⟨parent, rng1, h1, h2, _⟩ => ⟨parent, rng1, h1, h2⟩

/-! ## The search loops -/

theorem spanningTree_entries {g : Graph} (hsz : g.SizeOk) (hin : g.EntriesInRange)
    {root : Int} {parent : List Int} (h : IsSpanningTreeOf g root parent) :
    ∀ p ∈ parent, p = -1 ∨ (0 ≤ p ∧ p < (parent.length : Int)) := by
  intro p hp
  by_cases hs : p = -1
  · exact Or.inl hs
  · right
    obtain ⟨i, hi⟩ := List.mem_iff_getElem?.1 hp
    have hgi : getAt parent (i : Int) = some p := by rw [getAt_natCast]; exact hi
    have hmem := (h.edges (i : Int) p hgi hs).1
    have := neighbors_in_range hin hmem
    have hl := h.length_eq
    unfold Graph.SizeOk at hsz
    omega

theorem leafCount_le (parent : List Int) : leafCount parent ≤ parent.length := by
  unfold leafCount
  have := List.countP_le_length (fun i => treeDegree parent i == 1) (l := List.range parent.length)
  simpa using this

theorem countLeaves_spanningTree {g : Graph} (hsz : g.SizeOk) (hin : g.EntriesInRange)
    (hV : 1 ≤ g.V) {root : Int} {parent : List Int} (h : IsSpanningTreeOf g root parent) :
    ∃ leaves, SpanningTree.countLeaves parent = .ok leaves ∧ 0 ≤ leaves := by
  have hl := h.length_eq
  by_cases h2 : 2 ≤ parent.length
  · exact ⟨_, countLeaves_of_valid parent h2 (spanningTree_entries hsz hin h), by omega⟩
  · have h1 : (parent.length : Int) = 1 := by omega
    refine ⟨1, ?_, by omega⟩
    unfold SpanningTree.countLeaves
    simp [h1]

theorem trial_ok {σ : Type} (rs : RandomSource σ) (g : Graph)
    (hsz : g.SizeOk) (hin : g.EntriesInRange) (hsym : g.Symmetric) (hconn : g.Connected)
    (hV : 1 ≤ g.V) (rng : σ) :
    ∃ tree rng1 leaves,
      SpanningTree.generateRandomSpanningTree rs { graph := g } rng = .ok (tree, rng1) ∧
      SpanningTree.countLeaves tree = .ok leaves ∧
      BestValid g { tree := tree, leafCount := leaves } := by
  obtain ⟨tree, rng1, h1, h2⟩ := generate_result rs g hsz hin hsym hconn hV rng
  obtain ⟨leaves, h3, h4⟩ := countLeaves_spanningTree hsz hin hV h2
  exact ⟨tree, rng1, leaves, h1, h3, _, h2, h3, h4⟩

theorem sequentialLoop_spec {σ : Type} (rs : RandomSource σ) (g : Graph)
    (hsz : g.SizeOk) (hin : g.EntriesInRange) (hsym : g.Symmetric) (hconn : g.Connected)
    (hV : 1 ≤ g.V) :
    ∀ (n : Nat) (rng : σ) (best : Best),
      (best.leafCount = -1 ∨ BestValid g best) →
      ∃ best1 rng1, sequentialLoop rs { graph := g } n rng best = .ok (best1, rng1) ∧
        (n = 0 → best1 = best) ∧
        ((0 < n ∨ BestValid g best) → BestValid g best1) := by
  intro n
  induction n with
  | zero =>
    intro rng best _
    refine ⟨best, rng, rfl, fun _ => rfl, ?_⟩
    rintro (h | h)
    · omega
    · exact h
  | succ n ih =>
    intro rng best hb
    obtain ⟨tree, rng1, leaves, h1, h2, h3⟩ := trial_ok rs g hsz hin hsym hconn hV rng
    by_cases hgt : leaves > best.leafCount
    · obtain ⟨best1, rng2, k1, _, k3⟩ := ih rng1 { tree := tree, leafCount := leaves } (Or.inr h3)
      refine ⟨best1, rng2, ?_, by omega, fun _ => k3 (Or.inr h3)⟩
      simp only [sequentialLoop, h1, h2, hgt, if_true]
      exact k1
    · have hbv : BestValid g best := by
        rcases hb with h | h
        · obtain ⟨_, _, _, h0⟩ := h3
          simp only at h0
          omega
        · exact h
      obtain ⟨best1, rng2, k1, _, k3⟩ := ih rng1 best (Or.inr hbv)
      refine ⟨best1, rng2, ?_, by omega, fun _ => k3 (Or.inr hbv)⟩
      simp only [sequentialLoop, h1, h2, hgt, if_false]
      exact k1

theorem workerLoop_eq_sequentialLoop {σ : Type} (rs : RandomSource σ) (t : SpanningTree) :
    ∀ (n : Nat) (rng : σ) (best : Best),
      workerLoop rs t n rng best = sequentialLoop rs t n rng best := by
  intro n
  induction n with
  | zero => intro rng best; rfl
  | succ n ih =>
    intro rng best
    simp only [workerLoop, sequentialLoop]
    cases SpanningTree.generateRandomSpanningTree rs t rng with
    | error e => rfl
    | ok r =>
      obtain ⟨tree, rng1⟩ := r
      simp only
      cases SpanningTree.countLeaves tree with
      | error e => rfl
      | ok leaves =>
        simp only
        split
        · exact ih _ _
        · exact ih _ _

theorem workerBody_spec {σ : Type} (rs : RandomSource σ) (g : Graph)
    (hsz : g.SizeOk) (hin : g.EntriesInRange) (hsym : g.Symmetric) (hconn : g.Connected)
    (hV : 1 ≤ g.V) (iterations numThreads : Int) (hk : 0 < (Int.tdiv iterations numThreads).toNat)
    (localRng : σ) (shared : Best) (hs : shared.leafCount = -1 ∨ BestValid g shared) :
    ∃ shared1, workerBody rs { graph := g } iterations numThreads localRng shared = .ok shared1 ∧
      BestValid g shared1 := by
  have hnt : numThreads ≠ 0 := by
    intro hc; subst hc
    simp at hk
  obtain ⟨best1, rng1, k1, _, k3⟩ := sequentialLoop_spec rs g hsz hin hsym hconn hV
    (Int.tdiv iterations numThreads).toNat localRng { tree := [], leafCount := -1 } (Or.inl rfl)
  have hv := k3 (Or.inl hk)
  unfold workerBody
  simp only [hnt, if_false, workerLoop_eq_sequentialLoop, k1]
  by_cases hgt : best1.leafCount > shared.leafCount
  · exact ⟨best1, by simp [hgt], hv⟩
  · refine ⟨shared, by simp [hgt], ?_⟩
    rcases hs with h | h
    · obtain ⟨_, _, _, h0⟩ := hv
      omega
    · exact h

theorem parallelRegion_spec {σ : Type} (rs : RandomSource σ) (g : Graph)
    (hsz : g.SizeOk) (hin : g.EntriesInRange) (hsym : g.Symmetric) (hconn : g.Connected)
    (hV : 1 ≤ g.V) (iterations numThreads : Int) (hk : 0 < (Int.tdiv iterations numThreads).toNat) :
    ∀ (team : List σ) (shared : Best), (shared.leafCount = -1 ∨ BestValid g shared) →
      ∃ shared1, parallelRegion rs { graph := g } iterations numThreads team shared = .ok shared1 ∧
        ((team ≠ [] ∨ BestValid g shared) → BestValid g shared1) := by
  intro team
  induction team with
  | nil =>
    intro shared _
    refine ⟨shared, rfl, ?_⟩
    rintro (h | h)
    · exact absurd rfl h
    · exact h
  | cons r team ih =>
    intro shared hs
    obtain ⟨s1, h1, h2⟩ := workerBody_spec rs g hsz hin hsym hconn hV iterations numThreads hk
      r shared hs
    obtain ⟨s2, k1, k2⟩ := ih s1 (Or.inr h2)
    refine ⟨s2, ?_, fun _ => k2 (Or.inr h2)⟩
    simp only [parallelRegion, h1]
    exact k1

theorem findBestTreeParallel_valid {σ : Type} (rs : RandomSource σ) (g : Graph)
    (hsz : g.SizeOk) (hin : g.EntriesInRange) (hsym : g.Symmetric) (hconn : g.Connected)
    (hV : 1 ≤ g.V) (build : Build σ) (iterations numThreads : Int)
    (htrial : 0 < build.trialCount iterations numThreads) :
    ∃ tree root, SpanningTree.findBestTreeParallel rs { graph := g } build iterations numThreads =
        .ok tree ∧ IsSpanningTreeOf g root tree ∧
      ∃ leaves, SpanningTree.countLeaves tree = .ok leaves ∧ 0 ≤ leaves := by
  cases build with
  | sequential rng =>
    simp only [Build.trialCount] at htrial
    obtain ⟨best1, rng1, k1, _, k3⟩ := sequentialLoop_spec rs g hsz hin hsym hconn hV
      iterations.toNat rng { tree := [], leafCount := -1 } (Or.inl rfl)
    obtain ⟨root, h1, h2, h3⟩ := k3 (Or.inl htrial)
    refine ⟨best1.tree, root, ?_, h1, best1.leafCount, h2, h3⟩
    simp only [SpanningTree.findBestTreeParallel, k1]
  | openmp team =>
    simp only [Build.trialCount] at htrial
    have hk : 0 < (Int.tdiv iterations numThreads).toNat := Nat.pos_of_mul_pos_left htrial
    have ht : team ≠ [] := by
      intro hc; subst hc; simp at htrial
    obtain ⟨s1, k1, k2⟩ := parallelRegion_spec rs g hsz hin hsym hconn hV iterations numThreads hk
      team { tree := [], leafCount := -1 } (Or.inl rfl)
    obtain ⟨root, h1, h2, h3⟩ := k2 (Or.inl ht)
    refine ⟨s1.tree, root, ?_, h1, s1.leafCount, h2, h3⟩
    simp only [SpanningTree.findBestTreeParallel, k1]

theorem findMaxLeafSpanningTree_eq {σ : Type} (rs : RandomSource σ) (t : SpanningTree)
    (build : Build σ) (hardwareThreads iterations numThreads : Int) :
    t.findMaxLeafSpanningTree rs build hardwareThreads iterations numThreads =
      t.findBestTreeParallel rs build iterations (resolvedThreads hardwareThreads numThreads) := by
  unfold SpanningTree.findMaxLeafSpanningTree resolvedThreads
  split <;> rfl

theorem not_spanningTree_nil (g : Graph) (hV : 1 ≤ g.V) (root : Int) :
    ¬ IsSpanningTreeOf g root [] := by
  intro h
  have := h.length_eq
  simp at this
  omega

/-! ## Searches on graphs that are trees -/

theorem sum_range_indicator (p : Int) (n : Nat) :
    ((List.range n).map (fun (i : Nat) => if p = (i : Int) then 1 else 0)).sum =
      if 0 ≤ p ∧ p < (n : Int) then 1 else 0 := by
  induction n with
  | zero =>
    have : ¬ (0 ≤ p ∧ p < ((0 : Nat) : Int)) := by omega
    rw [if_neg this]; rfl
  | succ n ih =>
    rw [List.range_succ, List.map_append, List.sum_append, ih]
    simp only [List.map_cons, List.map_nil, List.sum_cons, List.sum_nil, Nat.add_zero]
    by_cases h1 : 0 ≤ p ∧ p < (n : Int)
    · have h2 : ¬ p = (n : Int) := by omega
      have h3 : 0 ≤ p ∧ p < ((n + 1 : Nat) : Int) := by omega
      rw [if_pos h1, if_neg h2, if_pos h3]
    · by_cases h2 : p = (n : Int)
      · have h3 : 0 ≤ p ∧ p < ((n + 1 : Nat) : Int) := by omega
        rw [if_neg h1, if_pos h2, if_pos h3]
      · have h3 : ¬ (0 ≤ p ∧ p < ((n + 1 : Nat) : Int)) := by omega
        rw [if_neg h1, if_neg h2, if_neg h3]

theorem sum_range_count (l : List Int) (n : Nat) :
    ((List.range n).map (fun (i : Nat) => l.count (i : Int))).sum =
      l.countP (fun p => decide (0 ≤ p ∧ p < (n : Int))) := by
  induction l with
  | nil => simp
  | cons p t ih =>
    have e : (fun i : Nat => (p :: t).count (i : Int)) =
        (fun i : Nat => t.count (i : Int) + (if p = (i : Int) then 1 else 0)) := by
      funext i
      rw [List.count_cons]
      simp only [beq_iff_eq]
    rw [e, List.sum_map_add, ih, sum_range_indicator, List.countP_cons]
    by_cases h : 0 ≤ p ∧ p < (n : Int)
    · rw [if_pos h, if_pos (decide_eq_true h)]
    · rw [if_neg h, if_neg (by simpa using h)]

theorem sum_map_sentinel (l : List Int) :
    (l.map (fun p => if p = -1 then 0 else 1)).sum + l.count (-1) = l.length := by
  induction l with
  | nil => simp
  | cons p t ih =>
    simp only [List.map_cons, List.sum_cons, List.count_cons, List.length_cons]
    by_cases hp : p = -1
    · subst hp
      simp only [if_true, beq_self_eq_true]; omega
    · have hb : (p == -1) = false := by simpa using hp
      simp only [hp, if_false, hb, Bool.false_eq_true]; omega

theorem sum_range_sentinel (l : List Int) :
    ((List.range l.length).map (fun (i : Nat) => if l[i]? = some (-1) then 0 else 1)).sum +
      l.count (-1) = l.length := by
  have e : (List.range l.length).map (fun (i : Nat) => if l[i]? = some (-1) then 0 else 1) =
      l.map (fun p => if p = -1 then 0 else 1) := by
    apply List.ext_getElem
    · simp
    · intro i h1 h2
      simp only [List.length_map, List.length_range] at h1
      simp [List.getElem?_eq_getElem h1]
  rw [e]
  exact sum_map_sentinel l

theorem countP_range_add_count (l : List Int) (n : Nat)
    (h : ∀ p ∈ l, p = -1 ∨ (0 ≤ p ∧ p < (n : Int))) :
    l.countP (fun p => decide (0 ≤ p ∧ p < (n : Int))) + l.count (-1) = l.length := by
  induction l with
  | nil => simp
  | cons p t ih =>
    have := ih (fun q hq => h q (List.mem_cons_of_mem _ hq))
    simp only [List.countP_cons, List.count_cons, List.length_cons]
    rcases h p (List.mem_cons_self _ _) with hp | hp
    · subst hp
      have h0 : ¬ (0 ≤ (-1 : Int) ∧ (-1 : Int) < (n : Int)) := by omega
      simp only [h0, decide_False, Bool.false_eq_true, if_false, beq_self_eq_true, if_true]
      omega
    · have hb : (p == -1) = false := by
        have : ¬ p = -1 := by omega
        simpa using this
      simp only [hp, and_self, decide_True, if_true, hb, Bool.false_eq_true, if_false]
      omega

theorem treeDegree_sum {g : Graph} (hsz : g.SizeOk) (hin : g.EntriesInRange)
    {root : Int} {parent : List Int} (h : IsSpanningTreeOf g root parent) :
    ((List.range parent.length).map (treeDegree parent)).sum + 2 = 2 * parent.length := by
  have e : (treeDegree parent) = (fun (i : Nat) => (if parent[i]? = some (-1) then 0 else 1) +
      parent.count (i : Int)) := by
    funext i; rfl
  rw [e, List.sum_map_add, sum_range_count]
  have h1 := sum_range_sentinel parent
  have h2 := h.sentinel_count
  have h3 := countP_range_add_count parent parent.length (spanningTree_entries hsz hin h)
  omega

theorem card_filter_index_eq_count (a : Int) (l : List Int) :
    ((Finset.range l.length).filter (fun j => l[j]? = some a)).card = l.count a := by
  induction l using List.reverseRecOn with
  | nil => simp
  | append_singleton t p ih =>
    have hlen : (t ++ [p]).length = t.length + 1 := by simp
    rw [hlen, Finset.range_succ, Finset.filter_insert]
    have hcongr : (Finset.range t.length).filter (fun j => (t ++ [p])[j]? = some a) =
        (Finset.range t.length).filter (fun j => t[j]? = some a) := by
      apply Finset.filter_congr
      intro j hj
      rw [List.getElem?_append_left (Finset.mem_range.1 hj)]
    have hlast : (t ++ [p])[t.length]? = some p := by simp
    rw [hcongr, hlast, List.count_append]
    by_cases hp : p = a
    · subst hp
      simp only [if_true]
      rw [Finset.card_insert_of_not_mem (by simp), ih]
      simp
    · have : ¬ (some p = some a) := by simpa using hp
      rw [if_neg this, ih]
      simp [List.count_cons, hp]

theorem card_childSet (parent : List Int) (i : Nat) :
    (childSet parent i).card = parent.count (i : Int) :=
  card_filter_index_eq_count (i : Int) parent

theorem mem_childSet {parent : List Int} {i j : Nat} :
    j ∈ childSet parent i ↔ parent[j]? = some (i : Int) := by
  unfold childSet
  rw [Finset.mem_filter, Finset.mem_range]
  constructor
  · exact fun h => h.2
  · intro h
    exact ⟨(List.getElem?_eq_some.1 h).1, h⟩

theorem parent_not_child {g : Graph} {root : Int} {parent : List Int}
    (h : IsSpanningTreeOf g root parent) {i : Nat} {p : Int}
    (hp : parent[i]? = some p) (hs : p ≠ -1) :
    p ∉ (childSet parent i).image (fun (j : Nat) => (j : Int)) := by
  intro hm
  obtain ⟨j, hj, hjp⟩ := Finset.mem_image.1 hm
  have hj' := mem_childSet.1 hj
  have h1 : getAt parent (i : Int) = some p := by rw [getAt_natCast]; exact hp
  have h2 : getAt parent p = some (i : Int) := by
    rw [← hjp, getAt_natCast]; exact hj'
  have hi : (i : Int) ≠ -1 := by omega
  have hc : ancestor parent 2 (i : Int) = some (i : Int) := by
    rw [ancestor_succ_of_link h1 hs, ancestor_succ_of_link h2 hi]
    rfl
  exact h.acyclic (i : Int) 2 (by omega) hc

theorem card_treeNeighbors {g : Graph} {root : Int} {parent : List Int}
    (h : IsSpanningTreeOf g root parent) {i : Nat} (hi : i < parent.length) :
    (treeNeighbors parent i).card = treeDegree parent i := by
  have hinj : Function.Injective (fun (j : Nat) => (j : Int)) := fun a b hab => by
    simpa using hab
  obtain ⟨p, hp⟩ : ∃ p, parent[i]? = some p := ⟨parent[i], List.getElem?_eq_getElem hi⟩
  unfold treeNeighbors treeDegree
  rw [hp]
  by_cases hs : p = -1
  · subst hs
    simp only [if_true, Finset.empty_union]
    rw [Finset.card_image_of_injective _ hinj, card_childSet]
    simp
  · have hne : ¬ (some p = some (-1 : Int)) := by simpa using hs
    simp only [hs, if_false, hne]
    rw [Finset.card_union_of_disjoint
      (Finset.disjoint_singleton_left.2 (parent_not_child h hp hs)),
      Finset.card_image_of_injective _ hinj, card_childSet]
    simp

theorem treeNeighbors_subset {g : Graph} {root : Int} {parent : List Int}
    (h : IsSpanningTreeOf g root parent) (i : Nat) :
    treeNeighbors parent i ⊆ (g.neighbors (i : Int)).toFinset := by
  intro x hx
  rw [List.mem_toFinset]
  unfold treeNeighbors at hx
  rcases Finset.mem_union.1 hx with h1 | h1
  · cases hp : parent[i]? with
    | none => rw [hp] at h1; simp at h1
    | some p =>
      rw [hp] at h1
      by_cases hs : p = -1
      · simp [hs] at h1
      · simp only [hs, if_false, Finset.mem_singleton] at h1
        subst h1
        exact (h.edges (i : Int) x (by rw [getAt_natCast]; exact hp) hs).1
  · obtain ⟨j, hj, hjx⟩ := Finset.mem_image.1 h1
    have hj' := mem_childSet.1 hj
    subst hjx
    exact (h.edges (j : Int) (i : Int) (by rw [getAt_natCast]; exact hj') (by omega)).2

theorem neighbors_nodup {g : Graph} (hsimple : ∀ l ∈ g.adj, l.Nodup) (v : Int) :
    (g.neighbors v).Nodup := by
  unfold Graph.neighbors
  cases h : getAt g.adj v with
  | none => simp
  | some l =>
    exact hsimple l (List.getElem?_mem ((getAt_eq_some_iff _ _ _).1 h).2)

theorem treeDegree_le_degree {g : Graph} {root : Int} {parent : List Int}
    (h : IsSpanningTreeOf g root parent) {i : Nat} (hi : i < parent.length) :
    treeDegree parent i ≤ g.degree i := by
  rw [← card_treeNeighbors h hi]
  exact le_trans (Finset.card_le_card (treeNeighbors_subset h i)) (List.toFinset_card_le _)

theorem sum_range_le (f g : Nat → Nat) (n : Nat) (h : ∀ i, i < n → f i ≤ g i) :
    ((List.range n).map f).sum ≤ ((List.range n).map g).sum := by
  induction n with
  | zero => simp
  | succ n ih =>
    rw [List.range_succ, List.map_append, List.map_append, List.sum_append, List.sum_append]
    have := ih (fun i hi => h i (by omega))
    have := h n (by omega)
    simp only [List.map_cons, List.map_nil, List.sum_cons, List.sum_nil]
    omega

theorem eq_of_sum_range_eq (f g : Nat → Nat) (n : Nat) (h : ∀ i, i < n → f i ≤ g i)
    (hsum : ((List.range n).map f).sum = ((List.range n).map g).sum) :
    ∀ i, i < n → f i = g i := by
  induction n with
  | zero => intro i hi; omega
  | succ n ih =>
    rw [List.range_succ, List.map_append, List.map_append, List.sum_append, List.sum_append]
      at hsum
    simp only [List.map_cons, List.map_nil, List.sum_cons, List.sum_nil] at hsum
    have h1 := sum_range_le f g n (fun i hi => h i (by omega))
    have h2 := h n (by omega)
    have h3 := ih (fun i hi => h i (by omega)) (by omega)
    intro i hi
    by_cases hin : i < n
    · exact h3 i hin
    · have : i = n := by omega
      subst this; omega

theorem treeDegree_eq_degree {g : Graph} (htree : g.IsTree) {root : Int} {parent : List Int}
    (h : IsSpanningTreeOf g root parent) :
    ∀ i, i < parent.length → treeDegree parent i = g.degree i := by
  have hlen : parent.length = g.adj.length := by
    have h1 := h.length_eq
    have h2 : (g.adj.length : Int) = g.V := htree.sizeOk
    omega
  have h1 := treeDegree_sum htree.sizeOk htree.entriesInRange h
  have h2 := htree.edgeCount
  unfold Graph.degreeSum at h2
  rw [← hlen] at h2
  have key : ((List.range parent.length).map (treeDegree parent)).sum =
      ((List.range parent.length).map g.degree).sum := by omega
  exact eq_of_sum_range_eq _ _ _ (fun i hi => treeDegree_le_degree h hi) key

theorem treeNeighbors_eq {g : Graph} (htree : g.IsTree) {root : Int} {parent : List Int}
    (h : IsSpanningTreeOf g root parent) {i : Nat} (hi : i < parent.length) :
    treeNeighbors parent i = (g.neighbors (i : Int)).toFinset := by
  apply Finset.eq_of_subset_of_card_le (treeNeighbors_subset h i)
  rw [card_treeNeighbors h hi, treeDegree_eq_degree htree h i hi,
    List.toFinset_card_of_nodup (neighbors_nodup htree.simple _)]
  exact le_refl _

theorem tree_edge_covered {g : Graph} (htree : g.IsTree) {root : Int} {parent : List Int}
    (h : IsSpanningTreeOf g root parent) {a b : Int} (hab : b ∈ g.neighbors a) :
    getAt parent a = some b ∨ getAt parent b = some a := by
  have har := neighbors_nonempty_vertex hab
  have hlen : (parent.length : Int) = (g.adj.length : Int) := by
    have h1 := h.length_eq
    have h2 : (g.adj.length : Int) = g.V := htree.sizeOk
    omega
  obtain ⟨i, rfl⟩ : ∃ i : Nat, a = (i : Int) := ⟨a.toNat, by omega⟩
  have hi : i < parent.length := by omega
  have hm : b ∈ treeNeighbors parent i := by
    rw [treeNeighbors_eq htree h hi, List.mem_toFinset]; exact hab
  unfold treeNeighbors at hm
  rcases Finset.mem_union.1 hm with h1 | h1
  · left
    cases hp : parent[i]? with
    | none => rw [hp] at h1; simp at h1
    | some p =>
      rw [hp] at h1
      by_cases hs : p = -1
      · simp [hs] at h1
      · simp only [hs, if_false, Finset.mem_singleton] at h1
        subst h1
        rw [getAt_natCast]; exact hp
  · right
    obtain ⟨j, hj, hjx⟩ := Finset.mem_image.1 h1
    subst hjx
    rw [getAt_natCast]; exact mem_childSet.1 hj

theorem leafCount_eq_degreeOneCount {g : Graph} (htree : g.IsTree) {root : Int}
    {parent : List Int} (h : IsSpanningTreeOf g root parent) :
    leafCount parent = g.degreeOneCount := by
  have hlen : parent.length = g.adj.length := by
    have h1 := h.length_eq
    have h2 : (g.adj.length : Int) = g.V := htree.sizeOk
    omega
  unfold leafCount Graph.degreeOneCount
  rw [hlen]
  apply List.countP_congr
  intro i hi
  rw [treeDegree_eq_degree htree h i (by rw [hlen]; exact List.mem_range.1 hi)]

theorem tree_search_result {σ : Type} (rs : RandomSource σ) (g : Graph) (htree : g.IsTree)
    (hV : 2 ≤ g.V) (build : Build σ) (hardwareThreads iterations numThreads : Int)
    (htrial : 0 < build.trialCount iterations (resolvedThreads hardwareThreads numThreads)) :
    ∃ tree root,
      SpanningTree.findMaxLeafSpanningTree rs { graph := g } build hardwareThreads iterations
        numThreads = .ok tree ∧
      IsSpanningTreeOf g root tree ∧
      (∀ a b, b ∈ g.neighbors a → getAt tree a = some b ∨ getAt tree b = some a) ∧
      SpanningTree.countLeaves tree = .ok (g.degreeOneCount : Int) := by
  obtain ⟨tree, root, h1, h2, _⟩ := findBestTreeParallel_valid rs g htree.sizeOk
    htree.entriesInRange htree.symmetric htree.connected (by omega) build iterations
    (resolvedThreads hardwareThreads numThreads) htrial
  refine ⟨tree, root, ?_, h2, fun a b hab => tree_edge_covered htree h2 hab, ?_⟩
  · rw [findMaxLeafSpanningTree_eq]; exact h1
  · have hlen : 2 ≤ tree.length := by
      have := h2.length_eq
      omega
    rw [countLeaves_of_valid tree hlen
      (spanningTree_entries htree.sizeOk htree.entriesInRange h2),
      leafCount_eq_degreeOneCount htree h2]

theorem isTree_path4 : Graph.IsTree { V := 4, adj := [[1], [0, 2], [1, 3], [2]] } :=
  ⟨by decide, by decide, by decide,
    connected_of_isConnected (by decide) (by decide) (by decide), by decide, by decide,
    by decide⟩

theorem isTree_star5 : Graph.IsTree { V := 5, adj := [[1, 2, 3, 4], [0], [0], [0], [0]] } :=
  ⟨by decide, by decide, by decide,
    connected_of_isConnected (by decide) (by decide) (by decide), by decide, by decide,
    by decide⟩

theorem isTree_single : Graph.IsTree { V := 1, adj := [[]] } :=
  ⟨by decide, by decide, by decide,
    connected_of_isConnected (by decide) (by decide) (by decide), by decide, by decide,
    by decide⟩

/-- Claim C10 fails as stated on the one-vertex tree: the search returns `[-1]`,
whose leaf count is 1 by the special case of `countLeaves`, while the graph has
no vertex of graph-degree 1. -/
theorem tree_leaf_count_single_vertex_counterexample :
    ¬ (∀ (g : Graph) (build : Build Nat) (hardwareThreads iterations numThreads : Int),
        g.IsTree →
        0 < build.trialCount iterations (resolvedThreads hardwareThreads numThreads) →
        ∃ tree, SpanningTree.findMaxLeafSpanningTree counterSource { graph := g } build
            hardwareThreads iterations numThreads = .ok tree ∧
          SpanningTree.countLeaves tree = .ok (g.degreeOneCount : Int)) := by
  intro h
  obtain ⟨tree, h1, h2⟩ := h { V := 1, adj := [[]] } (.sequential 0) 1 1 1 isTree_single
    (by decide)
  have e : SpanningTree.findMaxLeafSpanningTree counterSource
      { graph := { V := 1, adj := [[]] } } (.sequential 0) 1 1 1 = .ok [-1] := by decide
  rw [e] at h1
  injection h1 with h1
  subst h1
  revert h2
  decide

/-- Claim C10, amended: on every connected graph with at least two vertices that
is itself a tree, every run of the search with at least one trial, for every
random source, returns a spanning tree that uses every edge of the graph, and
`countLeaves` of the result equals the number of vertices of graph-degree 1; the
path graph on 4 vertices always gives leaf count 2 and the star graph with
centre 0 and leaves 1..4 always gives leaf count 4. -/
theorem tree_search_returns_graph {σ : Type} (rs : RandomSource σ) (build : Build σ)
    (hardwareThreads iterations numThreads : Int)
    (htrial : 0 < build.trialCount iterations (resolvedThreads hardwareThreads numThreads))
    (g : Graph) (htree : g.IsTree) (hV : 2 ≤ g.V) :
    (∃ tree root,
      SpanningTree.findMaxLeafSpanningTree rs { graph := g } build hardwareThreads iterations
        numThreads = .ok tree ∧
      IsSpanningTreeOf g root tree ∧
      (∀ a b, b ∈ g.neighbors a → getAt tree a = some b ∨ getAt tree b = some a) ∧
      (∀ i p, getAt tree i = some p → p ≠ -1 → p ∈ g.neighbors i) ∧
      SpanningTree.countLeaves tree = .ok (g.degreeOneCount : Int)) ∧
    (∃ tree,
      SpanningTree.findMaxLeafSpanningTree rs
        { graph := { V := 4, adj := [[1], [0, 2], [1, 3], [2]] } } build hardwareThreads
        iterations numThreads = .ok tree ∧
      SpanningTree.countLeaves tree = .ok 2) ∧
    (∃ tree,
      SpanningTree.findMaxLeafSpanningTree rs
        { graph := { V := 5, adj := [[1, 2, 3, 4], [0], [0], [0], [0]] } } build hardwareThreads
        iterations numThreads = .ok tree ∧
      SpanningTree.countLeaves tree = .ok 4) := by
  refine ⟨?_, ?_, ?_⟩
  · obtain ⟨tree, root, h1, h2, h3, h4⟩ := tree_search_result rs g htree hV build
      hardwareThreads iterations numThreads htrial
    exact ⟨tree, root, h1, h2, h3, fun i p hp hs => (h2.edges i p hp hs).1, h4⟩
  · obtain ⟨tree, root, h1, _, _, h4⟩ := tree_search_result rs _ isTree_path4 (by decide) build
      hardwareThreads iterations numThreads htrial
    exact ⟨tree, h1, h4⟩
  · obtain ⟨tree, root, h1, _, _, h4⟩ := tree_search_result rs _ isTree_star5 (by decide) build
      hardwareThreads iterations numThreads htrial
    exact ⟨tree, h1, h4⟩

theorem tree_search_returns_graph_witness :
    ∃ tree,
      SpanningTree.findMaxLeafSpanningTree counterSource
        { graph := { V := 3, adj := [[1], [0, 2], [1]] } } (.openmp [3, 8]) 4 5 2 = .ok tree ∧
      SpanningTree.countLeaves tree =
        .ok (Graph.degreeOneCount { V := 3, adj := [[1], [0, 2], [1]] } : Int) :=
  have h := tree_search_returns_graph counterSource (.openmp [3, 8]) 4 5 2 (by decide)
    { V := 3, adj := [[1], [0, 2], [1]] }
    ⟨by decide, by decide, by decide,
      connected_of_isConnected (by decide) (by decide) (by decide), by decide, by decide,
      by decide⟩ (by decide)
  match h.1 with
  | ⟨tree, _, h1, _, _, _, h5⟩ => ⟨tree, h1, h5⟩

/-! ## Searches that run no trial -/

theorem parallelRegion_no_trial {σ : Type} (rs : RandomSource σ) (t : SpanningTree)
    (iterations numThreads : Int) (hnt : numThreads ≠ 0)
    (hk : (Int.tdiv iterations numThreads).toNat = 0) :
    ∀ (team : List σ) (shared : Best), -1 ≤ shared.leafCount →
      parallelRegion rs t iterations numThreads team shared = .ok shared := by
  intro team
  induction team with
  | nil => intro shared _; rfl
  | cons r team ih =>
    intro shared hs
    have hb : workerBody rs t iterations numThreads r shared = .ok shared := by
      unfold workerBody
      simp only [hnt, if_false, hk, workerLoop]
      have : ¬ ((-1 : Int) > shared.leafCount) := by omega
      simp only [this, if_false]
    simp only [parallelRegion, hb]
    exact ih shared hs

/-- Claim C1 fails on the OpenMP path: with one iteration and two requested
threads each thread of the team runs `1 / 2 = 0` trials, so on the connected
two-vertex graph the search returns the empty vector, which is not a spanning
tree of the graph, whatever the team and the random source are. -/
theorem findMaxLeafSpanningTree_openmp_returns_empty {σ : Type} (rs : RandomSource σ)
    (team : List σ) (hardwareThreads : Int) :
    Graph.Connected { V := 2, adj := [[1], [0]] } ∧
    SpanningTree.create { V := 2, adj := [[1], [0]] } =
      .ok { graph := { V := 2, adj := [[1], [0]] } } ∧
    SpanningTree.findMaxLeafSpanningTree rs { graph := { V := 2, adj := [[1], [0]] } }
      (.openmp team) hardwareThreads 1 2 = .ok [] ∧
    ¬ ∃ root, IsSpanningTreeOf { V := 2, adj := [[1], [0]] } root [] := by
  refine ⟨connected_of_isConnected (by decide) (by decide) (by decide), by decide, ?_, ?_⟩
  · have h := parallelRegion_no_trial rs { graph := { V := 2, adj := [[1], [0]] } } 1 2
      (by decide) (by decide) team { tree := [], leafCount := -1 } (by decide)
    rw [findMaxLeafSpanningTree_eq]
    have e : resolvedThreads hardwareThreads 2 = 2 := by unfold resolvedThreads; simp
    rw [e]
    simp only [SpanningTree.findBestTreeParallel, h]
  · rintro ⟨root, h⟩
    exact not_spanningTree_nil _ (by decide) root h

/-- Claim C3 fails when no trial runs: with an iteration count of 0 the search
returns the empty vector, of length 0 and not `V = 2`, on the connected
two-vertex graph, on the sequential path and on the OpenMP path alike, whatever
the team and the random source are. -/
theorem findMaxLeafSpanningTree_no_trial_length {σ : Type} (rs : RandomSource σ)
    (rng : σ) (team : List σ) (hardwareThreads : Int) :
    SpanningTree.findMaxLeafSpanningTree rs { graph := { V := 2, adj := [[1], [0]] } }
      (.sequential rng) hardwareThreads 0 1 = .ok [] ∧
    SpanningTree.findMaxLeafSpanningTree rs { graph := { V := 2, adj := [[1], [0]] } }
      (.openmp team) hardwareThreads 0 1 = .ok [] ∧
    (([] : List Int).length : Int) ≠ Graph.V { V := 2, adj := [[1], [0]] } := by
  refine ⟨rfl, ?_, by decide⟩
  have h := parallelRegion_no_trial rs { graph := { V := 2, adj := [[1], [0]] } } 0 1
    (by decide) (by decide) team { tree := [], leafCount := -1 } (by decide)
  rw [findMaxLeafSpanningTree_eq]
  have e : resolvedThreads hardwareThreads 1 = 1 := by unfold resolvedThreads; simp
  rw [e]
  simp only [SpanningTree.findBestTreeParallel, h]

/-- Claim C12: `countLeaves` of the empty array is 0, and `countLeaves` of every
single-element array, in particular of `[-1]`, is 1. -/
theorem countLeaves_empty_and_single :
    SpanningTree.countLeaves [] = .ok 0 ∧
    (∀ x : Int, SpanningTree.countLeaves [x] = .ok 1) ∧
    SpanningTree.countLeaves [-1] = .ok 1 := by
  refine ⟨rfl, ?_, rfl⟩
  intro x
  unfold SpanningTree.countLeaves
  simp

theorem modifyAt_eq_self {α : Type} (vec : List α) (i : Int) (f : α → α)
    (h : ∀ x, getAt vec i = some x → f x = x) : modifyAt vec i f = vec := by
  apply List.ext_getElem?
  intro k
  rw [← getAt_natCast, ← getAt_natCast, getAt_modifyAt]
  split
  · next hk =>
    cases hx : getAt vec (k : Int) with
    | none => rfl
    | some x =>
      rw [hk] at hx
      simp [h x hx]
  · rfl

theorem filter_bne_eq_self (l : List Int) (v : Int) (h : v ∉ l) :
    l.filter (fun x => x != v) = l := by
  rw [List.filter_eq_self]
  intro a ha
  simp only [bne_iff_ne, ne_eq]
  intro hc; subst hc; exact h ha

theorem removeEdge_absent (g : Graph) (u v : Int)
    (h1 : v ∉ g.neighbors u) (h2 : u ∉ g.neighbors v) : (g.removeEdge u v).2 = g := by
  unfold Graph.removeEdge
  split
  · rfl
  · have e1 : modifyAt g.adj u (fun l => l.filter (fun x => x != v)) = g.adj := by
      apply modifyAt_eq_self
      intro x hx
      apply filter_bne_eq_self
      rw [← neighbors_of_getAt hx]; exact h1
    have e2 : modifyAt g.adj v (fun l => l.filter (fun x => x != u)) = g.adj := by
      apply modifyAt_eq_self
      intro x hx
      apply filter_bne_eq_self
      rw [← neighbors_of_getAt hx]; exact h2
    simp only [e1, e2]

/-- Claim C15: `removeEdge(u, v)` fails, with IndexOutOfRange, if and only if `u`
or `v` is outside `[0, V)`, and then leaves the graph unchanged; with in-range
indices it never fails, and when the edge is absent (`v` not in the sequence of
`u` and `u` not in that of `v`) the whole adjacency structure is unchanged. -/
theorem removeEdge_fails_iff_out_of_range (g : Graph) (hsz : g.SizeOk) (u v : Int) :
    ((g.removeEdge u v).1 = .error .outOfRange ↔ ¬ (g.IsVertex u ∧ g.IsVertex v)) ∧
    ((g.removeEdge u v).1 = .ok () ↔ (g.IsVertex u ∧ g.IsVertex v)) ∧
    (¬ (g.IsVertex u ∧ g.IsVertex v) → (g.removeEdge u v).2 = g) ∧
    (v ∉ g.neighbors u → u ∉ g.neighbors v → (g.removeEdge u v).2 = g) := by
  have key := indexOutOfRange_eq_false g hsz u v
  refine ⟨?_, ?_, ?_, removeEdge_absent g u v⟩
  · cases hb : g.indexOutOfRange u v with
    | true =>
      have hn : ¬ (g.IsVertex u ∧ g.IsVertex v) := by
        intro hc; rw [key.2 hc] at hb; cases hb
      simp [Graph.removeEdge, hb, hn]
    | false => simp [Graph.removeEdge, hb, key.1 hb]
  · cases hb : g.indexOutOfRange u v with
    | true =>
      have hn : ¬ (g.IsVertex u ∧ g.IsVertex v) := by
        intro hc; rw [key.2 hc] at hb; cases hb
      simp [Graph.removeEdge, hb, hn]
    | false => simp [Graph.removeEdge, hb, key.1 hb]
  · intro hn
    cases hb : g.indexOutOfRange u v with
    | true => simp [Graph.removeEdge, hb]
    | false => exact absurd (key.1 hb) hn

theorem removeEdge_fails_iff_out_of_range_witness :
    Graph.SizeOk { V := 3, adj := [[1], [0], []] } ∧
    (Graph.removeEdge { V := 3, adj := [[1], [0], []] } 0 3).1 = .error .outOfRange ∧
    (Graph.removeEdge { V := 3, adj := [[1], [0], []] } 0 3).2 =
      { V := 3, adj := [[1], [0], []] } ∧
    (Graph.removeEdge { V := 3, adj := [[1], [0], []] } 0 2).1 = .ok () ∧
    (Graph.removeEdge { V := 3, adj := [[1], [0], []] } 0 2).2 =
      { V := 3, adj := [[1], [0], []] } :=
  have hsz : Graph.SizeOk { V := 3, adj := [[1], [0], []] } := by decide
  have h1 := removeEdge_fails_iff_out_of_range { V := 3, adj := [[1], [0], []] } hsz 0 3
  have h2 := removeEdge_fails_iff_out_of_range { V := 3, adj := [[1], [0], []] } hsz 0 2
  ⟨hsz, h1.1.2 (by decide), h1.2.2.1 (by decide), h2.2.1.2 (by decide),
    h2.2.2.2 (by decide) (by decide)⟩

theorem neighbors_create {n : Int} {g : Graph} (h : Graph.create n = .ok g) (w : Int) :
    g.neighbors w = [] := by
  unfold Graph.create at h
  split at h
  · cases h
  · injection h with h
    subst h
    unfold Graph.neighbors
    cases hx : getAt (List.replicate n.toNat ([] : List Int)) w with
    | none => rfl
    | some x => rw [getAt_replicate _ _ _ _ hx]; rfl

theorem count_filter_bne (l : List Int) (v b : Int) :
    List.count b (l.filter (fun x => x != v)) = if b = v then 0 else List.count b l := by
  by_cases h : b = v
  · subst h
    rw [if_pos rfl, List.count_eq_zero]
    simp
  · rw [if_neg h]
    exact List.count_filter (by simpa using h)

theorem count_if_singleton (c : Prop) [Decidable c] (x b : Int) :
    List.count b (if c then [x] else []) = if c ∧ b = x then 1 else 0 := by
  by_cases hc : c
  · by_cases hb : b = x
    · subst hb; simp [hc]
    · have : ¬ x = b := fun h => hb h.symm
      simp [hc, hb, List.count_cons, this]
  · simp [hc]

theorem addEdge_count (g : Graph) (u v a b : Int) (h : g.indexOutOfRange u v = false) :
    List.count b ((g.addEdge u v).2.neighbors a) =
      List.count b (g.neighbors a) + (if a = u ∧ b = v then 1 else 0) +
        (if a = v ∧ b = u then 1 else 0) := by
  rw [addEdge_neighbors g u v a h, List.count_append, List.count_append,
    count_if_singleton, count_if_singleton]

theorem removeEdge_count (g : Graph) (u v a b : Int) (h : g.indexOutOfRange u v = false) :
    List.count b ((g.removeEdge u v).2.neighbors a) =
      if (a = u ∧ b = v) ∨ (a = v ∧ b = u) then 0 else List.count b (g.neighbors a) := by
  rw [removeEdge_neighbors g u v a h]
  by_cases h2 : a = v
  · by_cases h1 : a = u
    · rw [if_pos h2, if_pos h1, count_filter_bne, count_filter_bne]
      split_ifs <;> first | rfl | omega
    · rw [if_pos h2, if_neg h1, count_filter_bne]
      split_ifs <;> first | rfl | omega
  · by_cases h1 : a = u
    · rw [if_neg h2, if_pos h1, count_filter_bne]
      split_ifs <;> first | rfl | omega
    · rw [if_neg h2, if_neg h1]
      split_ifs <;> first | rfl | omega

theorem built_count_symmetric {g : Graph} (hb : g.Built) :
    ∀ a b, List.count b (g.neighbors a) = List.count a (g.neighbors b) := by
  induction hb with
  | create h =>
    intro a b
    rw [neighbors_create h a, neighbors_create h b]; rfl
  | @addEdge g u v _ ih =>
    intro a b
    cases hr : g.indexOutOfRange u v with
    | true =>
      have : (g.addEdge u v).2 = g := by simp [Graph.addEdge, hr]
      rw [this]; exact ih a b
    | false =>
      rw [addEdge_count g u v a b hr, addEdge_count g u v b a hr, ih a b]
      split_ifs <;> omega
  | @removeEdge g u v _ ih =>
    intro a b
    cases hr : g.indexOutOfRange u v with
    | true =>
      have : (g.removeEdge u v).2 = g := by simp [Graph.removeEdge, hr]
      rw [this]; exact ih a b
    | false =>
      rw [removeEdge_count g u v a b hr, removeEdge_count g u v b a hr, ih a b]
      split_ifs <;> first | rfl | omega

/-- Claim C13: adjacency symmetry is an invariant of the graph: in every graph
reachable from `create(V)` by `addEdge` and `removeEdge` calls, failed calls
included, `v` occurs in the neighbour sequence of `u` if and only if `u` occurs
in that of `v`, and with the same number of occurrences. -/
theorem built_symmetric (g : Graph) (hb : g.Built) :
    (∀ u v, v ∈ g.neighbors u ↔ u ∈ g.neighbors v) ∧
    (∀ u v, List.count v (g.neighbors u) = List.count u (g.neighbors v)) ∧
    g.Symmetric := by
  have hc := built_count_symmetric hb
  have hm : ∀ u v, v ∈ g.neighbors u → u ∈ g.neighbors v := by
    intro u v h
    have h1 := List.count_pos_iff.2 h
    rw [hc u v] at h1
    exact List.count_pos_iff.1 h1
  exact ⟨fun u v => ⟨hm u v, hm v u⟩, hc, fun u _ v hv => hm _ _ hv⟩

theorem built_symmetric_witness :
    List.count 1 (((((Graph.mk 3 [[], [], []]).addEdge 0 1).2.addEdge 0 1).2.removeEdge
        1 2).2.neighbors 0) =
      List.count 0 (((((Graph.mk 3 [[], [], []]).addEdge 0 1).2.addEdge 0 1).2.removeEdge
        1 2).2.neighbors 1) :=
  (built_symmetric _ (Graph.Built.removeEdge 1 2 (Graph.Built.addEdge 0 1
    (Graph.Built.addEdge 0 1 (Graph.Built.create (n := 3) (by decide)))))).2.1 0 1

theorem forall_mem_modifyAt {α : Type} (P : α → Prop) (vec : List α) (i : Int) (f : α → α)
    (hvec : ∀ l ∈ vec, P l) (hf : ∀ l, P l → P (f l)) :
    ∀ l ∈ modifyAt vec i f, P l := by
  intro l hl
  obtain ⟨k, hk⟩ := List.mem_iff_getElem?.1 hl
  rw [← getAt_natCast, getAt_modifyAt] at hk
  split at hk
  · cases hx : getAt vec (k : Int) with
    | none => rw [hx] at hk; cases hk
    | some x =>
      rw [hx] at hk
      simp only [Option.map_some', Option.some.injEq] at hk
      subst hk
      rw [getAt_natCast] at hx
      exact hf x (hvec x (List.getElem?_mem hx))
  · rw [getAt_natCast] at hk
    exact hvec l (List.getElem?_mem hk)

theorem built_wellformed {g : Graph} (hb : g.Built) : g.SizeOk ∧ g.EntriesInRange := by
  induction hb with
  | @create n g h =>
    unfold Graph.create at h
    split at h
    · cases h
    · injection h with h
      subst h
      refine ⟨?_, ?_⟩
      · unfold Graph.SizeOk
        simp only [List.length_replicate]
        omega
      · intro l hl x hx
        rw [List.eq_of_mem_replicate hl] at hx
        cases hx
  | @addEdge g u v _ ih =>
    cases hr : g.indexOutOfRange u v with
    | true =>
      have : (g.addEdge u v).2 = g := by simp [Graph.addEdge, hr]
      rw [this]; exact ih
    | false =>
      have hrange : (0 ≤ u ∧ u < (g.adj.length : Int)) ∧ (0 ≤ v ∧ v < (g.adj.length : Int)) := by
        unfold Graph.indexOutOfRange at hr
        simp only [Bool.or_eq_false_iff, decide_eq_false_iff_not] at hr
        omega
      have hadj : (g.addEdge u v).2.adj =
          modifyAt (modifyAt g.adj u (fun l => l ++ [v])) v (fun l => l ++ [u]) := by
        simp [Graph.addEdge, hr]
      have hV : (g.addEdge u v).2.V = g.V := by simp [Graph.addEdge, hr]
      have hlen : (g.addEdge u v).2.adj.length = g.adj.length := by
        rw [hadj, length_modifyAt, length_modifyAt]
      refine ⟨?_, ?_⟩
      · unfold Graph.SizeOk
        rw [hlen, hV]; exact ih.1
      · unfold Graph.EntriesInRange
        rw [hlen, hadj]
        apply forall_mem_modifyAt (fun l => ∀ x ∈ l, 0 ≤ x ∧ x < (g.adj.length : Int))
        · apply forall_mem_modifyAt (fun l => ∀ x ∈ l, 0 ≤ x ∧ x < (g.adj.length : Int))
          · exact ih.2
          · intro l hl x hx
            rcases List.mem_append.1 hx with h | h
            · exact hl x h
            · simp only [List.mem_singleton] at h
              subst h; exact hrange.2
        · intro l hl x hx
          rcases List.mem_append.1 hx with h | h
          · exact hl x h
          · simp only [List.mem_singleton] at h
            subst h; exact hrange.1
  | @removeEdge g u v _ ih =>
    cases hr : g.indexOutOfRange u v with
    | true =>
      have : (g.removeEdge u v).2 = g := by simp [Graph.removeEdge, hr]
      rw [this]; exact ih
    | false =>
      have hadj : (g.removeEdge u v).2.adj =
          modifyAt (modifyAt g.adj u (fun l => l.filter (fun x => x != v))) v
            (fun l => l.filter (fun x => x != u)) := by
        simp [Graph.removeEdge, hr]
      have hV : (g.removeEdge u v).2.V = g.V := by simp [Graph.removeEdge, hr]
      have hlen : (g.removeEdge u v).2.adj.length = g.adj.length := by
        rw [hadj, length_modifyAt, length_modifyAt]
      refine ⟨?_, ?_⟩
      · unfold Graph.SizeOk
        rw [hlen, hV]; exact ih.1
      · unfold Graph.EntriesInRange
        rw [hlen, hadj]
        apply forall_mem_modifyAt (fun l => ∀ x ∈ l, 0 ≤ x ∧ x < (g.adj.length : Int))
        · apply forall_mem_modifyAt (fun l => ∀ x ∈ l, 0 ≤ x ∧ x < (g.adj.length : Int))
          · exact ih.2
          · intro l hl x hx
            exact hl x (List.mem_of_mem_filter hx)
        · intro l hl x hx
          exact hl x (List.mem_of_mem_filter hx)

theorem treeInv_init {g : Graph} (hsz : g.SizeOk) {start : Int} (hsv : g.IsVertex start) :
    TreeInv g start (generateInit g.V start) ∧
    Closed g (generateInit g.V start).visited (generateInit g.V start).q 0 [] ∧
    bfsMeasure (generateInit g.V start).visited (generateInit g.V start).q ≤ g.V.toNat ∧
    getAt (List.replicate g.V.toNat false) start = some false ∧
    (∀ v, Vis (generateInit g.V start).visited v → v = start) := by
  have hsz' : (g.adj.length : Int) = g.V := hsz
  unfold Graph.IsVertex at hsv
  have hn : g.V.toNat = g.adj.length := by omega
  have hsr : 0 ≤ start ∧ start < ((List.replicate g.V.toNat false).length : Int) := by
    simp only [List.length_replicate]; omega
  have hsf : getAt (List.replicate g.V.toNat false) start = some false :=
    getAt_replicate_of_lt _ _ _ (by omega)
  have hvis0 : ∀ v, Vis (setAt (List.replicate g.V.toNat false) start true) v → v = start := by
    intro v hv
    rcases (vis_setAt _ _ _ hsr).1 hv with h | h
    · exact h
    · exact absurd h (vis_replicate_false _ _)
  refine ⟨?_, ?_, ?_, hsf, hvis0⟩
  · refine ⟨?_, ?_, ?_, ?_, ?_, ?_, ?_, ?_, ?_⟩
    · simp [generateInit, length_setAt, hn]
    · simp [generateInit, hn]
    · exact (vis_setAt _ _ _ hsr).2 (Or.inl rfl)
    · exact getAt_replicate_of_lt _ _ _ (by omega)
    · intro v hv
      have := getAt_lt hv
      simp only [generateInit, length_setAt, List.length_replicate] at this
      exact getAt_replicate_of_lt _ _ _ this
    · intro v p hp hs
      exact absurd (getAt_replicate _ _ _ _ hp) hs
    · intro v hv hne
      exact absurd (hvis0 v hv) hne
    · intro v hv
      rw [hvis0 v hv]; exact ⟨0, rfl⟩
    · intro x hx
      simp only [generateInit, List.mem_singleton] at hx
      exact (vis_setAt _ _ _ hsr).2 (Or.inl hx)
  · intro v hv hq
    exact absurd (hvis0 v hv) (by simpa [generateInit] using hq)
  · unfold bfsMeasure
    have := count_false_setAt _ _ hsf
    simp only [List.count_replicate_self] at this
    simp only [generateInit, List.length_singleton]
    omega

theorem generate_runs {σ : Type} (rs : RandomSource σ) (g : Graph)
    (hsz : g.SizeOk) (hin : g.EntriesInRange) (h1 : 1 < g.V) (rng : σ) :
    g.IsVertex (rs.uniformInt rng 0 (g.V - 1)).1 ∧
    ∃ st1 rng1,
      generateLoop rs g.adj g.V.toNat (rs.uniformInt rng 0 (g.V - 1)).2
        (generateInit g.V (rs.uniformInt rng 0 (g.V - 1)).1) = .ok (st1, rng1) ∧
      SpanningTree.generateRandomSpanningTree rs { graph := g } rng = .ok (st1.parent, rng1) ∧
      TreeInv g (rs.uniformInt rng 0 (g.V - 1)).1 st1 ∧
      Closed g st1.visited [] 0 [] := by
  have hrange := rs.uniformInt_range rng 0 (g.V - 1) (by omega)
  have hsv : g.IsVertex (rs.uniformInt rng 0 (g.V - 1)).1 := by
    unfold Graph.IsVertex; omega
  obtain ⟨hinv, hcl, hme, hsf, _⟩ := treeInv_init hsz hsv
  obtain ⟨st1, rng1, k1, k2, k3⟩ := generateLoop_spec rs g hin _ g.V.toNat
    (rs.uniformInt rng 0 (g.V - 1)).2 _ hinv hcl hme
  refine ⟨hsv, st1, rng1, k1, ?_, k2, k3⟩
  unfold SpanningTree.generateRandomSpanningTree
  have hn1 : ¬ g.V ≤ 1 := by omega
  unfold generateInit at k1
  simp only [hn1, if_false, hsf, k1]

theorem generate_no_fault {σ : Type} (rs : RandomSource σ) (g : Graph)
    (hsz : g.SizeOk) (hin : g.EntriesInRange) (rng : σ) :
    ∃ parent rng1,
      SpanningTree.generateRandomSpanningTree rs { graph := g } rng = .ok (parent, rng1) := by
  by_cases h1 : g.V ≤ 1
  · exact ⟨List.replicate g.V.toNat (-1), rng, by
      unfold SpanningTree.generateRandomSpanningTree; simp [h1]⟩
  · obtain ⟨_, st1, rng1, _, h, _⟩ := generate_runs rs g hsz hin (by omega) rng
    exact ⟨st1.parent, rng1, h⟩

/-- Claim C20: in every graph reachable from `create(V)` by `addEdge` and
`removeEdge` calls the adjacency structure has exactly `V` sequences and every
entry lies in `[0, V)`; consequently `isConnected` and
`generateRandomSpanningTree` never index out of bounds on it: both return a
result, never the out-of-bounds fault. -/
theorem built_indexing_in_bounds {σ : Type} (rs : RandomSource σ) (g : Graph) (hb : g.Built)
    (rng : σ) :
    (g.adj.length : Int) = g.V ∧
    (∀ l ∈ g.adj, ∀ x ∈ l, 0 ≤ x ∧ x < g.V) ∧
    (∃ b, g.isConnected = .ok b) ∧
    g.isConnected ≠ .error .undefinedBehaviour ∧
    (∃ parent rng1,
      SpanningTree.generateRandomSpanningTree rs { graph := g } rng = .ok (parent, rng1)) ∧
    SpanningTree.generateRandomSpanningTree rs { graph := g } rng ≠
      .error .undefinedBehaviour := by
  obtain ⟨hsz, hin⟩ := built_wellformed hb
  have hsz' : (g.adj.length : Int) = g.V := hsz
  obtain ⟨b, hb1, _⟩ := isConnected_result g hsz hin
  obtain ⟨parent, rng1, hg⟩ := generate_no_fault rs g hsz hin rng
  refine ⟨hsz, ?_, ⟨b, hb1⟩, ?_, ⟨parent, rng1, hg⟩, ?_⟩
  · intro l hl x hx
    have := hin l hl x hx
    omega
  · rw [hb1]; intro h; cases h
  · rw [hg]; intro h; cases h

theorem built_indexing_in_bounds_witness :
    (∃ b, Graph.isConnected (((Graph.mk 3 [[], [], []]).addEdge 0 1).2.removeEdge 0 2).2 =
      .ok b) ∧
    (∃ parent rng1, SpanningTree.generateRandomSpanningTree counterSource
      { graph := (((Graph.mk 3 [[], [], []]).addEdge 0 1).2.removeEdge 0 2).2 } 7 =
        .ok (parent, rng1)) :=
  have h := built_indexing_in_bounds counterSource
    (((Graph.mk 3 [[], [], []]).addEdge 0 1).2.removeEdge 0 2).2
    (Graph.Built.removeEdge 0 2 (Graph.Built.addEdge 0 1
      (Graph.Built.create (n := 3) (by decide)))) 7
  ⟨h.2.2.1, h.2.2.2.2.1⟩

theorem sequentialLoop_eq_fold {σ : Type} (rs : RandomSource σ) (t : SpanningTree) :
    ∀ (n : Nat) (rng : σ) (best : Best),
      sequentialLoop rs t n rng best =
        match trialRun rs t n rng with
        | .error e => .error e
        | .ok (trials, rng1) => .ok (trials.foldl Best.update best, rng1) := by
  intro n
  induction n with
  | zero => intro rng best; rfl
  | succ n ih =>
    intro rng best
    simp only [sequentialLoop, trialRun]
    cases SpanningTree.generateRandomSpanningTree rs t rng with
    | error e => rfl
    | ok r =>
      obtain ⟨tree, rng1⟩ := r
      simp only
      cases SpanningTree.countLeaves tree with
      | error e => rfl
      | ok leaves =>
        simp only
        have e1 := ih rng1 { tree := tree, leafCount := leaves }
        have e2 := ih rng1 best
        cases htr : trialRun rs t n rng1 with
        | error e =>
          rw [htr] at e1 e2
          split
          · rw [e1]
          · rw [e2]
        | ok r2 =>
          obtain ⟨rest, rng2⟩ := r2
          rw [htr] at e1 e2
          simp only [List.foldl_cons, Best.update]
          split
          · rw [e1]
          · rw [e2]

theorem trialRun_length {σ : Type} (rs : RandomSource σ) (t : SpanningTree) :
    ∀ (n : Nat) (rng : σ) (trials : List (List Int × Int)) (rng1 : σ),
      trialRun rs t n rng = .ok (trials, rng1) → trials.length = n := by
  intro n
  induction n with
  | zero =>
    intro rng trials rng1 h
    simp only [trialRun] at h
    injection h with h
    injection h with h1 _
    rw [← h1]; rfl
  | succ n ih =>
    intro rng trials rng1 h
    simp only [trialRun] at h
    cases hg : SpanningTree.generateRandomSpanningTree rs t rng with
    | error e => rw [hg] at h; cases h
    | ok r =>
      obtain ⟨tree, rngA⟩ := r
      rw [hg] at h
      simp only at h
      cases hc : SpanningTree.countLeaves tree with
      | error e => rw [hc] at h; cases h
      | ok leaves =>
        rw [hc] at h
        simp only at h
        cases htr : trialRun rs t n rngA with
        | error e => rw [htr] at h; cases h
        | ok r2 =>
          obtain ⟨rest, rngB⟩ := r2
          rw [htr] at h
          simp only at h
          injection h with h
          injection h with h1 _
          rw [← h1, List.length_cons, ih rngA rest rngB htr]

theorem countLeaves_nonneg (parent : List Int) (l : Int)
    (h : SpanningTree.countLeaves parent = .ok l) : 0 ≤ l := by
  unfold SpanningTree.countLeaves at h
  simp only at h
  by_cases h0 : (parent.length : Int) = 0
  · rw [if_pos h0] at h
    injection h with h; omega
  · rw [if_neg h0] at h
    by_cases h1 : (parent.length : Int) = 1
    · rw [if_pos h1] at h
      injection h with h; omega
    · rw [if_neg h1] at h
      cases hc : countLeavesLoop parent 0 (List.replicate parent.length 0) with
      | error e => rw [hc] at h; cases h
      | ok d =>
        rw [hc] at h
        simp only at h
        injection h with h
        omega

theorem trialRun_scores {σ : Type} (rs : RandomSource σ) (t : SpanningTree) :
    ∀ (n : Nat) (rng : σ) (trials : List (List Int × Int)) (rng1 : σ),
      trialRun rs t n rng = .ok (trials, rng1) →
      ∀ tr ∈ trials, SpanningTree.countLeaves tr.1 = .ok tr.2 ∧ 0 ≤ tr.2 := by
  intro n
  induction n with
  | zero =>
    intro rng trials rng1 h
    simp only [trialRun] at h
    injection h with h
    injection h with h1 _
    rw [← h1]; intro tr htr; cases htr
  | succ n ih =>
    intro rng trials rng1 h
    simp only [trialRun] at h
    cases hg : SpanningTree.generateRandomSpanningTree rs t rng with
    | error e => rw [hg] at h; cases h
    | ok r =>
      obtain ⟨tree, rngA⟩ := r
      rw [hg] at h
      simp only at h
      cases hc : SpanningTree.countLeaves tree with
      | error e => rw [hc] at h; cases h
      | ok leaves =>
        rw [hc] at h
        simp only at h
        cases htr : trialRun rs t n rngA with
        | error e => rw [htr] at h; cases h
        | ok r2 =>
          obtain ⟨rest, rngB⟩ := r2
          rw [htr] at h
          simp only at h
          injection h with h
          injection h with h1 _
          rw [← h1]
          intro tr hmem
          rcases List.mem_cons.1 hmem with h0 | h0
          · subst h0
            exact ⟨hc, countLeaves_nonneg tree leaves hc⟩
          · exact ih rngA rest rngB htr tr h0

theorem fold_update_spec (trials : List (List Int × Int)) :
    ∀ best : Best,
      (trials.foldl Best.update best = best ∧ ∀ tr ∈ trials, tr.2 ≤ best.leafCount) ∨
      (∃ (k : Nat) (tk : List Int × Int), trials[k]? = some tk ∧
        trials.foldl Best.update best = { tree := tk.1, leafCount := tk.2 } ∧
        best.leafCount < tk.2 ∧
        (∀ (j : Nat) (tj : List Int × Int), trials[j]? = some tj → tj.2 ≤ tk.2) ∧
        (∀ (j : Nat) (tj : List Int × Int), j < k → trials[j]? = some tj → tj.2 < tk.2)) := by
  induction trials with
  | nil => intro best; left; exact ⟨rfl, fun tr h => by cases h⟩
  | cons t rest ih =>
    intro best
    by_cases hgt : t.2 > best.leafCount
    · have hu : Best.update best t = { tree := t.1, leafCount := t.2 } := by
        unfold Best.update; rw [if_pos hgt]
      rcases ih { tree := t.1, leafCount := t.2 } with ⟨h1, h2⟩ | ⟨k, tk, h1, h2, h3, h4, h5⟩
      · right
        refine ⟨0, t, by simp, ?_, hgt, ?_, ?_⟩
        · rw [List.foldl_cons, hu]; exact h1
        · intro j tj hj
          cases j with
          | zero =>
            simp only [List.getElem?_cons_zero, Option.some.injEq] at hj
            subst hj; exact le_refl _
          | succ j =>
            simp only [List.getElem?_cons_succ] at hj
            exact h2 tj (List.getElem?_mem hj)
        · intro j tj hj; omega
      · right
        simp only at h3
        refine ⟨k + 1, tk, by simpa using h1, ?_, by omega, ?_, ?_⟩
        · rw [List.foldl_cons, hu]; exact h2
        · intro j tj hj
          cases j with
          | zero =>
            simp only [List.getElem?_cons_zero, Option.some.injEq] at hj
            subst hj; omega
          | succ j =>
            simp only [List.getElem?_cons_succ] at hj
            exact h4 j tj hj
        · intro j tj hjk hj
          cases j with
          | zero =>
            simp only [List.getElem?_cons_zero, Option.some.injEq] at hj
            subst hj; exact h3
          | succ j =>
            simp only [List.getElem?_cons_succ] at hj
            exact h5 j tj (by omega) hj
    · have hu : Best.update best t = best := by
        unfold Best.update; rw [if_neg hgt]
      rcases ih best with ⟨h1, h2⟩ | ⟨k, tk, h1, h2, h3, h4, h5⟩
      · left
        refine ⟨by rw [List.foldl_cons, hu]; exact h1, ?_⟩
        intro tr hmem
        rcases List.mem_cons.1 hmem with h0 | h0
        · subst h0; omega
        · exact h2 tr h0
      · right
        refine ⟨k + 1, tk, by simpa using h1, ?_, h3, ?_, ?_⟩
        · rw [List.foldl_cons, hu]; exact h2
        · intro j tj hj
          cases j with
          | zero =>
            simp only [List.getElem?_cons_zero, Option.some.injEq] at hj
            subst hj; omega
          | succ j =>
            simp only [List.getElem?_cons_succ] at hj
            exact h4 j tj hj
        · intro j tj hjk hj
          cases j with
          | zero =>
            simp only [List.getElem?_cons_zero, Option.some.injEq] at hj
            subst hj; omega
          | succ j =>
            simp only [List.getElem?_cons_succ] at hj
            exact h5 j tj (by omega) hj

/-- Claim C16: the running-best selection keeps the earliest maximum.  When the
`n ≥ 1` trials of a loop (the sequential loop or the loop of one worker) started
from best score `-1` are the trees `trials`, with their leaf counts, the loop
returns the trial `t_k` whose leaf count is the maximum and strictly exceeds
that of every earlier trial; the first trial is always accepted because
`countLeaves` is never negative. -/
theorem running_best_keeps_earliest_maximum {σ : Type} (rs : RandomSource σ)
    (t : SpanningTree) (n : Nat) (rng : σ) (trials : List (List Int × Int)) (rng1 : σ)
    (hn : 0 < n) (htr : trialRun rs t n rng = .ok (trials, rng1)) :
    trials.length = n ∧
    (∀ tr ∈ trials, SpanningTree.countLeaves tr.1 = .ok tr.2 ∧ 0 ≤ tr.2) ∧
    (∀ parent leaves, SpanningTree.countLeaves parent = .ok leaves → 0 ≤ leaves) ∧
    (∀ t1 : List Int × Int, trials[0]? = some t1 →
      Best.update { tree := [], leafCount := -1 } t1 = { tree := t1.1, leafCount := t1.2 }) ∧
    ∃ (k : Nat) (tk : List Int × Int), trials[k]? = some tk ∧
      sequentialLoop rs t n rng { tree := [], leafCount := -1 } =
        .ok ({ tree := tk.1, leafCount := tk.2 }, rng1) ∧
      workerLoop rs t n rng { tree := [], leafCount := -1 } =
        .ok ({ tree := tk.1, leafCount := tk.2 }, rng1) ∧
      (∀ (j : Nat) (tj : List Int × Int), trials[j]? = some tj → tj.2 ≤ tk.2) ∧
      (∀ (j : Nat) (tj : List Int × Int), j < k → trials[j]? = some tj → tj.2 < tk.2) := by
  have hlen := trialRun_length rs t n rng trials rng1 htr
  have hsc := trialRun_scores rs t n rng trials rng1 htr
  have hloop : sequentialLoop rs t n rng { tree := [], leafCount := -1 } =
      .ok (trials.foldl Best.update { tree := [], leafCount := -1 }, rng1) := by
    rw [sequentialLoop_eq_fold, htr]
  refine ⟨hlen, hsc, countLeaves_nonneg, ?_, ?_⟩
  · intro t1 h1
    have := (hsc t1 (List.getElem?_mem h1)).2
    unfold Best.update
    rw [if_pos (by simp only; omega)]
  · rcases fold_update_spec trials { tree := [], leafCount := -1 } with
      ⟨_, h2⟩ | ⟨k, tk, h1, h2, _, h4, h5⟩
    · exfalso
      obtain ⟨t1, ht1⟩ : ∃ t1, trials[0]? = some t1 :=
        ⟨trials[0], List.getElem?_eq_getElem (by omega)⟩
      have hm := List.getElem?_mem ht1
      have a := h2 t1 hm
      have b := (hsc t1 hm).2
      simp only at a
      omega
    · refine ⟨k, tk, h1, ?_, ?_, h4, h5⟩
      · rw [hloop, h2]
      · rw [workerLoop_eq_sequentialLoop, hloop, h2]

theorem running_best_keeps_earliest_maximum_witness :
    trialRun counterSource
        { graph := { V := 5, adj := [[1, 2], [0, 2, 3], [0, 1, 4], [1], [2]] } } 4 0 =
      .ok ([([-1, 0, 0, 1, 2], 2), ([1, -1, 1, 1, 2], 3), ([2, 2, -1, 1, 2], 3),
        ([1, 3, 1, -1, 2], 3)], 24) ∧
    sequentialLoop counterSource
        { graph := { V := 5, adj := [[1, 2], [0, 2, 3], [0, 1, 4], [1], [2]] } } 4 0
        { tree := [], leafCount := -1 } =
      .ok ({ tree := [1, -1, 1, 1, 2], leafCount := 3 }, 24) ∧
    ∃ (k : Nat) (tk : List Int × Int),
      [([-1, 0, 0, 1, 2], (2 : Int)), ([1, -1, 1, 1, 2], 3), ([2, 2, -1, 1, 2], 3),
        ([1, 3, 1, -1, 2], 3)][k]? = some tk ∧
      sequentialLoop counterSource
          { graph := { V := 5, adj := [[1, 2], [0, 2, 3], [0, 1, 4], [1], [2]] } } 4 0
          { tree := [], leafCount := -1 } =
        .ok ({ tree := tk.1, leafCount := tk.2 }, 24) :=
  have h := running_best_keeps_earliest_maximum counterSource
    { graph := { V := 5, adj := [[1, 2], [0, 2, 3], [0, 1, 4], [1], [2]] } } 4 0
    [([-1, 0, 0, 1, 2], 2), ([1, -1, 1, 1, 2], 3), ([2, 2, -1, 1, 2], 3), ([1, 3, 1, -1, 2], 3)]
    24 (by decide) (by decide)
  match h.2.2.2.2 with
  | ⟨k, tk, h1, h2, _⟩ => ⟨by decide, by decide, k, tk, h1, h2⟩

theorem sequentialLoop_best_cases {σ : Type} (rs : RandomSource σ) (t : SpanningTree)
    (n : Nat) (rng : σ) (best : Best) (rng1 : σ)
    (h : sequentialLoop rs t n rng { tree := [], leafCount := -1 } = .ok (best, rng1)) :
    best = { tree := [], leafCount := -1 } ∨ best.leafCount > -1 := by
  rw [sequentialLoop_eq_fold] at h
  cases htr : trialRun rs t n rng with
  | error e => rw [htr] at h; cases h
  | ok r =>
    obtain ⟨trials, rng2⟩ := r
    rw [htr] at h
    simp only at h
    injection h with h
    injection h with h1 _
    rcases fold_update_spec trials { tree := [], leafCount := -1 } with
      ⟨h2, _⟩ | ⟨k, tk, _, h2, h3, _, _⟩
    · left; rw [← h1, h2]
    · right; rw [← h1, h2]; exact h3

/-- Claim C17: the sequential path and the parallel path with one worker are
semantically identical: for every graph, every iteration count and the same
generator state handed to the single random source, the one-worker parallel
region (local loop followed by the guarded reduction) and the sequential loop
return the same result, be it an array or a fault. -/
theorem one_worker_parallel_eq_sequential {σ : Type} (rs : RandomSource σ) (t : SpanningTree)
    (rng : σ) (iterations hardwareThreads : Int) :
    t.findBestTreeParallel rs (.openmp [rng]) iterations 1 =
      t.findBestTreeParallel rs (.sequential rng) iterations 1 ∧
    t.findMaxLeafSpanningTree rs (.openmp [rng]) hardwareThreads iterations 1 =
      t.findMaxLeafSpanningTree rs (.sequential rng) hardwareThreads iterations 1 := by
  have key : t.findBestTreeParallel rs (.openmp [rng]) iterations 1 =
      t.findBestTreeParallel rs (.sequential rng) iterations 1 := by
    have h1 : (1 : Int) ≠ 0 := by decide
    simp only [SpanningTree.findBestTreeParallel, parallelRegion, workerBody, h1, if_false,
      Int.tdiv_one, workerLoop_eq_sequentialLoop]
    cases hs : sequentialLoop rs t iterations.toNat rng { tree := [], leafCount := -1 } with
    | error e => rfl
    | ok r =>
      obtain ⟨best, rng1⟩ := r
      simp only
      rcases sequentialLoop_best_cases rs t _ rng best rng1 hs with h | h
      · rw [h]; rfl
      · rw [if_pos h]
  refine ⟨key, ?_⟩
  rw [findMaxLeafSpanningTree_eq, findMaxLeafSpanningTree_eq]
  have e : resolvedThreads hardwareThreads 1 = 1 := by unfold resolvedThreads; simp
  rw [e]; exact key

theorem workerLoop_runs_trials {σ : Type} (rs : RandomSource σ) (t : SpanningTree)
    (n : Nat) (rng : σ) (best best1 : Best) (rng1 : σ)
    (h : workerLoop rs t n rng best = .ok (best1, rng1)) :
    ∃ trials, trialRun rs t n rng = .ok (trials, rng1) ∧ trials.length = n ∧
      best1 = trials.foldl Best.update best := by
  rw [workerLoop_eq_sequentialLoop, sequentialLoop_eq_fold] at h
  cases htr : trialRun rs t n rng with
  | error e => rw [htr] at h; cases h
  | ok r =>
    obtain ⟨trials, rng2⟩ := r
    rw [htr] at h
    simp only at h
    injection h with h
    injection h with h1 h2
    subst h2
    exact ⟨trials, rfl, trialRun_length rs t n rng trials rng2 htr, h1.symm⟩

theorem layerInv_mark {g : Graph} {start : Int} {st : TreeState} {d : Int → Nat}
    (hinv : TreeInv g start st) (hl : LayerInv g start d st)
    {u w : Int} (hu : Vis st.visited u) (hwu : w ∈ g.neighbors u)
    (hw : getAt st.visited w = some false)
    (hM : ∀ x, Vis st.visited x → d x ≤ d u + 1) :
    LayerInv g start (Function.update d w (d u + 1))
      { visited := setAt st.visited w true, parent := setAt st.parent w u, q := st.q ++ [w] } := by
  have hr : 0 ≤ w ∧ w < (st.visited.length : Int) := getAt_lt hw
  have hrp : 0 ≤ w ∧ w < (st.parent.length : Int) := by
    rw [hinv.len_parent, ← hinv.len_visited]; exact hr
  have hu0 : u ≠ -1 := by
    have := getAt_lt hu; omega
  have hne : ∀ v, Vis st.visited v → v ≠ w := by
    intro v hv hc; subst hc
    unfold Vis at hv
    rw [hw] at hv; cases hv
  have hd : ∀ v, Vis st.visited v → Function.update d w (d u + 1) v = d v :=
    fun v hv => Function.update_noteq (hne v hv) _ _
  refine ⟨?_, ?_, ?_, ?_⟩
  · rw [hd start hinv.start_vis]; exact hl.start_zero
  · intro v hv
    show ancestor (setAt st.parent w u) (Function.update d w (d u + 1) v) v = some start
    by_cases hvw : v = w
    · subst hvw
      rw [Function.update_same, ancestor_succ_of_link (getAt_setAt_self _ _ _ hrp) hu0]
      exact ancestor_stable hinv hw u (d u) u start hu (hl.depth u hu)
    · have hv' : Vis st.visited v := by
        rcases (vis_setAt _ _ _ hr).1 hv with h | h
        · exact absurd h hvw
        · exact h
      rw [hd v hv']
      exact ancestor_stable hinv hw u (d v) v start hv' (hl.depth v hv')
  · intro v hv
    show g.Walk (Function.update d w (d u + 1) v) start v
    by_cases hvw : v = w
    · subst hvw
      rw [Function.update_same]
      exact Graph.Walk.step (hl.walk u hu) hwu
    · have hv' : Vis st.visited v := by
        rcases (vis_setAt _ _ _ hr).1 hv with h | h
        · exact absurd h hvw
        · exact h
      rw [hd v hv']
      exact hl.walk v hv'
  · show (st.q ++ [w]).Pairwise _
    rw [List.pairwise_append]
    refine ⟨?_, List.pairwise_singleton _ _, ?_⟩
    · apply List.Pairwise.imp_of_mem _ hl.sorted
      intro a b ha hb hab
      rw [hd a (hinv.queue_vis a ha), hd b (hinv.queue_vis b hb)]
      exact hab
    · intro a ha b hb
      simp only [List.mem_singleton] at hb
      subst hb
      rw [hd a (hinv.queue_vis a ha), Function.update_same]
      exact hM a (hinv.queue_vis a ha)

theorem layerVisit (g : Graph) (start u : Int) :
    ∀ (todo : List Int) (st st1 : TreeState) (d : Int → Nat),
      TreeInv g start st → LayerInv g start d st → Vis st.visited u →
      (∀ w ∈ todo, w ∈ g.neighbors u) →
      (∀ x ∈ st.q, d u ≤ d x) →
      (∀ x, Vis st.visited x → d x ≤ d u + 1) →
      Layered g d st.visited st.q u todo →
      generateVisit u todo st = .ok st1 →
      ∃ d1, TreeInv g start st1 ∧ LayerInv g start d1 st1 ∧
        (∀ x ∈ st1.q, d1 u ≤ d1 x) ∧
        (∀ x, Vis st1.visited x → d1 x ≤ d1 u + 1) ∧
        Layered g d1 st1.visited st1.q u [] := by
  intro todo
  induction todo with
  | nil =>
    intro st st1 d hinv hl _ _ hL hM hlay h
    simp only [generateVisit] at h
    injection h with h
    subst h
    exact ⟨d, hinv, hl, hL, hM, hlay⟩
  | cons w rest ih =>
    intro st st1 d hinv hl hu hn hL hM hlay h
    have hwu := hn w (List.mem_cons_self _ _)
    have hrest : ∀ x ∈ rest, x ∈ g.neighbors u := fun x hx => hn x (List.mem_cons_of_mem _ hx)
    simp only [generateVisit] at h
    cases hb : getAt st.visited w with
    | none => rw [hb] at h; cases h
    | some b =>
      rw [hb] at h
      cases b with
      | true =>
        simp only at h
        have hlay' : Layered g d st.visited st.q u rest := by
          intro x hx hxq c hc
          rcases hlay x hx hxq c hc with ⟨h1, h2⟩ | h2
          · rcases List.mem_cons.1 h2 with h3 | h3
            · right
              subst h3; subst h1
              exact ⟨hb, hM c hb⟩
            · exact Or.inl ⟨h1, h3⟩
          · exact Or.inr h2
        exact ih st st1 d hinv hl hu hrest hL hM hlay' h
      | false =>
        simp only at h
        cases hp : getAt st.parent w with
        | none => rw [hp] at h; cases h
        | some p0 =>
          rw [hp] at h
          simp only at h
          have hr : 0 ≤ w ∧ w < (st.visited.length : Int) := getAt_lt hb
          have hne : ∀ v, Vis st.visited v → v ≠ w := by
            intro v hv hc; subst hc
            unfold Vis at hv
            rw [hb] at hv; cases hv
          have hd : ∀ v, Vis st.visited v → Function.update d w (d u + 1) v = d v :=
            fun v hv => Function.update_noteq (hne v hv) _ _
          have hvis : ∀ v, Vis (setAt st.visited w true) v → v = w ∨ Vis st.visited v :=
            fun v hv => (vis_setAt _ _ _ hr).1 hv
          have hu' : Vis (setAt st.visited w true) u := (vis_setAt _ _ _ hr).2 (Or.inr hu)
          refine ih _ st1 (Function.update d w (d u + 1)) (treeInv_mark hinv hu hwu hb)
            (layerInv_mark hinv hl hu hwu hb hM) hu' hrest ?_ ?_ ?_ h
          · intro x hx
            show Function.update d w (d u + 1) u ≤ Function.update d w (d u + 1) x
            rw [hd u hu]
            rcases List.mem_append.1 hx with h1 | h1
            · rw [hd x (hinv.queue_vis x h1)]; exact hL x h1
            · simp only [List.mem_singleton] at h1
              subst h1
              rw [Function.update_same]; omega
          · intro x hx
            show Function.update d w (d u + 1) x ≤ Function.update d w (d u + 1) u + 1
            rw [hd u hu]
            rcases hvis x hx with h1 | h1
            · subst h1; rw [Function.update_same]
            · rw [hd x h1]; exact hM x h1
          · intro x hx hxq c hc
            have hxw : x ≠ w := by
              intro hc2; apply hxq; subst hc2; simp
            have hx' : Vis st.visited x := by
              rcases hvis x hx with h1 | h1
              · exact absurd h1 hxw
              · exact h1
            have hxq' : x ∉ st.q := fun hm => hxq (List.mem_append_left _ hm)
            rcases hlay x hx' hxq' c hc with ⟨h1, h2⟩ | ⟨h2, h3⟩
            · rcases List.mem_cons.1 h2 with h3 | h3
              · right
                subst h3; subst h1
                refine ⟨(vis_setAt _ _ _ hr).2 (Or.inl rfl), ?_⟩
                rw [Function.update_same, hd x hu]
              · exact Or.inl ⟨h1, h3⟩
            · right
              refine ⟨(vis_setAt _ _ _ hr).2 (Or.inr h2), ?_⟩
              rw [hd c h2, hd x hx']; exact h3

theorem layerLoop {σ : Type} (rs : RandomSource σ) (g : Graph) (start : Int) :
    ∀ (fuel : Nat) (rng rng1 : σ) (st st1 : TreeState) (d : Int → Nat),
      TreeInv g start st → LayerInv g start d st →
      (∀ x ∈ st.q, ∀ w, Vis st.visited w → d w ≤ d x + 1) →
      Layered g d st.visited st.q 0 [] →
      generateLoop rs g.adj fuel rng st = .ok (st1, rng1) →
      ∃ d1, TreeInv g start st1 ∧ LayerInv g start d1 st1 ∧
        Layered g d1 st1.visited [] 0 [] := by
  intro fuel
  induction fuel with
  | zero =>
    intro rng rng1 st st1 d hinv hl _ hlay h
    unfold generateLoop at h
    cases hq : st.q with
    | nil =>
      rw [hq] at h
      simp only at h
      injection h with h
      injection h with h1 _
      subst h1
      rw [hq] at hlay
      exact ⟨d, hinv, hl, hlay⟩
    | cons u rest =>
      rw [hq] at h
      simp only at h
      cases h
  | succ fuel ih =>
    intro rng rng1 st st1 d hinv hl hO hlay h
    unfold generateLoop at h
    cases hq : st.q with
    | nil =>
      rw [hq] at h
      simp only at h
      injection h with h
      injection h with h1 _
      subst h1
      rw [hq] at hlay
      exact ⟨d, hinv, hl, hlay⟩
    | cons u rest =>
      rw [hq] at h
      simp only at h
      have huq : u ∈ st.q := by rw [hq]; simp
      have hu : Vis st.visited u := hinv.queue_vis u huq
      cases hnb : getAt g.adj u with
      | none => rw [hnb] at h; cases h
      | some nbrs =>
        rw [hnb] at h
        simp only at h
        have hnbrs := neighbors_of_getAt hnb
        have hperm := rs.shuffle_perm rng nbrs
        cases hv : generateVisit u (rs.shuffle rng nbrs).1 { st with q := rest } with
        | error e => rw [hv] at h; cases h
        | ok st2 =>
          rw [hv] at h
          simp only at h
          have hsorted : (u :: rest).Pairwise (fun a b => d a ≤ d b) := by
            have := hl.sorted; rw [hq] at this; exact this
          have hinv0 : TreeInv g start { st with q := rest } :=
            ⟨hinv.len_visited, hinv.len_parent, hinv.start_vis, hinv.start_parent,
              hinv.unvisited, hinv.linked, hinv.has_parent, hinv.reach,
              fun x hx => hinv.queue_vis x (by rw [hq]; exact List.mem_cons_of_mem _ hx)⟩
          have hl0 : LayerInv g start d { st with q := rest } :=
            ⟨hl.start_zero, hl.depth, hl.walk, (List.pairwise_cons.1 hsorted).2⟩
          have hlay0 : Layered g d st.visited rest u (rs.shuffle rng nbrs).1 := by
            intro x hx hxq c hc
            by_cases hxu : x = u
            · subst hxu
              exact Or.inl ⟨rfl, hperm.symm.subset (by rw [hnbrs] at hc; exact hc)⟩
            · have : x ∉ st.q := by
                rw [hq]
                intro hm
                rcases List.mem_cons.1 hm with h1 | h1
                · exact hxu h1
                · exact hxq h1
              rcases hlay x hx this c hc with ⟨_, h2⟩ | h2
              · cases h2
              · exact Or.inr h2
          obtain ⟨d1, k1, k2, k3, k4, k5⟩ := layerVisit g start u (rs.shuffle rng nbrs).1
            { st with q := rest } st2 d hinv0 hl0 hu
            (fun w hw => by rw [hnbrs]; exact hperm.subset hw)
            (fun x hx => (List.pairwise_cons.1 hsorted).1 x hx)
            (fun x hx => hO u huq x hx) hlay0 hv
          have hlay2 : Layered g d1 st2.visited st2.q 0 [] := by
            intro x hx hxq c hc
            rcases k5 x hx hxq c hc with ⟨_, h2⟩ | h2
            · cases h2
            · exact Or.inr h2
          exact ih _ rng1 st2 st1 d1 k1 k2
            (fun x hx w hw => le_trans (k4 w hw) (Nat.add_le_add_right (k3 x hx) 1)) hlay2 h

theorem layered_walk {g : Graph} {start : Int} {st : TreeState} {d : Int → Nat}
    (hinv : TreeInv g start st) (hl : LayerInv g start d st)
    (hlay : Layered g d st.visited [] 0 []) :
    ∀ (j : Nat) (x : Int), g.Walk j start x → Vis st.visited x ∧ d x ≤ j := by
  intro j x hw
  induction hw with
  | nil => exact ⟨hinv.start_vis, by rw [hl.start_zero]⟩
  | step _ hc ih =>
    have ih' := ih hinv hl
    rcases hlay _ ih'.1 (by simp) _ hc with ⟨_, h2⟩ | ⟨h2, h3⟩
    · cases h2
    · exact ⟨h2, by omega⟩

theorem ancestor_unique {parent : List Int} {root : Int}
    (hr : getAt parent root = some (-1)) {v : Int} {k j : Nat}
    (hk : ancestor parent k v = some root) (hj : ancestor parent j v = some root) : k = j := by
  have aux : ∀ (a b : Nat), a ≤ b → ancestor parent a v = some root →
      ancestor parent b v = some root → a = b := by
    intro a b hab ha hb
    obtain ⟨r, rfl⟩ : ∃ r, b = a + r := ⟨b - a, by omega⟩
    rw [ancestor_add, ha] at hb
    simp only [Option.some_bind] at hb
    by_contra hne
    rw [ancestor_root_none hr r (by omega)] at hb
    cases hb
  rcases Nat.le_total k j with h | h
  · exact aux k j h hk hj
  · exact (aux j k h hj hk).symm

theorem root_children {g : Graph} {root : Int} {parent : List Int}
    (h : IsShortestPathTree g root parent) {c : Int} (hc : c ∈ g.neighbors root)
    (hcv : g.IsVertex c) (hne : c ≠ root) : getAt parent c = some root := by
  obtain ⟨k, hk, _, hmin⟩ := h c hcv
  have h1 : k ≤ 1 := hmin 1 (Graph.Walk.step (Graph.Walk.nil root) hc)
  cases k with
  | zero =>
    simp only [ancestor, Option.some.injEq] at hk
    exact absurd hk hne
  | succ k =>
    have hk0 : k = 0 := by omega
    subst hk0
    obtain ⟨p, hp, _, hp0⟩ := ancestor_succ_eq_some hk
    simp only [ancestor, Option.some.injEq] at hp0
    rw [hp, hp0]

theorem generate_layers {σ : Type} (rs : RandomSource σ) (g : Graph)
    (hsz : g.SizeOk) (hin : g.EntriesInRange) (hsym : g.Symmetric) (hconn : g.Connected)
    (hV : 1 ≤ g.V) (rng : σ) :
    ∃ parent rng1,
      SpanningTree.generateRandomSpanningTree rs { graph := g } rng = .ok (parent, rng1) ∧
      IsSpanningTreeOf g (drawnRoot rs g rng) parent ∧
      IsShortestPathTree g (drawnRoot rs g rng) parent := by
  by_cases h1 : g.V ≤ 1
  · obtain ⟨parent, rng1, k1, k2⟩ := generate_result rs g hsz hin hsym hconn hV rng
    refine ⟨parent, rng1, k1, k2, ?_⟩
    have hroot : drawnRoot rs g rng = 0 := by unfold drawnRoot; simp [h1]
    rw [hroot]
    intro v hv
    unfold Graph.IsVertex at hv
    have : v = 0 := by omega
    subst this
    exact ⟨0, rfl, Graph.Walk.nil 0, fun j _ => Nat.zero_le j⟩
  · have hroot : drawnRoot rs g rng = (rs.uniformInt rng 0 (g.V - 1)).1 := by
      unfold drawnRoot; simp [h1]
    rw [hroot]
    obtain ⟨hsv, st1, rng1, hloop, hgen, hinv1, hcl1⟩ :=
      generate_runs rs g hsz hin (by omega) rng
    obtain ⟨hinv0, _, _, _, hvis0⟩ := treeInv_init hsz hsv
    have hl0 : LayerInv g (rs.uniformInt rng 0 (g.V - 1)).1 (fun _ => 0)
        (generateInit g.V (rs.uniformInt rng 0 (g.V - 1)).1) := by
      refine ⟨rfl, ?_, ?_, ?_⟩
      · intro v hv
        rw [hvis0 v hv]; rfl
      · intro v hv
        rw [hvis0 v hv]; exact Graph.Walk.nil _
      · simp [generateInit]
    obtain ⟨d1, _, hl1, hlay1⟩ := layerLoop rs g _ g.V.toNat _ rng1 _ st1 (fun _ => 0)
      hinv0 hl0 (fun _ _ _ _ => Nat.zero_le _)
      (fun b hb hbq => absurd (hvis0 b hb) (by simpa [generateInit] using hbq)) hloop
    refine ⟨st1.parent, rng1, hgen, treeInv_final hsz hsym hconn hsv hinv1 hcl1, ?_⟩
    intro v hv
    have hr : g.Reachable (rs.uniformInt rng 0 (g.V - 1)).1 v :=
      reachable_trans (reachable_symm hsym (hconn _ hsv)) (hconn v hv)
    have hvis : Vis st1.visited v := closed_reach hcl1 hinv1.start_vis hr
    exact ⟨d1 v, hl1.depth v hvis, hl1.walk v hvis,
      fun j hj => (layered_walk hinv1 hl1 hlay1 j v hj).2⟩

/-- Claim C19: every tree produced by `generateRandomSpanningTree` on a connected
graph is a breadth-first (shortest-path) tree from its root: for every random
source and every vertex `v`, the number of parent links from `v` to the root is
the length of a shortest walk from the root to `v`; in particular every
neighbour of the root is a child of the root. -/
theorem generateRandomSpanningTree_is_shortest_path_tree {σ : Type} (rs : RandomSource σ)
    (g : Graph) (hsz : g.SizeOk) (hin : g.EntriesInRange) (hsym : g.Symmetric)
    (hconn : g.Connected) (hV : 1 ≤ g.V) (rng : σ) :
    ∃ parent rng1,
      SpanningTree.generateRandomSpanningTree rs { graph := g } rng = .ok (parent, rng1) ∧
      (∀ v, g.IsVertex v →
        ∃ k, ancestor parent k v = some (drawnRoot rs g rng) ∧
          (∀ j, ancestor parent j v = some (drawnRoot rs g rng) → j = k) ∧
          g.Walk k (drawnRoot rs g rng) v ∧
          ∀ j, g.Walk j (drawnRoot rs g rng) v → k ≤ j) ∧
      (∀ c ∈ g.neighbors (drawnRoot rs g rng), c ≠ drawnRoot rs g rng →
        getAt parent c = some (drawnRoot rs g rng)) := by
  obtain ⟨parent, rng1, h1, h2, h3⟩ := generate_layers rs g hsz hin hsym hconn hV rng
  refine ⟨parent, rng1, h1, ?_, ?_⟩
  · intro v hv
    obtain ⟨k, hk, hw, hmin⟩ := h3 v hv
    exact ⟨k, hk, fun j hj => ancestor_unique h2.root_sentinel hj hk, hw, hmin⟩
  · intro c hc hne
    have hcr := neighbors_in_range hin hc
    have hsz' : (g.adj.length : Int) = g.V := hsz
    exact root_children h3 hc (by unfold Graph.IsVertex; omega) hne

theorem generateRandomSpanningTree_is_shortest_path_tree_witness :
    ∃ parent rng1,
      SpanningTree.generateRandomSpanningTree counterSource
        { graph := { V := 5, adj := [[1, 2], [0, 2, 3], [0, 1, 4], [1], [2]] } } 3 =
          .ok (parent, rng1) ∧
      (∀ c ∈ Graph.neighbors { V := 5, adj := [[1, 2], [0, 2, 3], [0, 1, 4], [1], [2]] }
          (drawnRoot counterSource { V := 5, adj := [[1, 2], [0, 2, 3], [0, 1, 4], [1], [2]] } 3),
        c ≠ drawnRoot counterSource { V := 5, adj := [[1, 2], [0, 2, 3], [0, 1, 4], [1], [2]] } 3 →
        getAt parent c =
          some (drawnRoot counterSource
            { V := 5, adj := [[1, 2], [0, 2, 3], [0, 1, 4], [1], [2]] } 3)) :=
  have h := generateRandomSpanningTree_is_shortest_path_tree counterSource
    { V := 5, adj := [[1, 2], [0, 2, 3], [0, 1, 4], [1], [2]] } (by decide) (by decide)
    (by decide) (connected_of_isConnected (by decide) (by decide) (by decide)) (by decide) 3
  match h with
  | ⟨parent, rng1, h1, _, h3⟩ => ⟨parent, rng1, h1, h3⟩

theorem trialRun_generated {σ : Type} (rs : RandomSource σ) (t : SpanningTree) :
    ∀ (n : Nat) (rng : σ) (trials : List (List Int × Int)) (rng1 : σ),
      trialRun rs t n rng = .ok (trials, rng1) → ∀ tr ∈ trials, Generated rs t tr.1 := by
  intro n
  induction n with
  | zero =>
    intro rng trials rng1 h
    simp only [trialRun] at h
    injection h with h
    injection h with h1 _
    rw [← h1]; intro tr htr; cases htr
  | succ n ih =>
    intro rng trials rng1 h
    simp only [trialRun] at h
    cases hg : SpanningTree.generateRandomSpanningTree rs t rng with
    | error e => rw [hg] at h; cases h
    | ok r =>
      obtain ⟨tree, rngA⟩ := r
      rw [hg] at h
      simp only at h
      cases hc : SpanningTree.countLeaves tree with
      | error e => rw [hc] at h; cases h
      | ok leaves =>
        rw [hc] at h
        simp only at h
        cases htr : trialRun rs t n rngA with
        | error e => rw [htr] at h; cases h
        | ok r2 =>
          obtain ⟨rest, rngB⟩ := r2
          rw [htr] at h
          simp only at h
          injection h with h
          injection h with h1 _
          rw [← h1]
          intro tr hmem
          rcases List.mem_cons.1 hmem with h0 | h0
          · subst h0
            exact ⟨rng, rngA, hg⟩
          · exact ih rngA rest rngB htr tr h0

theorem sequentialLoop_generated {σ : Type} (rs : RandomSource σ) (t : SpanningTree)
    (n : Nat) (rng : σ) (best : Best) (rng1 : σ)
    (h : sequentialLoop rs t n rng { tree := [], leafCount := -1 } = .ok (best, rng1)) :
    best = { tree := [], leafCount := -1 } ∨ (best.leafCount > -1 ∧ Generated rs t best.tree) := by
  rw [sequentialLoop_eq_fold] at h
  cases htr : trialRun rs t n rng with
  | error e => rw [htr] at h; cases h
  | ok r =>
    obtain ⟨trials, rng2⟩ := r
    rw [htr] at h
    simp only at h
    injection h with h
    injection h with h1 _
    rcases fold_update_spec trials { tree := [], leafCount := -1 } with
      ⟨h2, _⟩ | ⟨k, tk, hk, h2, h3, _, _⟩
    · left; rw [← h1, h2]
    · right
      rw [← h1, h2]
      exact ⟨h3, trialRun_generated rs t n rng trials rng2 htr tk (List.getElem?_mem hk)⟩

theorem parallelRegion_generated {σ : Type} (rs : RandomSource σ) (t : SpanningTree)
    (iterations numThreads : Int) :
    ∀ (team : List σ) (shared shared1 : Best),
      (shared.tree = [] ∨ Generated rs t shared.tree) →
      parallelRegion rs t iterations numThreads team shared = .ok shared1 →
      (shared1.tree = [] ∨ Generated rs t shared1.tree) := by
  intro team
  induction team with
  | nil =>
    intro shared shared1 hs h
    simp only [parallelRegion] at h
    injection h with h
    rw [← h]; exact hs
  | cons r team ih =>
    intro shared shared1 hs h
    simp only [parallelRegion] at h
    cases hb : workerBody rs t iterations numThreads r shared with
    | error e => rw [hb] at h; cases h
    | ok s2 =>
      rw [hb] at h
      simp only at h
      refine ih s2 shared1 ?_ h
      unfold workerBody at hb
      split at hb
      · cases hb
      · simp only [workerLoop_eq_sequentialLoop] at hb
        cases hl : sequentialLoop rs t (Int.tdiv iterations numThreads).toNat r
            { tree := [], leafCount := -1 } with
        | error e => rw [hl] at hb; cases hb
        | ok res =>
          obtain ⟨lb, rng1⟩ := res
          rw [hl] at hb
          simp only at hb
          split at hb
          · injection hb with hb
            rw [← hb]
            rcases sequentialLoop_generated rs t _ r lb rng1 hl with h1 | h1
            · left; rw [h1]
            · right; exact h1.2
          · injection hb with hb
            rw [← hb]; exact hs

theorem findBestTreeParallel_generated {σ : Type} (rs : RandomSource σ) (t : SpanningTree)
    (build : Build σ) (iterations numThreads : Int) (tree : List Int)
    (h : t.findBestTreeParallel rs build iterations numThreads = .ok tree) :
    tree = [] ∨ Generated rs t tree := by
  cases build with
  | sequential rng =>
    simp only [SpanningTree.findBestTreeParallel] at h
    cases hl : sequentialLoop rs t iterations.toNat rng { tree := [], leafCount := -1 } with
    | error e => rw [hl] at h; cases h
    | ok res =>
      obtain ⟨b, rng1⟩ := res
      rw [hl] at h
      simp only at h
      injection h with h
      rw [← h]
      rcases sequentialLoop_generated rs t _ rng b rng1 hl with h1 | h1
      · left; rw [h1]
      · right; exact h1.2
  | openmp team =>
    simp only [SpanningTree.findBestTreeParallel] at h
    cases hp : parallelRegion rs t iterations numThreads team { tree := [], leafCount := -1 } with
    | error e => rw [hp] at h; cases h
    | ok s1 =>
      rw [hp] at h
      simp only at h
      injection h with h
      rw [← h]
      exact parallelRegion_generated rs t iterations numThreads team _ s1 (Or.inl rfl) hp

theorem k4_neighbors (r c : Int)
    (hr : Graph.IsVertex { V := 4, adj := [[1, 2, 3], [0, 2, 3], [0, 1, 3], [0, 1, 2]] } r)
    (hc : Graph.IsVertex { V := 4, adj := [[1, 2, 3], [0, 2, 3], [0, 1, 3], [0, 1, 2]] } c)
    (hne : c ≠ r) :
    c ∈ Graph.neighbors { V := 4, adj := [[1, 2, 3], [0, 2, 3], [0, 1, 3], [0, 1, 2]] } r := by
  obtain ⟨r0, r4⟩ := hr
  obtain ⟨c0, c4⟩ := hc
  simp only at r4 c4
  interval_cases r <;> interval_cases c <;> first | exact absurd rfl hne | decide

theorem k4_star {root : Int} {parent : List Int}
    (h1 : IsSpanningTreeOf { V := 4, adj := [[1, 2, 3], [0, 2, 3], [0, 1, 3], [0, 1, 2]] }
      root parent)
    (h2 : IsShortestPathTree { V := 4, adj := [[1, 2, 3], [0, 2, 3], [0, 1, 3], [0, 1, 2]] }
      root parent) :
    parent = (List.range 4).map (fun (i : Nat) => if (i : Int) = root then -1 else root) := by
  have hlen : parent.length = 4 := by
    have := h1.length_eq
    simp only at this
    omega
  apply List.ext_getElem?
  intro k
  by_cases hk : k < 4
  · have hkv : Graph.IsVertex { V := 4, adj := [[1, 2, 3], [0, 2, 3], [0, 1, 3], [0, 1, 2]] }
        (k : Int) := by
      unfold Graph.IsVertex; simp only; omega
    rw [← getAt_natCast]
    rw [List.getElem?_map, List.getElem?_range hk]
    simp only [Option.map_some']
    by_cases hkr : (k : Int) = root
    · rw [if_pos hkr, hkr]; exact h1.root_sentinel
    · rw [if_neg hkr]
      exact root_children h2 (k4_neighbors root k h1.root_vertex hkv hkr) hkv hkr
  · rw [List.getElem?_eq_none (by omega), List.getElem?_eq_none (by simp; omega)]

theorem k4_generated_leaves {σ : Type} (rs : RandomSource σ) (tree : List Int)
    (h : Generated rs { graph := { V := 4, adj := [[1, 2, 3], [0, 2, 3], [0, 1, 3], [0, 1, 2]] } }
      tree) :
    SpanningTree.countLeaves tree = .ok 3 := by
  obtain ⟨rng, rng1, hg⟩ := h
  obtain ⟨parent, rng2, k1, k2, k3⟩ := generate_layers rs
    { V := 4, adj := [[1, 2, 3], [0, 2, 3], [0, 1, 3], [0, 1, 2]] } (by decide) (by decide)
    (by decide) (connected_of_isConnected (by decide) (by decide) (by decide)) (by decide) rng
  rw [hg] at k1
  injection k1 with k1
  injection k1 with k1 _
  subst k1
  have hstar := k4_star k2 k3
  obtain ⟨r0, r4⟩ := k2.root_vertex
  simp only at r4
  rw [hstar]
  generalize drawnRoot rs _ rng = root at r0 r4
  interval_cases root <;> decide

theorem leafCount_le_three (parent : List Int) (root : Int) {g : Graph}
    (hsz : g.SizeOk) (hin : g.EntriesInRange) (hV : g.V = 4)
    (h : IsSpanningTreeOf g root parent) : leafCount parent ≤ 3 := by
  have hlen : parent.length = 4 := by
    have := h.length_eq
    omega
  have hsum := treeDegree_sum hsz hin h
  unfold leafCount
  rw [hlen] at hsum ⊢
  have e : List.range 4 = [0, 1, 2, 3] := by decide
  rw [e] at hsum ⊢
  simp only [List.map_cons, List.map_nil, List.sum_cons, List.sum_nil] at hsum
  simp only [List.countP_cons, List.countP_nil, beq_iff_eq]
  split_ifs <;> omega

/-- Claim C11: on the complete graph on 4 vertices no spanning tree has more than
3 leaves, and the search finds a tree with 3 leaves: for every random source and
every search with at least one trial, on either compilation path, the tree
returned by `findMaxLeafSpanningTree` has `countLeaves` equal to 3. -/
theorem complete_graph_four_finds_three_leaves {σ : Type} (rs : RandomSource σ)
    (build : Build σ) (hardwareThreads iterations numThreads : Int)
    (htrial : 0 < build.trialCount iterations (resolvedThreads hardwareThreads numThreads)) :
    (∀ parent root,
      IsSpanningTreeOf { V := 4, adj := [[1, 2, 3], [0, 2, 3], [0, 1, 3], [0, 1, 2]] } root
        parent →
      SpanningTree.countLeaves parent = .ok (leafCount parent : Int) ∧ leafCount parent ≤ 3) ∧
    ∃ tree root,
      SpanningTree.findMaxLeafSpanningTree rs
        { graph := { V := 4, adj := [[1, 2, 3], [0, 2, 3], [0, 1, 3], [0, 1, 2]] } } build
        hardwareThreads iterations numThreads = .ok tree ∧
      IsSpanningTreeOf { V := 4, adj := [[1, 2, 3], [0, 2, 3], [0, 1, 3], [0, 1, 2]] } root
        tree ∧
      SpanningTree.countLeaves tree = .ok 3 := by
  have hsz : Graph.SizeOk { V := 4, adj := [[1, 2, 3], [0, 2, 3], [0, 1, 3], [0, 1, 2]] } := by
    decide
  have hin : Graph.EntriesInRange
      { V := 4, adj := [[1, 2, 3], [0, 2, 3], [0, 1, 3], [0, 1, 2]] } := by decide
  refine ⟨?_, ?_⟩
  · intro parent root h
    refine ⟨?_, leafCount_le_three parent root hsz hin rfl h⟩
    have hlen : 2 ≤ parent.length := by
      have := h.length_eq
      simp only at this
      omega
    exact countLeaves_of_valid parent hlen (spanningTree_entries hsz hin h)
  · obtain ⟨tree, root, h1, h2, _⟩ := findBestTreeParallel_valid rs _ hsz hin (by decide)
      (connected_of_isConnected (by decide) (by decide) (by decide)) (by decide) build
      iterations (resolvedThreads hardwareThreads numThreads) htrial
    refine ⟨tree, root, by rw [findMaxLeafSpanningTree_eq]; exact h1, h2, ?_⟩
    rcases findBestTreeParallel_generated rs _ build iterations _ tree h1 with h3 | h3
    · subst h3
      exact absurd h2 (not_spanningTree_nil _ (by decide) root)
    · exact k4_generated_leaves rs tree h3

theorem complete_graph_four_finds_three_leaves_witness :
    ∃ tree,
      SpanningTree.findMaxLeafSpanningTree counterSource
        { graph := { V := 4, adj := [[1, 2, 3], [0, 2, 3], [0, 1, 3], [0, 1, 2]] } }
        (.openmp [2, 9]) 4 7 2 = .ok tree ∧
      SpanningTree.countLeaves tree = .ok 3 :=
  have h := complete_graph_four_finds_three_leaves counterSource (.openmp [2, 9]) 4 7 2
    (by decide)
  match h.2 with
  | ⟨tree, _, h1, _, h3⟩ => ⟨tree, h1, h3⟩

/-- Claim C14 fails on a graph with a self-loop.  After `create(1)` and
`addEdge(0, 0)` the adjacency list is `[[0, 0]]`; `saveToFile` writes the header
`1 1` (edge count 2 / 2 = 1) and, since `0 < 0` is false, no edge line, so the
header count differs from the number of lines written, and `fromFile` on that
file runs out of input in its first iteration and does not return the graph.
On the triangle, a graph without self-loops, the same calls do give back the
edges. -/
theorem save_load_self_loop_mismatch :
    Graph.Built ((Graph.mk 1 [[]]).addEdge 0 0).2 ∧
    ((Graph.mk 1 [[]]).addEdge 0 0).2 = { V := 1, adj := [[0, 0]] } ∧
    Graph.saveToFile { V := 1, adj := [[0, 0]] } = .ok [1, 1] ∧
    Graph.fromFile [1, 1] = .error .undefinedBehaviour ∧
    Graph.fromFile [1, 1] ≠ .ok { V := 1, adj := [[0, 0]] } ∧
    Graph.saveToFile { V := 3, adj := [[2, 1], [2, 0], [1, 0]] } =
      .ok [3, 3, 0, 2, 0, 1, 1, 2] ∧
    Graph.fromFile [3, 3, 0, 2, 0, 1, 1, 2] = .ok { V := 3, adj := [[2, 1], [0, 2], [0, 1]] } := by
  refine ⟨Graph.Built.addEdge 0 0 (Graph.Built.create (n := 1) (by decide)), by decide,
    by decide, by decide, by decide, by decide, by decide⟩

end SpanningTreeRepo
